import Mathlib

/-!
# Verification of the iridium-sniffer core decoders

Shallow embedding of the IDA (Iridium Data) frame decoder
(`src/ida_decode.c`), the IDA multi-burst reassembler, the SBD/ACARS
multi-packet dispatcher (`src/sbd_acars.c`) and the voice-call clusterer
and archive (`src/voice_decode.c`), together with proofs settling the
frozen claims about them.

Modelling conventions:
* machine integers are `Nat` (with an explicit `% 2^64` where the C code
  relies on `uint64_t` wraparound);
* C `double` quantities that are only compared and averaged (frequencies,
  LLRs, magnitudes) are modelled as `ℚ`;
* C bit arrays are modelled as `Nat → Bool` index functions or as
  `List Bool`, byte buffers as `List Nat`;
* fallible functions return `Option`.
-/

set_option maxRecDepth 8000
set_option maxHeartbeats 1000000

namespace IridiumSniffer

/-! ## Bit packing helpers

Modelled from the spec: `bits_to_uint` / `uint_to_bits` are shared
primitives declared in `frame_decode.h` (not part of the supplied
sources).  The spec (§9, "Bit-packed parsing") fixes their convention:
internal bit packing is MSB-first. -/

/-- Modelled from the spec: `bits_to_uint(bits, n)` packs `n` bits
MSB-first into an unsigned integer (missing from the sources; declared in
`frame_decode.h`). `f` indexes the bit array. -/
def bitsToUintF (f : Nat → Bool) (n : Nat) : Nat :=
  (List.range n).foldl (fun acc i => 2 * acc + (f i).toNat) 0

/-- Modelled from the spec: `uint_to_bits(val, out, n)` writes the low
`n` bits of `val` MSB-first (missing from the sources; declared in
`frame_decode.h`). -/
def natToBits (v n : Nat) : List Bool :=
  (List.range n).map (fun i => v.testBit (n - 1 - i))

/-- MSB-first packing of a bit list (list form of `bits_to_uint`). -/
def bitsToNat (l : List Bool) : Nat :=
  l.foldl (fun acc b => 2 * acc + b.toNat) 0

theorem bitsToNat_foldl (l : List Bool) (acc : Nat) :
    l.foldl (fun a b => 2 * a + b.toNat) acc = acc * 2 ^ l.length + bitsToNat l := by
  induction l generalizing acc with
  | nil => simp [bitsToNat]
  | cons b l ih =>
      show l.foldl _ (2 * acc + b.toNat) = _
      rw [ih (2 * acc + b.toNat)]
      have hb : bitsToNat (b :: l) = b.toNat * 2 ^ l.length + bitsToNat l := by
        show l.foldl _ (2 * 0 + b.toNat) = _
        rw [ih (2 * 0 + b.toNat)]
        ring_nf
      rw [hb]
      simp only [List.length_cons, Nat.pow_succ]
      ring

theorem bitsToUintF_succ (f : Nat → Bool) (n : Nat) :
    bitsToUintF f (n + 1) = 2 * bitsToUintF f n + (f n).toNat := by
  unfold bitsToUintF
  rw [List.range_succ, List.foldl_append]
  rfl

theorem bitsToUintF_lt (f : Nat → Bool) (n : Nat) : bitsToUintF f n < 2 ^ n := by
  induction n with
  | zero => simp [bitsToUintF]
  | succ n ih =>
      rw [bitsToUintF_succ]
      have h1 : (f n).toNat ≤ 1 := Bool.toNat_le _
      have h2 := Nat.pow_succ 2 n
      omega

/-- Extraction: packing is MSB-first, so index `i` lands at bit `n-1-i`. -/
theorem bitsToUintF_testBit (f : Nat → Bool) :
    ∀ n i, i < n → (bitsToUintF f n).testBit (n - 1 - i) = f i := by
  intro n
  induction n with
  | zero => omega
  | succ n ih =>
      intro i hi
      rw [bitsToUintF_succ]
      have hdiv : (2 * bitsToUintF f n + (f n).toNat) / 2 = bitsToUintF f n := by
        have : (f n).toNat ≤ 1 := Bool.toNat_le _
        omega
      rcases Nat.lt_or_ge i n with h | h
      · have hn : n + 1 - 1 - i = (n - 1 - i) + 1 := by omega
        rw [hn, Nat.testBit_add_one, hdiv]
        exact ih i h
      · have hin : i = n := by omega
        subst hin
        have hn : i + 1 - 1 - i = 0 := by omega
        rw [hn, Nat.testBit_zero]
        have : (2 * bitsToUintF f i + (f i).toNat) % 2 = (f i).toNat := by
          have : (f i).toNat ≤ 1 := Bool.toNat_le _
          omega
        rw [this]
        cases f i <;> simp

/-- Round trip: `bits_to_uint ∘ uint_to_bits` is reduction mod `2^n`. -/
theorem bitsToUintF_ofBits (v n : Nat) :
    bitsToUintF (fun i => v.testBit (n - 1 - i)) n = v % 2 ^ n := by
  apply Nat.eq_of_testBit_eq
  intro j
  rcases Nat.lt_or_ge j n with hj | hj
  · have hi : n - 1 - (n - 1 - j) = j := by omega
    have h := bitsToUintF_testBit (fun i => v.testBit (n - 1 - i)) n (n - 1 - j) (by omega)
    rw [hi] at h
    rw [h]
    show v.testBit (n - 1 - (n - 1 - j)) = _
    rw [hi, Nat.testBit_mod_two_pow]
    simp [hj]
  · have h1 : (bitsToUintF (fun i => v.testBit (n - 1 - i)) n).testBit j = false :=
      Nat.testBit_lt_two_pow (lt_of_lt_of_le (bitsToUintF_lt _ _)
        (Nat.pow_le_pow_right (by norm_num) hj))
    rw [h1, Nat.testBit_mod_two_pow]
    simp [Nat.not_lt.2 hj]

theorem bitsToNat_natToBits (v n : Nat) : bitsToNat (natToBits v n) = v % 2 ^ n := by
  have h : bitsToNat (natToBits v n) = bitsToUintF (fun i => v.testBit (n - 1 - i)) n := by
    unfold bitsToNat natToBits bitsToUintF
    rw [List.foldl_map]
  rw [h, bitsToUintF_ofBits]

/-- Disjoint xor is addition: used to read data bits off a systematic
BCH codeword. -/
theorem xor_shiftLeft_eq_add {a b k : Nat} (hb : b < 2 ^ k) :
    (a <<< k) ^^^ b = a * 2 ^ k + b := by
  apply Nat.eq_of_testBit_eq
  intro j
  rw [Nat.testBit_xor, Nat.testBit_shiftLeft]
  have hadd : (a * 2 ^ k + b) = 2 ^ k * a + b := by ring
  rw [hadd, Nat.testBit_mul_pow_two_add _ hb]
  rcases Nat.lt_or_ge j k with hj | hj
  · simp [Nat.not_le.2 hj, hj]
  · have hbj : b.testBit j = false :=
      Nat.testBit_lt_two_pow (lt_of_lt_of_le hb (Nat.pow_le_pow_right (by norm_num) hj))
    simp [hj, Nat.not_lt.2 hj, hbj]

/-! ## GF(2) polynomial remainder

Modelled from the spec: `gf2_remainder(poly, val)` (declared in
`frame_decode.h`, not part of the supplied sources) divides `val` by the
generator polynomial over GF(2) and returns the remainder ("Decode =
divide codeword by generator modulo GF(2)", spec §4.1 and glossary).
All uses in `ida_decode.c` pass values below `2^32`, so the division
processes 32 bits MSB-first. -/

/-- Index of the highest set bit among the low 32 bits (the generator's
degree). -/
def polyDegOf (p : Nat) : Nat :=
  ((List.range 32).filter (fun i => p.testBit i)).foldl max 0

/-- One GF(2) reduction step: shift in the bit `b` and cancel the top
bit against the generator when it reaches the generator's degree. -/
def gf2Step (poly deg acc : Nat) (b : Bool) : Nat :=
  if 2 ^ deg ≤ 2 * acc + b.toNat then (2 * acc + b.toNat) ^^^ poly
  else 2 * acc + b.toNat

def gf2RemAux (poly deg : Nat) : List Bool → Nat → Nat
  | [], acc => acc
  | b :: l, acc => gf2RemAux poly deg l (gf2Step poly deg acc b)

/-- Modelled from the spec: GF(2) polynomial remainder of `v` by `poly`. -/
def gf2_remainder (poly v : Nat) : Nat :=
  gf2RemAux poly (polyDegOf poly) (natToBits v 32) 0

/-- The generator has degree exactly `deg`. -/
def polyDeg (poly deg : Nat) : Prop := 2 ^ deg ≤ poly ∧ poly < 2 ^ (deg + 1)

section Gf2Lemmas

variable {poly deg : Nat}

theorem testBit_deg_iff {x deg : Nat} (hx : x < 2 ^ (deg + 1)) :
    x.testBit deg = decide (2 ^ deg ≤ x) := by
  rw [Nat.testBit_to_div_mod]
  have hpow : 2 ^ (deg + 1) = 2 ^ deg * 2 := Nat.pow_succ 2 deg
  rcases Nat.lt_or_ge x (2 ^ deg) with h | h
  · rw [Nat.div_eq_of_lt h]
    simp [Nat.not_le.2 h]
  · have hd : x / 2 ^ deg = 1 := Nat.div_eq_of_lt_le (by omega) (by omega)
    simp [hd, h]

theorem poly_testBit_deg (hp : polyDeg poly deg) : poly.testBit deg = true := by
  rw [testBit_deg_iff hp.2]
  simp [hp.1]

theorem gf2Step_lt (hp : polyDeg poly deg) {acc : Nat} (b : Bool)
    (h : acc < 2 ^ deg) : gf2Step poly deg acc b < 2 ^ deg := by
  unfold gf2Step
  have hb : b.toNat ≤ 1 := Bool.toNat_le b
  have hpow := Nat.pow_succ 2 deg
  have hlt : 2 * acc + b.toNat < 2 ^ (deg + 1) := by omega
  split
  · rename_i hge
    apply Nat.lt_pow_two_of_testBit
    intro i hi
    rcases Nat.eq_or_lt_of_le hi with heq | hlt2
    · rw [← heq, Nat.testBit_xor, testBit_deg_iff hlt, poly_testBit_deg hp]
      simp [hge]
    · have hx : (2 * acc + b.toNat).testBit i = false :=
        Nat.testBit_lt_two_pow (lt_of_lt_of_le hlt (Nat.pow_le_pow_right (by norm_num) hlt2))
      have hy : poly.testBit i = false :=
        Nat.testBit_lt_two_pow (lt_of_lt_of_le hp.2 (Nat.pow_le_pow_right (by norm_num) hlt2))
      simp [Nat.testBit_xor, hx, hy]
  · omega

theorem gf2RemAux_lt (hp : polyDeg poly deg) :
    ∀ (l : List Bool) {acc : Nat}, acc < 2 ^ deg → gf2RemAux poly deg l acc < 2 ^ deg := by
  intro l
  induction l with
  | nil => intro acc h; simpa [gf2RemAux] using h
  | cons b l ih => intro acc h; exact ih (gf2Step_lt hp b h)

/-- XOR of bits as values: `(2a+b) ^^^ (2c+d) = 2(a^^^c) + (b xor d)`. -/
theorem two_mul_add_xor (a c : Nat) (b d : Bool) :
    (2 * a + b.toNat) ^^^ (2 * c + d.toNat) = 2 * (a ^^^ c) + (xor b d).toNat := by
  apply Nat.eq_of_testBit_eq
  intro j
  have e1 : 2 * a + b.toNat = 2 ^ 1 * a + b.toNat := by ring_nf
  have e2 : 2 * c + d.toNat = 2 ^ 1 * c + d.toNat := by ring_nf
  have e3 : 2 * (a ^^^ c) + (xor b d).toNat = 2 ^ 1 * (a ^^^ c) + (xor b d).toNat := by
    ring_nf
  have hb : b.toNat < 2 ^ 1 := by cases b <;> simp
  have hd : d.toNat < 2 ^ 1 := by cases d <;> simp
  have hbd : (xor b d).toNat < 2 ^ 1 := by cases b <;> cases d <;> simp
  rw [Nat.testBit_xor, e1, e2, e3, Nat.testBit_mul_pow_two_add _ hb,
    Nat.testBit_mul_pow_two_add _ hd, Nat.testBit_mul_pow_two_add _ hbd]
  cases j with
  | zero =>
      simp only [Nat.zero_lt_one, if_pos]
      cases b <;> cases d <;> simp
  | succ j =>
      simp [Nat.testBit_xor]

theorem gf2Step_xor (hp : polyDeg poly deg) {a c : Nat} (b d : Bool)
    (ha : a < 2 ^ deg) (hc : c < 2 ^ deg) :
    gf2Step poly deg (a ^^^ c) (xor b d) = gf2Step poly deg a b ^^^ gf2Step poly deg c d := by
  have hb : b.toNat ≤ 1 := Bool.toNat_le b
  have hd : d.toNat ≤ 1 := Bool.toNat_le d
  have hpow := Nat.pow_succ 2 deg
  have hxv : 2 * (a ^^^ c) + (xor b d).toNat = (2 * a + b.toNat) ^^^ (2 * c + d.toNat) :=
    (two_mul_add_xor a c b d).symm
  have hlt1 : 2 * a + b.toNat < 2 ^ (deg + 1) := by omega
  have hlt2 : 2 * c + d.toNat < 2 ^ (deg + 1) := by omega
  have hlt3 : (2 * a + b.toNat) ^^^ (2 * c + d.toNat) < 2 ^ (deg + 1) := by
    apply Nat.lt_pow_two_of_testBit
    intro i hi
    have h1 : (2 * a + b.toNat).testBit i = false :=
      Nat.testBit_lt_two_pow (lt_of_lt_of_le hlt1 (Nat.pow_le_pow_right (by norm_num) hi))
    have h2 : (2 * c + d.toNat).testBit i = false :=
      Nat.testBit_lt_two_pow (lt_of_lt_of_le hlt2 (Nat.pow_le_pow_right (by norm_num) hi))
    simp [Nat.testBit_xor, h1, h2]
  unfold gf2Step
  rw [hxv]
  set x := 2 * a + b.toNat with hxdef
  set y := 2 * c + d.toNat with hydef
  have htx := testBit_deg_iff hlt1
  have hty := testBit_deg_iff hlt2
  have htxy := testBit_deg_iff hlt3
  have hdxy : decide (2 ^ deg ≤ x ^^^ y) =
      xor (decide (2 ^ deg ≤ x)) (decide (2 ^ deg ≤ y)) := by
    rw [← htxy, Nat.testBit_xor, htx, hty]
  rcases hcx : decide (2 ^ deg ≤ x) with _ | _ <;>
    rcases hcy : decide (2 ^ deg ≤ y) with _ | _ <;>
    rw [hcx, hcy] at hdxy <;> simp only [Bool.xor_false, Bool.xor_true,
      Bool.not_false, Bool.not_true] at hdxy
  · rw [if_neg (of_decide_eq_false hcx), if_neg (of_decide_eq_false hcy),
      if_neg (of_decide_eq_false hdxy)]
  · rw [if_neg (of_decide_eq_false hcx), if_pos (of_decide_eq_true hcy),
      if_pos (of_decide_eq_true hdxy), Nat.xor_assoc]
  · rw [if_pos (of_decide_eq_true hcx), if_neg (of_decide_eq_false hcy),
      if_pos (of_decide_eq_true hdxy), Nat.xor_assoc, Nat.xor_comm y poly,
      ← Nat.xor_assoc]
  · rw [if_pos (of_decide_eq_true hcx), if_pos (of_decide_eq_true hcy),
      if_neg (of_decide_eq_false hdxy), Nat.xor_assoc,
      Nat.xor_comm poly (y ^^^ poly), Nat.xor_assoc, Nat.xor_self, Nat.xor_zero]

theorem gf2RemAux_xor (hp : polyDeg poly deg) :
    ∀ (l₁ l₂ : List Bool), l₁.length = l₂.length →
      ∀ (a₁ a₂ : Nat), a₁ < 2 ^ deg → a₂ < 2 ^ deg →
      gf2RemAux poly deg (List.zipWith xor l₁ l₂) (a₁ ^^^ a₂) =
        gf2RemAux poly deg l₁ a₁ ^^^ gf2RemAux poly deg l₂ a₂ := by
  intro l₁
  induction l₁ with
  | nil =>
      intro l₂ hlen a₁ a₂ _ _
      have h : l₂ = [] := List.length_eq_zero.mp hlen.symm
      subst h
      simp [gf2RemAux]
  | cons b l ih =>
      intro l₂ hlen a₁ a₂ h₁ h₂
      cases l₂ with
      | nil => simp at hlen
      | cons d l₂ =>
          simp only [List.zipWith_cons_cons, gf2RemAux]
          rw [gf2Step_xor hp b d h₁ h₂]
          exact ih l₂ (by simpa using hlen) _ _ (gf2Step_lt hp b h₁) (gf2Step_lt hp d h₂)

theorem natToBits_xor (a b n : Nat) :
    natToBits (a ^^^ b) n = List.zipWith xor (natToBits a n) (natToBits b n) := by
  unfold natToBits
  rw [List.zipWith_map_left, List.zipWith_map_right, List.zipWith_same]
  exact congrArg (fun g => List.map g (List.range n))
    (funext fun i => by rw [Nat.testBit_xor])

/-- Linearity of the GF(2) remainder. -/
theorem gf2_remainder_xor (hp : polyDeg poly (polyDegOf poly)) (a b : Nat) :
    gf2_remainder poly (a ^^^ b) = gf2_remainder poly a ^^^ gf2_remainder poly b := by
  unfold gf2_remainder
  rw [natToBits_xor]
  have h := gf2RemAux_xor hp (natToBits a 32) (natToBits b 32)
    (by simp [natToBits]) 0 0 (by positivity) (by positivity)
  simpa using h

theorem gf2RemAux_small (hp : polyDeg poly deg) :
    ∀ (l : List Bool) (acc : Nat), acc * 2 ^ l.length + bitsToNat l < 2 ^ deg →
      gf2RemAux poly deg l acc = acc * 2 ^ l.length + bitsToNat l := by
  intro l
  induction l with
  | nil => intro acc h; simp [gf2RemAux, bitsToNat]
  | cons b l ih =>
      intro acc h
      have hb : bitsToNat (b :: l) = b.toNat * 2 ^ l.length + bitsToNat l := by
        show l.foldl _ (2 * 0 + b.toNat) = _
        rw [bitsToNat_foldl]
        ring_nf
      have hlen : (b :: l).length = l.length + 1 := rfl
      have hexp : acc * 2 ^ (l.length + 1) + bitsToNat (b :: l) =
          (2 * acc + b.toNat) * 2 ^ l.length + bitsToNat l := by
        rw [hb, Nat.pow_succ]; ring
      rw [hlen, hexp] at h
      have hone : 1 ≤ 2 ^ l.length := Nat.one_le_two_pow
      have hstep : gf2Step poly deg acc b = 2 * acc + b.toNat := by
        unfold gf2Step
        have hc : ¬ 2 ^ deg ≤ 2 * acc + b.toNat := by
          have h2 : 2 * acc + b.toNat ≤ (2 * acc + b.toNat) * 2 ^ l.length :=
            Nat.le_mul_of_pos_right _ (by omega)
          omega
        simp [hc]
      show gf2RemAux poly deg l (gf2Step poly deg acc b) = _
      rw [hstep, ih _ (by omega), hlen, hexp]

/-- A value below the generator's degree is its own remainder. -/
theorem gf2_remainder_small (hp : polyDeg poly (polyDegOf poly)) {v : Nat}
    (hdeg : polyDegOf poly ≤ 32) (hv : v < 2 ^ polyDegOf poly) :
    gf2_remainder poly v = v := by
  unfold gf2_remainder
  have hlen : (natToBits v 32).length = 32 := by simp [natToBits]
  have hval : bitsToNat (natToBits v 32) = v := by
    rw [bitsToNat_natToBits]
    exact Nat.mod_eq_of_lt (lt_of_lt_of_le hv (Nat.pow_le_pow_right (by norm_num) hdeg))
  rw [gf2RemAux_small hp _ 0 (by rw [hlen, hval]; simpa using hv)]
  rw [hlen, hval]
  simp

theorem gf2_remainder_lt (hp : polyDeg poly (polyDegOf poly)) (v : Nat) :
    gf2_remainder poly v < 2 ^ polyDegOf poly :=
  gf2RemAux_lt hp _ (by positivity)

end Gf2Lemmas

/-! ## Systematic BCH encoding (spec side)

The spec describes codewords as data bits on top, followed by check bits
chosen so that division by the generator leaves remainder 0 (§4.1 step 3
and glossary `BCH(n,k,t)`). -/

/-- Systematic encoder: append `deg` check bits to `d` so the codeword
is a multiple of `poly`. -/
def bchEncode (poly d : Nat) : Nat :=
  (d <<< polyDegOf poly) ^^^ gf2_remainder poly (d <<< polyDegOf poly)

theorem bchEncode_eq_add {poly : Nat} (d : Nat) (hp : polyDeg poly (polyDegOf poly)) :
    bchEncode poly d = d * 2 ^ polyDegOf poly + gf2_remainder poly (d <<< polyDegOf poly) :=
  xor_shiftLeft_eq_add (gf2_remainder_lt hp _)

theorem bchEncode_shift {poly : Nat} (d : Nat) (hp : polyDeg poly (polyDegOf poly)) :
    bchEncode poly d >>> polyDegOf poly = d := by
  rw [bchEncode_eq_add d hp, Nat.shiftRight_eq_div_pow, Nat.mul_comm d,
    Nat.mul_add_div (Nat.pos_pow_of_pos _ (by norm_num)),
    Nat.div_eq_of_lt (gf2_remainder_lt hp _), Nat.add_zero]

theorem bchEncode_rem {poly : Nat} (d : Nat) (hp : polyDeg poly (polyDegOf poly))
    (hdeg : polyDegOf poly ≤ 32) :
    gf2_remainder poly (bchEncode poly d) = 0 := by
  unfold bchEncode
  rw [gf2_remainder_xor hp, gf2_remainder_small hp hdeg (gf2_remainder_lt hp _),
    Nat.xor_self]

theorem bchEncode_lt {poly : Nat} (d m : Nat) (hp : polyDeg poly (polyDegOf poly))
    (hd : d < 2 ^ m) : bchEncode poly d < 2 ^ (m + polyDegOf poly) := by
  rw [bchEncode_eq_add d hp]
  have h1 := gf2_remainder_lt hp (d <<< polyDegOf poly)
  have h2 : (d + 1) * 2 ^ polyDegOf poly ≤ 2 ^ m * 2 ^ polyDegOf poly :=
    Nat.mul_le_mul_right _ (by omega)
  have h3 : d * 2 ^ polyDegOf poly + 2 ^ polyDegOf poly = (d + 1) * 2 ^ polyDegOf poly := by
    ring
  rw [pow_add]
  omega

/-! ## Syndrome tables (`build_syn`, `ida_decode.c:64-102`) -/

/-- One syndrome-table entry: error count (`-1` = unfilled) and error
locator, as in the anonymous struct of `ida_decode.c`. -/
structure SynEntry where
  errs : Int
  locator : Nat
deriving DecidableEq

/-- A syndrome table.  The C arrays are modelled as index functions; a
store `syn[r] = e` becomes a function update. -/
def SynTable := Nat → SynEntry

/-- Table lookup `syn[r]`. -/
def synGet (tbl : SynTable) (r : Nat) : SynEntry := tbl r

/-- Store `syn[i] = e`. -/
def synUpd (tbl : SynTable) (i : Nat) (e : SynEntry) : SynTable :=
  fun j => if j = i then e else tbl j

/-- The initialisation loop of `build_syn` (all entries `{-1, 0}`). -/
def synEmpty : SynTable := fun _ => ⟨-1, 0⟩

/-- Syndrome of the single-bit error pattern `1 << b`. -/
def rem1 (poly b : Nat) : Nat := gf2_remainder poly (1 <<< b)

/-- The two-bit error pattern `(1 << b1) | (1 << b2)`. -/
def pairVal (p : Nat × Nat) : Nat := (1 <<< p.1) ||| (1 <<< p.2)

/-- Syndrome of a two-bit error pattern. -/
def rem2 (poly : Nat) (p : Nat × Nat) : Nat := gf2_remainder poly (pairVal p)

/-- First pass of `build_syn`: single-bit error patterns. -/
def synSet1 (poly tableSize : Nat) (tbl : SynTable) (b : Nat) : SynTable :=
  if rem1 poly b < tableSize then synUpd tbl (rem1 poly b) ⟨1, 1 <<< b⟩ else tbl

/-- The pair list `(b1, b2)` with `b1 < b2 < nbits`, in loop order. -/
def synPairs (nbits : Nat) : List (Nat × Nat) :=
  (List.range nbits).flatMap fun b1 =>
    (List.range nbits).filterMap fun b2 => if b1 < b2 then some (b1, b2) else none

/-- Second pass of `build_syn`: two-bit error patterns, only into
still-unfilled entries. -/
def synSet2 (poly tableSize : Nat) (tbl : SynTable) (p : Nat × Nat) : SynTable :=
  if rem2 poly p < tableSize ∧ (synGet tbl (rem2 poly p)).errs < 0 then
    synUpd tbl (rem2 poly p) ⟨2, pairVal p⟩
  else tbl

/-- `build_syn(poly, nbits, max_errors, table, table_size)`. -/
def build_syn (poly nbits maxErrors tableSize : Nat) : SynTable :=
  let t1 := (List.range nbits).foldl (synSet1 poly tableSize) synEmpty
  if 2 ≤ maxErrors then (synPairs nbits).foldl (synSet2 poly tableSize) t1 else t1

/-- `ida_decode_init`: the four tables. -/
def syn_da : SynTable := build_syn 3545 31 2 2048

def syn_lcw1 : SynTable := build_syn 29 7 1 16

def syn_lcw2 : SynTable := build_syn 465 14 1 256

def syn_lcw3 : SynTable := build_syn 41 26 2 32

/-! ### Structural facts about the built tables

Direct kernel evaluation of the table folds is avoided; the contents
are derived from fold lemmas plus decidable distinctness of the
syndrome values, checked through a bitmask accumulator. -/

/-- Bitmask of a list of small naturals. -/
def listMask (l : List Nat) : Nat := l.foldl (fun a x => a ||| (1 <<< x)) 0

/-- Duplicate detection by bitmask accumulation (cheap to evaluate). -/
def nodupByMask : Nat → List Nat → Bool
  | _, [] => true
  | m, x :: l => !m.testBit x && nodupByMask (m ||| (1 <<< x)) l

theorem testBit_or_shift (m x j : Nat) :
    (m ||| (1 <<< x)).testBit j = (m.testBit j || decide (x = j)) := by
  rw [Nat.testBit_or, Nat.shiftLeft_eq, Nat.one_mul, Nat.testBit_two_pow]

theorem nodupByMask_correct :
    ∀ (l : List Nat) (m : Nat), nodupByMask m l = true →
      l.Nodup ∧ ∀ x ∈ l, m.testBit x = false := by
  intro l
  induction l with
  | nil => intro m _; simp
  | cons x l ih =>
      intro m h
      rw [nodupByMask, Bool.and_eq_true] at h
      obtain ⟨hnodup, hall⟩ := ih _ h.2
      have hx : m.testBit x = false := by
        have := h.1
        cases hmx : m.testBit x <;> simp [hmx] at this ⊢
      refine ⟨List.nodup_cons.2 ⟨?_, hnodup⟩, ?_⟩
      · intro hmem
        have := hall x hmem
        rw [testBit_or_shift] at this
        simp at this
      · intro y hy
        rcases List.mem_cons.mp hy with rfl | hy'
        · exact hx
        · have := hall y hy'
          rw [testBit_or_shift] at this
          exact (Bool.or_eq_false_iff.mp this).1

theorem listMask_testBit :
    ∀ (l : List Nat) (r : Nat), (listMask l).testBit r = decide (r ∈ l) := by
  have haux : ∀ (l : List Nat) (a r : Nat),
      (l.foldl (fun a x => a ||| (1 <<< x)) a).testBit r =
        (a.testBit r || decide (r ∈ l)) := by
    intro l
    induction l with
    | nil => intro a r; simp
    | cons x l ih =>
        intro a r
        show ((l.foldl _ (a ||| (1 <<< x)))).testBit r = _
        rw [ih, testBit_or_shift]
        by_cases hxr : x = r <;> simp [hxr, eq_comm]
  intro l r
  unfold listMask
  rw [haux]
  simp

section SynFoldLemmas

variable {poly sz : Nat}

theorem synUpd_self (tbl : SynTable) (i : Nat) (e : SynEntry) :
    synGet (synUpd tbl i e) i = e := by
  simp [synGet, synUpd]

theorem synUpd_other (tbl : SynTable) {i j : Nat} (e : SynEntry) (h : j ≠ i) :
    synGet (synUpd tbl i e) j = synGet tbl j := by
  simp [synGet, synUpd, h]

theorem foldl_synSet1_preserve :
    ∀ (bs : List Nat) (t : SynTable) (r : Nat), (∀ b ∈ bs, rem1 poly b ≠ r) →
      synGet (bs.foldl (synSet1 poly sz) t) r = synGet t r := by
  intro bs
  induction bs with
  | nil => intro t r _; rfl
  | cons b bs ih =>
      intro t r h
      show synGet (bs.foldl _ (synSet1 poly sz t b)) r = _
      rw [ih _ _ (fun b' hb' => h b' (List.mem_cons_of_mem _ hb'))]
      unfold synSet1
      split
      · exact synUpd_other _ _ (fun he => h b (List.mem_cons_self _ _) he.symm)
      · rfl

theorem foldl_synSet1_at :
    ∀ (bs : List Nat) (t : SynTable) (b : Nat), b ∈ bs →
      (bs.map (rem1 poly)).Nodup → rem1 poly b < sz →
      synGet (bs.foldl (synSet1 poly sz) t) (rem1 poly b) = ⟨1, 1 <<< b⟩ := by
  intro bs
  induction bs with
  | nil => intro t b h; simp at h
  | cons b0 bs ih =>
      intro t b hmem hnodup hlt
      rw [List.map_cons, List.nodup_cons] at hnodup
      rcases List.mem_cons.mp hmem with rfl | hmem'
      · show synGet (bs.foldl _ (synSet1 poly sz t b)) _ = _
        rw [foldl_synSet1_preserve bs _ _ ?hpres]
        · unfold synSet1
          rw [if_pos hlt]
          exact synUpd_self _ _ _
        case hpres =>
          intro b' hb' he
          exact hnodup.1 (he ▸ List.mem_map_of_mem (rem1 poly) hb')
      · show synGet (bs.foldl _ (synSet1 poly sz t b0)) _ = _
        exact ih _ b hmem' hnodup.2 hlt

theorem foldl_synSet2_preserve :
    ∀ (ps : List (Nat × Nat)) (t : SynTable) (r : Nat), (∀ p ∈ ps, rem2 poly p ≠ r) →
      synGet (ps.foldl (synSet2 poly sz) t) r = synGet t r := by
  intro ps
  induction ps with
  | nil => intro t r _; rfl
  | cons p ps ih =>
      intro t r h
      show synGet (ps.foldl _ (synSet2 poly sz t p)) r = _
      rw [ih _ _ (fun p' hp' => h p' (List.mem_cons_of_mem _ hp'))]
      unfold synSet2
      split
      · exact synUpd_other _ _ (fun he => h p (List.mem_cons_self _ _) he.symm)
      · rfl

/-- Pass 2 never overwrites a filled entry. -/
theorem foldl_synSet2_keeps :
    ∀ (ps : List (Nat × Nat)) (t : SynTable) (r : Nat), 0 ≤ (synGet t r).errs →
      synGet (ps.foldl (synSet2 poly sz) t) r = synGet t r := by
  intro ps
  induction ps with
  | nil => intro t r _; rfl
  | cons p ps ih =>
      intro t r h
      show synGet (ps.foldl _ (synSet2 poly sz t p)) r = _
      have hstep : synGet (synSet2 poly sz t p) r = synGet t r := by
        unfold synSet2
        split
        · rename_i hcond
          rcases eq_or_ne r (rem2 poly p) with rfl | hne
          · omega
          · exact synUpd_other _ _ hne
        · rfl
      rw [ih _ _ (by rw [hstep]; exact h), hstep]

theorem foldl_synSet2_at :
    ∀ (ps : List (Nat × Nat)) (t : SynTable) (p : Nat × Nat), p ∈ ps →
      (ps.map (rem2 poly)).Nodup → (synGet t (rem2 poly p)).errs < 0 →
      rem2 poly p < sz →
      synGet (ps.foldl (synSet2 poly sz) t) (rem2 poly p) = ⟨2, pairVal p⟩ := by
  intro ps
  induction ps with
  | nil => intro t p h; simp at h
  | cons p0 ps ih =>
      intro t p hmem hnodup hunf hlt
      rw [List.map_cons, List.nodup_cons] at hnodup
      rcases List.mem_cons.mp hmem with rfl | hmem'
      · show synGet (ps.foldl _ (synSet2 poly sz t p)) _ = _
        rw [foldl_synSet2_preserve ps _ _ ?hpres]
        · unfold synSet2
          rw [if_pos ⟨hlt, hunf⟩]
          exact synUpd_self _ _ _
        case hpres =>
          intro p' hp' he
          exact hnodup.1 (he ▸ List.mem_map_of_mem (rem2 poly) hp')
      · show synGet (ps.foldl _ (synSet2 poly sz t p0)) _ = _
        have hstep : synGet (synSet2 poly sz t p0) (rem2 poly p) = synGet t (rem2 poly p) := by
          unfold synSet2
          split
          · apply synUpd_other
            intro he
            exact hnodup.1 (he ▸ List.mem_map_of_mem (rem2 poly) hmem')
          · rfl
        exact ih _ p hmem' hnodup.2 (by rw [hstep]; exact hunf) hlt

end SynFoldLemmas

/-! ### The concrete generator polynomials -/

theorem hp3545 : polyDeg 3545 (polyDegOf 3545) := by
  constructor <;> decide

theorem hdeg3545 : polyDegOf 3545 = 11 := by decide

theorem hp29 : polyDeg 29 (polyDegOf 29) := by constructor <;> decide

theorem hdeg29 : polyDegOf 29 = 4 := by decide

theorem hp465 : polyDeg 465 (polyDegOf 465) := by constructor <;> decide

theorem hdeg465 : polyDegOf 465 = 8 := by decide

theorem hp41 : polyDeg 41 (polyDegOf 41) := by constructor <;> decide

theorem hdeg41 : polyDegOf 41 = 5 := by decide

/-- Single-bit syndromes of the BCH(31,20) generator. -/
def daS : List Nat := (List.range 31).map (rem1 3545)

/-- Two-bit syndromes, computed from the single-bit ones by linearity. -/
def daD : List Nat := (synPairs 31).map fun p => daS.getD p.1 0 ^^^ daS.getD p.2 0

/-- Bitmask of every syndrome the `syn_da` table fills. -/
def daMask : Nat := listMask (daS ++ daD)

/-- The index pairs `(b2, b3)` with `b1 < b2 < b3 < nbits`. -/
def tripleIdx (nbits b1 : Nat) : List (Nat × Nat) :=
  (List.range nbits).flatMap fun b2 =>
    (List.range nbits).filterMap fun b3 =>
      if b1 < b2 ∧ b2 < b3 then some (b2, b3) else none

theorem mem_synPairs {nbits i j : Nat} :
    (i, j) ∈ synPairs nbits ↔ i < nbits ∧ j < nbits ∧ i < j := by
  unfold synPairs
  rw [List.mem_flatMap]
  constructor
  · rintro ⟨b1, hb1, hmem⟩
    rw [List.mem_filterMap] at hmem
    obtain ⟨b2, hb2, heq⟩ := hmem
    rw [List.mem_range] at hb1 hb2
    split at heq
    · rename_i hlt
      injection heq with heq2
      injection heq2 with h1 h2
      subst h1; subst h2
      exact ⟨hb1, hb2, hlt⟩
    · simp at heq
  · rintro ⟨hi, hj, hij⟩
    refine ⟨i, List.mem_range.2 hi, ?_⟩
    rw [List.mem_filterMap]
    exact ⟨j, List.mem_range.2 hj, by rw [if_pos hij]⟩

theorem mem_tripleIdx {nbits b1 b2 b3 : Nat} :
    (b2, b3) ∈ tripleIdx nbits b1 ↔ b2 < nbits ∧ b3 < nbits ∧ b1 < b2 ∧ b2 < b3 := by
  unfold tripleIdx
  rw [List.mem_flatMap]
  constructor
  · rintro ⟨c2, hc2, hmem⟩
    rw [List.mem_filterMap] at hmem
    obtain ⟨c3, hc3, heq⟩ := hmem
    rw [List.mem_range] at hc2 hc3
    split at heq
    · rename_i hlt
      injection heq with heq2
      injection heq2 with h1 h2
      subst h1; subst h2
      exact ⟨hc2, hc3, hlt.1, hlt.2⟩
    · simp at heq
  · rintro ⟨h2, h3, h12, h23⟩
    refine ⟨b2, List.mem_range.2 h2, ?_⟩
    rw [List.mem_filterMap]
    exact ⟨b3, List.mem_range.2 h3, by rw [if_pos ⟨h12, h23⟩]⟩

theorem daS_getD {b : Nat} (hb : b < 31) : daS.getD b 0 = rem1 3545 b := by
  unfold daS
  rw [List.getD_eq_getElem?_getD, List.getElem?_map]
  have hr : (List.range 31)[b]? = some b := by
    rw [List.getElem?_range hb]
  rw [hr]
  rfl

/-- Disjoint powers: `or` is `xor`. -/
theorem pairVal_eq_xor {i j : Nat} (h : i ≠ j) : pairVal (i, j) = (1 <<< i) ^^^ (1 <<< j) := by
  unfold pairVal
  apply Nat.eq_of_testBit_eq
  intro k
  rw [Nat.testBit_or, Nat.testBit_xor]
  rw [Nat.shiftLeft_eq, Nat.one_mul, Nat.shiftLeft_eq, Nat.one_mul,
    Nat.testBit_two_pow, Nat.testBit_two_pow]
  by_cases hik : i = k
  · by_cases hjk : j = k
    · exact absurd (hik.trans hjk.symm) h
    · simp [hik, hjk]
  · by_cases hjk : j = k
    · simp [hik, hjk]
    · simp [hik, hjk]

theorem rem2_eq_xor {i j : Nat} (h : i ≠ j) :
    rem2 3545 (i, j) = rem1 3545 i ^^^ rem1 3545 j := by
  unfold rem2 rem1
  rw [pairVal_eq_xor h, gf2_remainder_xor hp3545]

theorem daD_eq : daD = (synPairs 31).map (rem2 3545) := by
  unfold daD
  apply List.map_congr_left
  intro p hp
  have hm := mem_synPairs.mp (by rwa [show (p.1, p.2) = p from rfl])
  rw [daS_getD hm.1, daS_getD hm.2.1, ← rem2_eq_xor (Nat.ne_of_lt hm.2.2)]

/-- `decide`-checked: the 496 filled syndromes are pairwise distinct. -/
theorem daRems_nodupMask : nodupByMask 0 (daS ++ daD) = true := by decide

theorem daRems_nodup : ((List.range 31).map (rem1 3545) ++
    (synPairs 31).map (rem2 3545)).Nodup := by
  have h := (nodupByMask_correct _ _ daRems_nodupMask).1
  rwa [daD_eq] at h

/-- `decide`-checked: no filled syndrome is zero. -/
theorem daRems_nonzero : (daS ++ daD).all (fun r => r != 0) = true := by decide

/-- `decide`-checked: no weight-3 syndrome is zero or collides with a
filled entry. -/
theorem daTriples_excluded : ∀ b1 < 31, (tripleIdx 31 b1).all
    (fun q => (!daMask.testBit ((daS.getD b1 0 ^^^ daS.getD q.1 0) ^^^ daS.getD q.2 0)) &&
      (((daS.getD b1 0 ^^^ daS.getD q.1 0) ^^^ daS.getD q.2 0) != 0)) = true := by
  decide

theorem rem1_da_lt (b : Nat) : rem1 3545 b < 2048 := by
  have h := gf2_remainder_lt hp3545 (1 <<< b)
  rwa [hdeg3545] at h

theorem rem2_da_lt (p : Nat × Nat) : rem2 3545 p < 2048 := by
  have h := gf2_remainder_lt hp3545 (pairVal p)
  rwa [hdeg3545] at h

/-- `syn_da` on a single-bit syndrome. -/
theorem syn_da_single {b : Nat} (hb : b < 31) :
    synGet syn_da (rem1 3545 b) = ⟨1, 1 <<< b⟩ := by
  have hnod : ((List.range 31).map (rem1 3545)).Nodup :=
    daRems_nodup.of_append_left
  have hpass1 : synGet ((List.range 31).foldl (synSet1 3545 2048) synEmpty)
      (rem1 3545 b) = ⟨1, 1 <<< b⟩ :=
    foldl_synSet1_at _ _ _ (List.mem_range.2 hb) hnod (rem1_da_lt b)
  show synGet (build_syn 3545 31 2 2048) _ = _
  unfold build_syn
  rw [if_pos (by norm_num)]
  rw [foldl_synSet2_keeps _ _ _ (by rw [hpass1]; norm_num), hpass1]

/-- `syn_da` on a two-bit syndrome. -/
theorem syn_da_double {i j : Nat} (hij : i < j) (hj : j < 31) :
    synGet syn_da (rem2 3545 (i, j)) = ⟨2, pairVal (i, j)⟩ := by
  have hdisj : List.Disjoint ((List.range 31).map (rem1 3545))
      ((synPairs 31).map (rem2 3545)) :=
    (List.nodup_append.mp daRems_nodup).2.2
  have hnod2 : ((synPairs 31).map (rem2 3545)).Nodup :=
    daRems_nodup.of_append_right
  have hp : (i, j) ∈ synPairs 31 := mem_synPairs.2 ⟨Nat.lt_trans hij hj, hj, hij⟩
  have hpass1 : synGet ((List.range 31).foldl (synSet1 3545 2048) synEmpty)
      (rem2 3545 (i, j)) = synEmpty (rem2 3545 (i, j)) := by
    apply foldl_synSet1_preserve
    intro b hb heq
    exact hdisj (by rw [← heq]; exact List.mem_map_of_mem _ hb)
      (List.mem_map_of_mem _ hp)
  show synGet (build_syn 3545 31 2 2048) _ = _
  unfold build_syn
  rw [if_pos (by norm_num)]
  apply foldl_synSet2_at _ _ _ hp hnod2 _ (rem2_da_lt _)
  rw [hpass1]
  norm_num [synEmpty]

/-- `syn_da` is unfilled outside the 496 recorded syndromes. -/
theorem syn_da_unfilled {r : Nat} (hr : daMask.testBit r = false) :
    (synGet syn_da r).errs < 0 := by
  have hmem : r ∉ daS ++ daD := by
    intro hmem
    rw [show daMask = listMask (daS ++ daD) from rfl, listMask_testBit] at hr
    simp [hmem] at hr
  rw [List.mem_append] at hmem
  push_neg at hmem
  have h1 : r ∉ (List.range 31).map (rem1 3545) := hmem.1
  have h2 : r ∉ (synPairs 31).map (rem2 3545) := daD_eq ▸ hmem.2
  show (synGet (build_syn 3545 31 2 2048) r).errs < 0
  unfold build_syn
  rw [if_pos (by norm_num)]
  rw [foldl_synSet2_preserve _ _ _
      (fun p hp heq => h2 (by rw [← heq]; exact List.mem_map_of_mem _ hp)),
    foldl_synSet1_preserve _ _ _
      (fun b hb heq => h1 (by rw [← heq]; exact List.mem_map_of_mem _ hb))]
  norm_num [synGet, synEmpty]

/-! ### LCW syndrome-table facts -/

/-- Single-bit syndromes of the three LCW generators. -/
def l1S : List Nat := (List.range 7).map (rem1 29)

def l2S : List Nat := (List.range 14).map (rem1 465)

def l3S : List Nat := (List.range 26).map (rem1 41)

theorem l1S_nodupMask : nodupByMask 0 l1S = true := by decide

theorem l2S_nodupMask : nodupByMask 0 l2S = true := by decide

theorem l3S_nodupMask : nodupByMask 0 l3S = true := by decide

theorem l1S_nonzero : l1S.all (fun r => r != 0) = true := by decide

theorem l2S_nonzero : l2S.all (fun r => r != 0) = true := by decide

theorem l3S_nonzero : l3S.all (fun r => r != 0) = true := by decide

theorem syn_lcw1_single {b : Nat} (hb : b < 7) :
    synGet syn_lcw1 (rem1 29 b) = ⟨1, 1 <<< b⟩ := by
  have hlt : rem1 29 b < 16 := by
    have h := gf2_remainder_lt hp29 (1 <<< b)
    rwa [hdeg29] at h
  show synGet (build_syn 29 7 1 16) _ = _
  unfold build_syn
  rw [if_neg (by norm_num)]
  exact foldl_synSet1_at _ _ _ (List.mem_range.2 hb)
    (nodupByMask_correct _ _ l1S_nodupMask).1 hlt

theorem syn_lcw2_single {b : Nat} (hb : b < 14) :
    synGet syn_lcw2 (rem1 465 b) = ⟨1, 1 <<< b⟩ := by
  have hlt : rem1 465 b < 256 := by
    have h := gf2_remainder_lt hp465 (1 <<< b)
    rwa [hdeg465] at h
  show synGet (build_syn 465 14 1 256) _ = _
  unfold build_syn
  rw [if_neg (by norm_num)]
  exact foldl_synSet1_at _ _ _ (List.mem_range.2 hb)
    (nodupByMask_correct _ _ l2S_nodupMask).1 hlt

theorem syn_lcw3_single {b : Nat} (hb : b < 26) :
    synGet syn_lcw3 (rem1 41 b) = ⟨1, 1 <<< b⟩ := by
  have hlt : rem1 41 b < 32 := by
    have h := gf2_remainder_lt hp41 (1 <<< b)
    rwa [hdeg41] at h
  have hpass1 : synGet ((List.range 26).foldl (synSet1 41 32) synEmpty)
      (rem1 41 b) = ⟨1, 1 <<< b⟩ :=
    foldl_synSet1_at _ _ _ (List.mem_range.2 hb)
      (nodupByMask_correct _ _ l3S_nodupMask).1 hlt
  show synGet (build_syn 41 26 2 32) _ = _
  unfold build_syn
  rw [if_pos (by norm_num)]
  rw [foldl_synSet2_keeps _ _ _ (by rw [hpass1]; norm_num), hpass1]

/-- Nonzero syndromes, in usable form. -/
theorem rem1_ne_zero {poly nbits : Nat} {l : List Nat}
    (hl : l = (List.range nbits).map (rem1 poly)) (hall : l.all (fun r => r != 0) = true)
    {b : Nat} (hb : b < nbits) : rem1 poly b ≠ 0 := by
  subst hl
  have hmem : rem1 poly b ∈ (List.range nbits).map (rem1 poly) :=
    List.mem_map_of_mem _ (List.mem_range.2 hb)
  have := List.all_eq_true.mp hall _ hmem
  simpa using this

theorem rem1_da_ne_zero {b : Nat} (hb : b < 31) : rem1 3545 b ≠ 0 := by
  have hmem : rem1 3545 b ∈ daS := List.mem_map_of_mem _ (List.mem_range.2 hb)
  have := List.all_eq_true.mp daRems_nonzero _ (List.mem_append_left _ hmem)
  simpa using this

theorem rem2_da_ne_zero {i j : Nat} (hij : i < j) (hj : j < 31) : rem2 3545 (i, j) ≠ 0 := by
  have hp : (i, j) ∈ synPairs 31 := mem_synPairs.2 ⟨Nat.lt_trans hij hj, hj, hij⟩
  have hmem : rem2 3545 (i, j) ∈ daD := by
    rw [daD_eq]
    exact List.mem_map_of_mem _ hp
  have := List.all_eq_true.mp daRems_nonzero _ (List.mem_append_right _ hmem)
  simpa using this

/-- Weight-3 syndromes, extracted from the chunked `decide` fact. -/
theorem rem3_da_excluded {i j k : Nat} (hij : i < j) (hjk : j < k) (hk : k < 31) :
    daMask.testBit ((rem1 3545 i ^^^ rem1 3545 j) ^^^ rem1 3545 k) = false ∧
      (rem1 3545 i ^^^ rem1 3545 j) ^^^ rem1 3545 k ≠ 0 := by
  have hi : i < 31 := by omega
  have hj : j < 31 := by omega
  have hmem : (j, k) ∈ tripleIdx 31 i := mem_tripleIdx.2 ⟨hj, hk, hij, hjk⟩
  have hfact := List.all_eq_true.mp (daTriples_excluded i hi) _ hmem
  rw [daS_getD hi, daS_getD hj, daS_getD hk] at hfact
  rw [Bool.and_eq_true, Bool.not_eq_true'] at hfact
  exact ⟨hfact.1, by simpa using hfact.2⟩

/-! ## Chase BCH(31,20) decoder (`chase_bch_da`, `ida_decode.c:107-173`) -/

/-- Result of `chase_bch_da`: `none` models the `-1` failure return,
otherwise (return value `errs`, `out_data` 20 bits, `*fixed`). -/
abbrev ChaseResult := Option (Int × List Bool × Bool)

/-- One decode attempt along the standard syndrome path (shared by the
head of `chase_bch_da` and the body of its Chase loop). -/
def chaseTry (val : Nat) : ChaseResult :=
  let syndrome := gf2_remainder 3545 val
  if syndrome = 0 then
    some (0, natToBits (val >>> 11) 20, true)
  else if syndrome < 2048 ∧ 0 ≤ (synGet syn_da syndrome).errs then
    some ((synGet syn_da syndrome).errs,
      natToBits ((val ^^^ (synGet syn_da syndrome).locator) >>> 11) 20, true)
  else none

/-- The selection-sort inner loop: index of the smallest LLR among
`pos[i..30]` (first strict minimum, as the `<` comparison in C). -/
def selMinIdx (llr : Nat → ℚ) (pos : List Nat) (i : Nat) : Nat :=
  (List.range' (i + 1) (31 - (i + 1))).foldl
    (fun m j => if llr (pos.getD j 0) < llr (pos.getD m 0) then j else m) i

def listSwap (l : List Nat) (i j : Nat) : List Nat :=
  (l.set i (l.getD j 0)).set j (l.getD i 0)

/-- One iteration of the outer selection loop. -/
def selStep (llr : Nat → ℚ) (pos : List Nat) (i : Nat) : List Nat :=
  listSwap pos i (selMinIdx llr pos i)

/-- The five least-reliable positions `pos[0..4]` after 5 selection
iterations over the identity array `pos[i] = i`. -/
def chasePositions (llr : Nat → ℚ) : List Nat :=
  ((List.range 5).foldl (selStep llr) (List.range 31)).take 5

/-- `flipped`: xor the flip masks of the candidate positions selected by
`mask`. -/
def flipVal (cand : List Nat) (base mask : Nat) : Nat :=
  (List.range 5).foldl
    (fun v b => if mask.testBit b then v ^^^ (1 <<< (30 - cand.getD b 0)) else v) base

/-- The `for (mask = 1; mask < 32; mask++)` retry loop. -/
def chaseLoop (cand : List Nat) (base : Nat) : Nat → Nat → ChaseResult
  | 0, _ => none
  | fuel + 1, mask =>
      match chaseTry (flipVal cand base mask) with
      | some r => some r
      | none => chaseLoop cand base fuel (mask + 1)

/-- `chase_bch_da(block31, llr31, out_data, fixed)`.  The `fixed` flag of
the zero-syndrome head case is `false` (`*fixed = 0`). -/
def chase_bch_da (block31 : Nat → Bool) (llr31 : Option (Nat → ℚ)) : ChaseResult :=
  let val := bitsToUintF block31 31
  let syndrome := gf2_remainder 3545 val
  if syndrome = 0 then
    some (0, natToBits (val >>> 11) 20, false)
  else if syndrome < 2048 ∧ 0 ≤ (synGet syn_da syndrome).errs then
    some ((synGet syn_da syndrome).errs,
      natToBits ((val ^^^ (synGet syn_da syndrome).locator) >>> 11) 20, true)
  else
    match llr31 with
    | none => none
    | some llr => chaseLoop (chasePositions llr) val 31 1

/-! ### Correction behaviour of the hard-decision path -/

theorem chase_flip0 {c : Nat} (hc0 : gf2_remainder 3545 c = 0) (bl : Nat → Bool)
    (hval : bitsToUintF bl 31 = c) :
    chase_bch_da bl none = some ((0 : Int), natToBits (c >>> 11) 20, false) := by
  simp only [chase_bch_da]
  rw [hval, hc0, if_pos rfl]

theorem chase_flip1 {c : Nat} (hc0 : gf2_remainder 3545 c = 0)
    {i : Nat} (hi : i < 31) (bl : Nat → Bool)
    (hval : bitsToUintF bl 31 = c ^^^ (1 <<< i)) :
    chase_bch_da bl none = some ((1 : Int), natToBits (c >>> 11) 20, true) := by
  have hsyn : gf2_remainder 3545 (c ^^^ (1 <<< i)) = rem1 3545 i := by
    rw [gf2_remainder_xor hp3545, hc0, Nat.zero_xor]; rfl
  have hne := rem1_da_ne_zero hi
  have hlt := rem1_da_lt i
  have hent := syn_da_single hi
  simp only [chase_bch_da]
  rw [hval, hsyn, if_neg hne, if_pos ⟨hlt, by rw [hent]; norm_num⟩, hent]
  rw [Nat.xor_assoc, Nat.xor_self, Nat.xor_zero]

theorem chase_flip2 {c : Nat} (hc0 : gf2_remainder 3545 c = 0)
    {i j : Nat} (hij : i < j) (hj : j < 31) (bl : Nat → Bool)
    (hval : bitsToUintF bl 31 = (c ^^^ (1 <<< i)) ^^^ (1 <<< j)) :
    chase_bch_da bl none = some ((2 : Int), natToBits (c >>> 11) 20, true) := by
  have hxor : (c ^^^ (1 <<< i)) ^^^ (1 <<< j) = c ^^^ ((1 <<< i) ^^^ (1 <<< j)) :=
    Nat.xor_assoc ..
  have hsyn : gf2_remainder 3545 (c ^^^ ((1 <<< i) ^^^ (1 <<< j))) = rem2 3545 (i, j) := by
    rw [gf2_remainder_xor hp3545, hc0, Nat.zero_xor,
      rem2_eq_xor (Nat.ne_of_lt hij)]
    rw [gf2_remainder_xor hp3545]
    rfl
  have hne := rem2_da_ne_zero hij hj
  have hlt := rem2_da_lt (i, j)
  have hent := syn_da_double hij hj
  simp only [chase_bch_da]
  rw [hval, hxor, hsyn, if_neg hne, if_pos ⟨hlt, by rw [hent]; norm_num⟩, hent]
  rw [pairVal_eq_xor (Nat.ne_of_lt hij), Nat.xor_assoc, Nat.xor_self, Nat.xor_zero]

theorem chase_flip3_hard {c : Nat} (hc0 : gf2_remainder 3545 c = 0)
    {i j k : Nat} (hij : i < j) (hjk : j < k) (hk : k < 31) (bl : Nat → Bool)
    (hval : bitsToUintF bl 31 = ((c ^^^ (1 <<< i)) ^^^ (1 <<< j)) ^^^ (1 <<< k)) :
    chase_bch_da bl none = none := by
  have hexc := rem3_da_excluded hij hjk hk
  have hsyn : gf2_remainder 3545 (((c ^^^ (1 <<< i)) ^^^ (1 <<< j)) ^^^ (1 <<< k)) =
      (rem1 3545 i ^^^ rem1 3545 j) ^^^ rem1 3545 k := by
    rw [gf2_remainder_xor hp3545, gf2_remainder_xor hp3545, gf2_remainder_xor hp3545,
      hc0, Nat.zero_xor]
    rfl
  have hunf : (synGet syn_da ((rem1 3545 i ^^^ rem1 3545 j) ^^^ rem1 3545 k)).errs < 0 :=
    syn_da_unfilled hexc.1
  simp only [chase_bch_da]
  rw [hval, hsyn, if_neg hexc.2, if_neg (by intro hcon; omega)]

/-- C4: for every 20-bit data word `d` and every 31-bit codeword `c`
whose top 20 bits are `d` and whose remainder modulo the generator 3545
is zero, hard-decision decoding by `chase_bch_da` (no LLRs supplied) of
`c` with 0, 1 or 2 bit positions flipped returns `d`; with any 3 bit
positions flipped it fails, so it never silently produces a different
20-bit data word. -/
theorem c4_bch31_correction (d c : Nat) (hd : d < 2 ^ 20) (hc : c < 2 ^ 31)
    (hshift : c >>> 11 = d) (hrem : gf2_remainder 3545 c = 0) :
    (∀ bl : Nat → Bool, bitsToUintF bl 31 = c →
      ∃ e f, chase_bch_da bl none = some (e, natToBits d 20, f)) ∧
    (∀ i, i < 31 → ∀ bl : Nat → Bool, bitsToUintF bl 31 = c ^^^ (1 <<< i) →
      ∃ e f, chase_bch_da bl none = some (e, natToBits d 20, f)) ∧
    (∀ i j, i < j → j < 31 → ∀ bl : Nat → Bool,
      bitsToUintF bl 31 = (c ^^^ (1 <<< i)) ^^^ (1 <<< j) →
      ∃ e f, chase_bch_da bl none = some (e, natToBits d 20, f)) ∧
    (∀ i j k, i < j → j < k → k < 31 → ∀ bl : Nat → Bool,
      bitsToUintF bl 31 = ((c ^^^ (1 <<< i)) ^^^ (1 <<< j)) ^^^ (1 <<< k) →
      chase_bch_da bl none = none) := by
  refine ⟨?_, ?_, ?_, ?_⟩
  · intro bl hval
    exact ⟨0, false, by rw [chase_flip0 hrem bl hval, hshift]⟩
  · intro i hi bl hval
    exact ⟨1, true, by rw [chase_flip1 hrem hi bl hval, hshift]⟩
  · intro i j hij hj bl hval
    exact ⟨2, true, by rw [chase_flip2 hrem hij hj bl hval, hshift]⟩
  · intro i j k hij hjk hk bl hval
    exact chase_flip3_hard hrem hij hjk hk bl hval

/-- Witness for C4 at `d = 0`, `c = 0`: a single flip still decodes to
0, and three flips make the decoder fail. -/
theorem c4_bch31_correction_witness :
    ((0 : Nat) < 2 ^ 20 ∧ (0 : Nat) < 2 ^ 31 ∧ (0 : Nat) >>> 11 = 0 ∧
      gf2_remainder 3545 0 = 0) ∧
    (∃ e f, chase_bch_da (fun idx => (1 : Nat).testBit (31 - 1 - idx)) none =
      some (e, natToBits 0 20, f)) ∧
    chase_bch_da (fun idx => (7 : Nat).testBit (31 - 1 - idx)) none = none := by
  refine ⟨by refine ⟨by norm_num, by norm_num, rfl, by decide⟩, ?_, ?_⟩
  · exact (c4_bch31_correction 0 0 (by norm_num) (by norm_num) rfl (by decide)).2.1
      0 (by norm_num) _ (by rw [bitsToUintF_ofBits]; decide)
  · exact (c4_bch31_correction 0 0 (by norm_num) (by norm_num) rfl (by decide)).2.2.2
      0 1 2 (by norm_num) (by norm_num) (by norm_num) _
      (by rw [bitsToUintF_ofBits]; decide)

/-! ## LCW extraction (`decode_lcw`, `ida_decode.c:193-253`) -/

/-- The 46-entry 1-indexed de-interleave permutation table. -/
def lcw_perm : List Nat :=
  [40, 39, 36, 35, 32, 31, 28, 27, 24, 23,
   20, 19, 16, 15, 12, 11,  8,  7,  4,  3,
   41, 38, 37, 34, 33, 30, 29, 26, 25, 22,
   21, 18, 17, 14, 13, 10,  9,  6,  5,  2,
    1, 46, 45, 44, 43, 42]

structure Lcw where
  ft : Nat
  lcw_ok : Nat
  lcw_ft : Nat
  lcw_code : Nat
  lcw3_val : Nat
  ec_lcw : Nat
deriving DecidableEq

/-- The permuted LCW bit array: pair swap (`swapped[i] = data[i ^ 1]`)
followed by the 1-indexed permutation. -/
def lcwBitsOfData (data : Nat → Bool) : Nat → Bool :=
  fun i => data ((lcw_perm.getD i 0 - 1) ^^^ 1)

/-- The common correction block of the three LCW components in
`decode_lcw`: compute the syndrome; reject when it is out of range or
unfilled; otherwise apply the locator. -/
def lcw_correct (poly sz : Nat) (tbl : SynTable) (v : Nat) : Option Nat :=
  let s := gf2_remainder poly v
  if s ≠ 0 ∧ (sz ≤ s ∨ (synGet tbl s).errs < 0) then none
  else some (if s = 0 then v else v ^^^ (synGet tbl s).locator)

/-- `decode_lcw(data, data_len, lcw)`. -/
def decode_lcw (data : Nat → Bool) (dataLen : Nat) : Option Lcw :=
  if dataLen < 46 then none else
  let lcwBits := lcwBitsOfData data
  let v1 := bitsToUintF lcwBits 7
  match lcw_correct 29 16 syn_lcw1 v1 with
  | none => none
  | some v1c =>
    let ft := (v1c >>> 4) &&& 7
    let v2 := (bitsToUintF (fun i => lcwBits (7 + i)) 13) <<< 1
    match lcw_correct 465 256 syn_lcw2 v2 with
    | none => none
    | some v2c =>
      let v3 := bitsToUintF (fun i => lcwBits (20 + i)) 26
      match lcw_correct 41 32 syn_lcw3 v3 with
      | none => none
      | some v3c =>
        let lcw2_data := (v2c >>> 8) &&& 0x3F
        some { ft := ft, lcw_ok := 1,
               lcw_ft := (lcw2_data >>> 4) &&& 3,
               lcw_code := lcw2_data &&& 0xF,
               lcw3_val := v3c >>> 5,
               ec_lcw := (if gf2_remainder 29 v1 ≠ 0 then 1 else 0) +
                 (if gf2_remainder 465 v2 ≠ 0 then 1 else 0) +
                 (if gf2_remainder 41 v3 ≠ 0 then 1 else 0) }

theorem lcw_correct_exact {poly sz : Nat} {tbl : SynTable} {v : Nat}
    (h : gf2_remainder poly v = 0) : lcw_correct poly sz tbl v = some v := by
  unfold lcw_correct
  rw [if_neg (by simp [h]), if_pos h]

theorem lcw_correct_fix {poly sz : Nat} {tbl : SynTable} {v r loc : Nat}
    (hr : gf2_remainder poly v = r) (hne : r ≠ 0) (hsz : r < sz) {e : Int}
    (hent : synGet tbl r = ⟨e, loc⟩) (he : 0 ≤ e) :
    lcw_correct poly sz tbl v = some (v ^^^ loc) := by
  unfold lcw_correct
  rw [hr, if_neg (by rw [hent]; push_neg; exact fun _ => ⟨by omega, by simpa using he⟩),
    if_neg hne, hent]

theorem lcw_correct_fail {poly sz : Nat} {tbl : SynTable} {v r : Nat}
    (hr : gf2_remainder poly v = r) (hne : r ≠ 0)
    (hbad : sz ≤ r ∨ (synGet tbl r).errs < 0) :
    lcw_correct poly sz tbl v = none := by
  unfold lcw_correct
  rw [hr, if_pos ⟨hne, hbad⟩]

/-! ## LCW encoding (spec side, for claim C3)

The spec's round-trip property encodes the three components with their
BCH generators, inverse-permutes and pair-swaps.  `lcw2` transmits only
the top 13 bits of its 14-bit codeword (the pad bit is re-appended as 0
by the decoder). -/

/-- Flip one bit of a bit array. -/
def flipF (p : Nat) (f : Nat → Bool) : Nat → Bool :=
  fun i => if i = p then !(f i) else f i

theorem bitsToUintF_congr {f g : Nat → Bool} (n : Nat) (h : ∀ i, i < n → f i = g i) :
    bitsToUintF f n = bitsToUintF g n := by
  induction n with
  | zero => rfl
  | succ n ih =>
      rw [bitsToUintF_succ, bitsToUintF_succ,
        ih (fun i hi => h i (Nat.lt_succ_of_lt hi)), h n (Nat.lt_succ_self n)]

theorem bitsToUintF_flip (f : Nat → Bool) {n p : Nat} (hp : p < n) :
    bitsToUintF (flipF p f) n = bitsToUintF f n ^^^ (1 <<< (n - 1 - p)) := by
  apply Nat.eq_of_testBit_eq
  intro j
  rcases Nat.lt_or_ge j n with hj | hj
  · have e1 := bitsToUintF_testBit (flipF p f) n (n - 1 - j) (by omega)
    have e2 := bitsToUintF_testBit f n (n - 1 - j) (by omega)
    rw [show n - 1 - (n - 1 - j) = j from by omega] at e1 e2
    have e3 : (1 <<< (n - 1 - p)).testBit j = decide (p = n - 1 - j) := by
      rw [Nat.shiftLeft_eq, Nat.one_mul, Nat.testBit_two_pow]
      exact decide_eq_decide.mpr (by omega)
    rw [Nat.testBit_xor, e1, e2, e3]
    unfold flipF
    rcases eq_or_ne (n - 1 - j) p with heq | hne
    · rw [if_pos heq, heq]
      simp
    · rw [if_neg hne, decide_eq_false (by omega)]
      simp
  · have h1 : (bitsToUintF (flipF p f) n).testBit j = false :=
      Nat.testBit_lt_two_pow (lt_of_lt_of_le (bitsToUintF_lt _ _)
        (Nat.pow_le_pow_right (by norm_num) hj))
    have h2 : (bitsToUintF f n).testBit j = false :=
      Nat.testBit_lt_two_pow (lt_of_lt_of_le (bitsToUintF_lt _ _)
        (Nat.pow_le_pow_right (by norm_num) hj))
    have h3 : (1 <<< (n - 1 - p)).testBit j = false := by
      rw [Nat.shiftLeft_eq, Nat.one_mul, Nat.testBit_two_pow]
      exact decide_eq_false (by omega)
    rw [Nat.testBit_xor, h1, h2, h3]
    rfl

/-- The 46 LCW bits before interleaving: `lcw1` (7 bits) ‖ top 13 bits
of `lcw2` ‖ `lcw3` (26 bits), each MSB-first. -/
def lcwBitsEnc (ft lft lcode l3 : Nat) : Nat → Bool := fun i =>
  if i < 7 then (bchEncode 29 ft).testBit (6 - i)
  else if i < 20 then (bchEncode 465 (lft * 16 + lcode) >>> 1).testBit (19 - i)
  else (bchEncode 41 l3).testBit (45 - i)

/-- Position in the LCW bit array that the decoder reads frame bit `j`
into: the inverse of `i ↦ (lcw_perm[i] - 1) ^ 1`. -/
def encIdx (j : Nat) : Nat :=
  (List.range 46).findIdx fun i => ((lcw_perm.getD i 0 - 1) ^^^ 1) == j

/-- Build the on-air 46-bit frame from the LCW bits: inverse permutation
followed by pair swap (the inverse of `lcwBitsOfData`). -/
def frameOfLcwBits (bits : Nat → Bool) : Nat → Bool :=
  fun j => bits (encIdx j)

/-- `decide`-checked: `encIdx` inverts the decoder's read permutation. -/
theorem encIdx_leftInv : ∀ i < 46, encIdx ((lcw_perm.getD i 0 - 1) ^^^ 1) = i := by
  decide

theorem lcw_extract_frame (bits : Nat → Bool) {i : Nat} (hi : i < 46) :
    lcwBitsOfData (frameOfLcwBits bits) i = bits i := by
  show bits (encIdx ((lcw_perm.getD i 0 - 1) ^^^ 1)) = bits i
  rw [encIdx_leftInv i hi]

/-! ### Component values read back from an encoded frame -/

theorem encFrame_v1 (bits : Nat → Bool) :
    bitsToUintF (lcwBitsOfData (frameOfLcwBits bits)) 7 = bitsToUintF bits 7 :=
  bitsToUintF_congr 7 fun i hi => lcw_extract_frame bits (by omega)

theorem encFrame_v2 (bits : Nat → Bool) :
    bitsToUintF (fun i => lcwBitsOfData (frameOfLcwBits bits) (7 + i)) 13 =
      bitsToUintF (fun i => bits (7 + i)) 13 :=
  bitsToUintF_congr 13 fun i hi => lcw_extract_frame bits (by omega)

theorem encFrame_v3 (bits : Nat → Bool) :
    bitsToUintF (fun i => lcwBitsOfData (frameOfLcwBits bits) (20 + i)) 26 =
      bitsToUintF (fun i => bits (20 + i)) 26 :=
  bitsToUintF_congr 26 fun i hi => lcw_extract_frame bits (by omega)

theorem bchEncode29_lt {ft : Nat} (hft : ft < 8) : bchEncode 29 ft < 2 ^ 7 := by
  have h := bchEncode_lt ft 3 hp29 (by omega)
  rwa [hdeg29] at h

theorem bchEncode465_lt {d6 : Nat} (hd6 : d6 < 64) : bchEncode 465 d6 < 2 ^ 14 := by
  have h := bchEncode_lt d6 6 hp465 (by omega)
  rwa [hdeg465] at h

theorem bchEncode41_lt {l3 : Nat} (hl3 : l3 < 2 ^ 21) : bchEncode 41 l3 < 2 ^ 26 := by
  have h := bchEncode_lt l3 21 hp41 hl3
  rwa [hdeg41] at h

theorem lcwBitsEnc_v1 {ft lft lcode l3 : Nat} (hft : ft < 8) :
    bitsToUintF (lcwBitsEnc ft lft lcode l3) 7 = bchEncode 29 ft := by
  have h1 : ∀ i, i < 7 → lcwBitsEnc ft lft lcode l3 i =
      (bchEncode 29 ft).testBit (7 - 1 - i) := by
    intro i hi
    unfold lcwBitsEnc
    rw [if_pos hi]
  rw [bitsToUintF_congr 7 h1, bitsToUintF_ofBits,
    Nat.mod_eq_of_lt (bchEncode29_lt hft)]

theorem lcwBitsEnc_v2 {ft lft lcode l3 : Nat} (hlft : lft < 4) (hlc : lcode < 16) :
    bitsToUintF (fun i => lcwBitsEnc ft lft lcode l3 (7 + i)) 13 =
      bchEncode 465 (lft * 16 + lcode) >>> 1 := by
  have h1 : ∀ i, i < 13 → lcwBitsEnc ft lft lcode l3 (7 + i) =
      (bchEncode 465 (lft * 16 + lcode) >>> 1).testBit (13 - 1 - i) := by
    intro i hi
    unfold lcwBitsEnc
    rw [if_neg (by omega), if_pos (by omega)]
    congr 1 <;> omega
  have hlt : bchEncode 465 (lft * 16 + lcode) >>> 1 < 2 ^ 13 := by
    have h := bchEncode465_lt (show lft * 16 + lcode < 64 by omega)
    rw [Nat.shiftRight_eq_div_pow]
    omega
  rw [bitsToUintF_congr 13 h1, bitsToUintF_ofBits, Nat.mod_eq_of_lt hlt]

theorem lcwBitsEnc_v3 {ft lft lcode l3 : Nat} (hl3 : l3 < 2 ^ 21) :
    bitsToUintF (fun i => lcwBitsEnc ft lft lcode l3 (20 + i)) 26 =
      bchEncode 41 l3 := by
  have h1 : ∀ i, i < 26 → lcwBitsEnc ft lft lcode l3 (20 + i) =
      (bchEncode 41 l3).testBit (26 - 1 - i) := by
    intro i hi
    unfold lcwBitsEnc
    rw [if_neg (by omega), if_neg (by omega)]
    congr 1 <;> omega
  rw [bitsToUintF_congr 26 h1, bitsToUintF_ofBits,
    Nat.mod_eq_of_lt (bchEncode41_lt hl3)]

/-! ### Component correction results -/

theorem comp1_exact (ft : Nat) :
    lcw_correct 29 16 syn_lcw1 (bchEncode 29 ft) = some (bchEncode 29 ft) :=
  lcw_correct_exact (bchEncode_rem ft hp29 (by rw [hdeg29]; norm_num))

theorem comp1_flip (ft : Nat) {b : Nat} (hb : b < 7) :
    lcw_correct 29 16 syn_lcw1 (bchEncode 29 ft ^^^ (1 <<< b)) =
      some (bchEncode 29 ft) := by
  have hrem : gf2_remainder 29 (bchEncode 29 ft ^^^ (1 <<< b)) = rem1 29 b := by
    rw [gf2_remainder_xor hp29, bchEncode_rem ft hp29 (by rw [hdeg29]; norm_num),
      Nat.zero_xor]
    rfl
  have hne : rem1 29 b ≠ 0 := rem1_ne_zero rfl l1S_nonzero hb
  have hsz : rem1 29 b < 16 := by
    have h := gf2_remainder_lt hp29 (1 <<< b)
    rwa [hdeg29] at h
  rw [lcw_correct_fix hrem hne hsz (syn_lcw1_single hb) (by norm_num),
    Nat.xor_assoc, Nat.xor_self, Nat.xor_zero]

theorem comp2_exact (d6 : Nat) :
    lcw_correct 465 256 syn_lcw2 ((bchEncode 465 d6 >>> 1) <<< 1) =
      some (bchEncode 465 d6) := by
  have hrem0 : gf2_remainder 465 (bchEncode 465 d6) = 0 :=
    bchEncode_rem d6 hp465 (by rw [hdeg465]; norm_num)
  have hv : (bchEncode 465 d6 >>> 1) <<< 1 = bchEncode 465 d6 - bchEncode 465 d6 % 2 := by
    rw [Nat.shiftRight_eq_div_pow, Nat.shiftLeft_eq, pow_one]
    omega
  rcases Nat.mod_two_eq_zero_or_one (bchEncode 465 d6) with h0 | h1
  · rw [hv, h0, Nat.sub_zero]
    exact lcw_correct_exact hrem0
  · have hxor : bchEncode 465 d6 ^^^ 1 = bchEncode 465 d6 - 1 := by
      have hsplit : bchEncode 465 d6 = 2 * (bchEncode 465 d6 / 2) + 1 := by omega
      have h2 := two_mul_add_xor (bchEncode 465 d6 / 2) 0 true true
      simp only [Bool.toNat_true, Nat.mul_zero, Nat.zero_add, Bool.xor_self,
        Bool.toNat_false, Nat.xor_zero, Nat.add_zero] at h2
      rw [← hsplit] at h2
      omega
    have hrem1 : gf2_remainder 465 (bchEncode 465 d6 - 1) = 1 := by
      rw [← hxor, gf2_remainder_xor hp465, hrem0, Nat.zero_xor,
        gf2_remainder_small hp465 (by rw [hdeg465]; norm_num)
          (by rw [hdeg465]; norm_num)]
    have hent : synGet syn_lcw2 1 = ⟨1, 1⟩ := by
      have h := syn_lcw2_single (show 0 < 14 by norm_num)
      have hr : rem1 465 0 = 1 := by
        show gf2_remainder 465 (1 <<< 0) = 1
        exact gf2_remainder_small hp465 (by rw [hdeg465]; norm_num)
          (by rw [hdeg465]; norm_num)
      rw [hr] at h
      exact h
    rw [hv, h1, lcw_correct_fix hrem1 (by norm_num) (by norm_num) hent (by norm_num),
      ← hxor, Nat.xor_assoc, Nat.xor_self, Nat.xor_zero]

theorem comp3_exact (l3 : Nat) :
    lcw_correct 41 32 syn_lcw3 (bchEncode 41 l3) = some (bchEncode 41 l3) :=
  lcw_correct_exact (bchEncode_rem l3 hp41 (by rw [hdeg41]; norm_num))

theorem comp3_flip (l3 : Nat) {b : Nat} (hb : b < 26) :
    lcw_correct 41 32 syn_lcw3 (bchEncode 41 l3 ^^^ (1 <<< b)) =
      some (bchEncode 41 l3) := by
  have hrem : gf2_remainder 41 (bchEncode 41 l3 ^^^ (1 <<< b)) = rem1 41 b := by
    rw [gf2_remainder_xor hp41, bchEncode_rem l3 hp41 (by rw [hdeg41]; norm_num),
      Nat.zero_xor]
    rfl
  have hne : rem1 41 b ≠ 0 := rem1_ne_zero rfl l3S_nonzero hb
  have hsz : rem1 41 b < 32 := by
    have h := gf2_remainder_lt hp41 (1 <<< b)
    rwa [hdeg41] at h
  rw [lcw_correct_fix hrem hne hsz (syn_lcw3_single hb) (by norm_num),
    Nat.xor_assoc, Nat.xor_self, Nat.xor_zero]

/-! ### Field extraction arithmetic (`decide`-checked on bounded ranges) -/

theorem and_seven : ∀ x, x < 8 → x &&& 7 = x := by decide

theorem and_63 : ∀ x, x < 64 → x &&& 63 = x := by decide

theorem d6_fields : ∀ a, a < 4 → ∀ b, b < 16 →
    ((a * 16 + b) >>> 4) &&& 3 = a ∧ (a * 16 + b) &&& 15 = b := by decide

/-- Stepping through `decode_lcw` once the three component corrections
are known. -/
theorem decode_lcw_compute (data : Nat → Bool) (c1 c2 c3 : Nat)
    (h1 : lcw_correct 29 16 syn_lcw1 (bitsToUintF (lcwBitsOfData data) 7) = some c1)
    (h2 : lcw_correct 465 256 syn_lcw2
      ((bitsToUintF (fun i => lcwBitsOfData data (7 + i)) 13) <<< 1) = some c2)
    (h3 : lcw_correct 41 32 syn_lcw3
      (bitsToUintF (fun i => lcwBitsOfData data (20 + i)) 26) = some c3) :
    decode_lcw data 46 = some
      { ft := (c1 >>> 4) &&& 7, lcw_ok := 1,
        lcw_ft := (((c2 >>> 8) &&& 63) >>> 4) &&& 3,
        lcw_code := ((c2 >>> 8) &&& 63) &&& 15,
        lcw3_val := c3 >>> 5,
        ec_lcw :=
          (if gf2_remainder 29 (bitsToUintF (lcwBitsOfData data) 7) ≠ 0 then 1 else 0) +
          (if gf2_remainder 465
              ((bitsToUintF (fun i => lcwBitsOfData data (7 + i)) 13) <<< 1) ≠ 0
            then 1 else 0) +
          (if gf2_remainder 41
              (bitsToUintF (fun i => lcwBitsOfData data (20 + i)) 26) ≠ 0
            then 1 else 0) } := by
  simp only [decode_lcw, h1, h2, h3]
  rw [if_neg (by norm_num)]

/-- Flips outside a 13- or 26-bit window do not change its packed value. -/
theorem bitsToUintF_offset_flip_noop (f : Nat → Bool) {p off n : Nat}
    (h : ∀ i, i < n → off + i ≠ p) :
    bitsToUintF (fun i => flipF p f (off + i)) n =
      bitsToUintF (fun i => f (off + i)) n :=
  bitsToUintF_congr n fun i hi => by unfold flipF; rw [if_neg (h i hi)]

theorem c3_field1 {ft : Nat} (hft : ft < 8) : (bchEncode 29 ft >>> 4) &&& 7 = ft := by
  have hs := bchEncode_shift ft hp29
  rw [hdeg29] at hs
  rw [hs, and_seven ft hft]

theorem c3_field2 {lft lcode : Nat} (hlft : lft < 4) (hlc : lcode < 16) :
    (((bchEncode 465 (lft * 16 + lcode) >>> 8) &&& 63) >>> 4) &&& 3 = lft ∧
      ((bchEncode 465 (lft * 16 + lcode) >>> 8) &&& 63) &&& 15 = lcode := by
  have hs := bchEncode_shift (lft * 16 + lcode) hp465
  rw [hdeg465] at hs
  rw [hs, and_63 _ (by omega)]
  exact d6_fields lft hlft lcode hlc

theorem c3_field3 {l3 : Nat} (hl3 : l3 < 2 ^ 21) : bchEncode 41 l3 >>> 5 = l3 := by
  have hs := bchEncode_shift l3 hp41
  rwa [hdeg41] at hs

/-- C3 (amended): for every tuple `(ft, lcw_ft, lcw_code, lcw3_val)`
with `ft < 8`, `lcw_ft < 4`, `lcw_code < 16`, `lcw3_val < 2^21`:
encoding the three BCH codewords with generators 29, 465 and 41,
applying the inverse of the 46-entry permutation and the pair swap, and
passing the resulting 46 bits to `decode_lcw` returns `ok` and the same
tuple; and this still holds after any single-bit flip within the lcw1
codeword bits or any single-bit flip within the lcw3 codeword bits.
(Unlike the original claim, flips inside the 13 transmitted lcw2 bits
and 2-bit flips inside lcw3 are not always recovered; see the
counterexample.) -/
theorem c3_lcw_roundtrip_amended (ft lft lcode l3 : Nat)
    (hft : ft < 8) (hlft : lft < 4) (hlc : lcode < 16) (hl3 : l3 < 2 ^ 21) :
    (∃ ec, decode_lcw (frameOfLcwBits (lcwBitsEnc ft lft lcode l3)) 46 =
       some ⟨ft, 1, lft, lcode, l3, ec⟩) ∧
    (∀ p, p < 7 →
      ∃ ec, decode_lcw (frameOfLcwBits (flipF p (lcwBitsEnc ft lft lcode l3))) 46 =
        some ⟨ft, 1, lft, lcode, l3, ec⟩) ∧
    (∀ p, 20 ≤ p → p < 46 →
      ∃ ec, decode_lcw (frameOfLcwBits (flipF p (lcwBitsEnc ft lft lcode l3))) 46 =
        some ⟨ft, 1, lft, lcode, l3, ec⟩) := by
  have hf1 := c3_field1 hft
  have hf2 := c3_field2 hlft hlc
  have hf3 := c3_field3 hl3
  refine ⟨?_, ?_, ?_⟩
  · -- no flips
    have h1 : lcw_correct 29 16 syn_lcw1
        (bitsToUintF (lcwBitsOfData (frameOfLcwBits (lcwBitsEnc ft lft lcode l3))) 7) =
        some (bchEncode 29 ft) := by
      rw [encFrame_v1, lcwBitsEnc_v1 hft]
      exact comp1_exact ft
    have h2 : lcw_correct 465 256 syn_lcw2
        ((bitsToUintF (fun i =>
          lcwBitsOfData (frameOfLcwBits (lcwBitsEnc ft lft lcode l3)) (7 + i)) 13) <<< 1) =
        some (bchEncode 465 (lft * 16 + lcode)) := by
      rw [encFrame_v2, lcwBitsEnc_v2 hlft hlc]
      exact comp2_exact _
    have h3 : lcw_correct 41 32 syn_lcw3
        (bitsToUintF (fun i =>
          lcwBitsOfData (frameOfLcwBits (lcwBitsEnc ft lft lcode l3)) (20 + i)) 26) =
        some (bchEncode 41 l3) := by
      rw [encFrame_v3, lcwBitsEnc_v3 hl3]
      exact comp3_exact _
    have hc := decode_lcw_compute _ _ _ _ h1 h2 h3
    rw [hf1, hf2.1, hf2.2, hf3] at hc
    exact ⟨_, hc⟩
  · -- one flip inside lcw1
    intro p hp
    have h1 : lcw_correct 29 16 syn_lcw1
        (bitsToUintF (lcwBitsOfData
          (frameOfLcwBits (flipF p (lcwBitsEnc ft lft lcode l3)))) 7) =
        some (bchEncode 29 ft) := by
      rw [encFrame_v1, bitsToUintF_flip _ hp, lcwBitsEnc_v1 hft]
      exact comp1_flip ft (by omega)
    have h2 : lcw_correct 465 256 syn_lcw2
        ((bitsToUintF (fun i => lcwBitsOfData
          (frameOfLcwBits (flipF p (lcwBitsEnc ft lft lcode l3))) (7 + i)) 13) <<< 1) =
        some (bchEncode 465 (lft * 16 + lcode)) := by
      rw [encFrame_v2, bitsToUintF_offset_flip_noop _ (fun i hi => by omega),
        lcwBitsEnc_v2 hlft hlc]
      exact comp2_exact _
    have h3 : lcw_correct 41 32 syn_lcw3
        (bitsToUintF (fun i => lcwBitsOfData
          (frameOfLcwBits (flipF p (lcwBitsEnc ft lft lcode l3))) (20 + i)) 26) =
        some (bchEncode 41 l3) := by
      rw [encFrame_v3, bitsToUintF_offset_flip_noop _ (fun i hi => by omega),
        lcwBitsEnc_v3 hl3]
      exact comp3_exact _
    have hc := decode_lcw_compute _ _ _ _ h1 h2 h3
    rw [hf1, hf2.1, hf2.2, hf3] at hc
    exact ⟨_, hc⟩
  · -- one flip inside lcw3
    intro p hp20 hp46
    have h1 : lcw_correct 29 16 syn_lcw1
        (bitsToUintF (lcwBitsOfData
          (frameOfLcwBits (flipF p (lcwBitsEnc ft lft lcode l3)))) 7) =
        some (bchEncode 29 ft) := by
      rw [encFrame_v1,
        bitsToUintF_congr 7 (fun i hi => by unfold flipF; rw [if_neg (by omega)]),
        lcwBitsEnc_v1 hft]
      exact comp1_exact ft
    have h2 : lcw_correct 465 256 syn_lcw2
        ((bitsToUintF (fun i => lcwBitsOfData
          (frameOfLcwBits (flipF p (lcwBitsEnc ft lft lcode l3))) (7 + i)) 13) <<< 1) =
        some (bchEncode 465 (lft * 16 + lcode)) := by
      rw [encFrame_v2, bitsToUintF_offset_flip_noop _ (fun i hi => by omega),
        lcwBitsEnc_v2 hlft hlc]
      exact comp2_exact _
    have h3 : lcw_correct 41 32 syn_lcw3
        (bitsToUintF (fun i => lcwBitsOfData
          (frameOfLcwBits (flipF p (lcwBitsEnc ft lft lcode l3))) (20 + i)) 26) =
        some (bchEncode 41 l3) := by
      have hshiftwin : (fun i => flipF p (lcwBitsEnc ft lft lcode l3) (20 + i)) =
          fun i => flipF (p - 20) (fun k => lcwBitsEnc ft lft lcode l3 (20 + k)) i := by
        funext i
        unfold flipF
        by_cases hip : i = p - 20
        · rw [if_pos (show 20 + i = p by omega), if_pos hip]
        · rw [if_neg (by omega), if_neg hip]
      rw [encFrame_v3, hshiftwin, bitsToUintF_flip _ (show p - 20 < 26 by omega),
        lcwBitsEnc_v3 hl3]
      exact comp3_flip l3 (by omega)
    have hc := decode_lcw_compute _ _ _ _ h1 h2 h3
    rw [hf1, hf2.1, hf2.2, hf3] at hc
    exact ⟨_, hc⟩

/-- Witness for the amended C3 at the tuple `(2, 1, 5, 77)`, with a flip
in lcw1 (position 3) and a flip in lcw3 (position 30). -/
theorem c3_lcw_roundtrip_amended_witness :
    ((2 : Nat) < 8 ∧ (1 : Nat) < 4 ∧ (5 : Nat) < 16 ∧ (77 : Nat) < 2 ^ 21) ∧
    (∃ ec, decode_lcw (frameOfLcwBits (lcwBitsEnc 2 1 5 77)) 46 =
      some ⟨2, 1, 1, 5, 77, ec⟩) ∧
    (∃ ec, decode_lcw (frameOfLcwBits (flipF 3 (lcwBitsEnc 2 1 5 77))) 46 =
      some ⟨2, 1, 1, 5, 77, ec⟩) ∧
    (∃ ec, decode_lcw (frameOfLcwBits (flipF 30 (lcwBitsEnc 2 1 5 77))) 46 =
      some ⟨2, 1, 1, 5, 77, ec⟩) :=
  ⟨⟨by norm_num, by norm_num, by norm_num, by norm_num⟩,
   (c3_lcw_roundtrip_amended 2 1 5 77 (by norm_num) (by norm_num) (by norm_num)
      (by norm_num)).1,
   (c3_lcw_roundtrip_amended 2 1 5 77 (by norm_num) (by norm_num) (by norm_num)
      (by norm_num)).2.1 3 (by norm_num),
   (c3_lcw_roundtrip_amended 2 1 5 77 (by norm_num) (by norm_num) (by norm_num)
      (by norm_num)).2.2 30 (by norm_num) (by norm_num)⟩

/-- Counterexample to C3 as stated: flipping the single transmitted bit
19 (inside the lcw2 codeword) of the encoded tuple `(0, 0, 1, 0)` makes
`decode_lcw` reject the LCW, and flipping the two lcw3 codeword bits at
positions 44 and 45 of the encoded tuple `(0, 0, 0, 0)` makes it return
`lcw3_val = 512` instead of 0. -/
theorem c3_lcw_counterexample :
    decode_lcw (frameOfLcwBits (flipF 19 (lcwBitsEnc 0 0 1 0))) 46 = none ∧
    decode_lcw (frameOfLcwBits (flipF 44 (flipF 45 (lcwBitsEnc 0 0 0 0)))) 46 =
      some ⟨0, 1, 0, 0, 512, 1⟩ := by
  constructor
  · decide
  · have h1 : lcw_correct 29 16 syn_lcw1
        (bitsToUintF (lcwBitsOfData
          (frameOfLcwBits (flipF 44 (flipF 45 (lcwBitsEnc 0 0 0 0))))) 7) = some 0 := by
      have hv : bitsToUintF (lcwBitsOfData
          (frameOfLcwBits (flipF 44 (flipF 45 (lcwBitsEnc 0 0 0 0))))) 7 = 0 := by decide
      rw [hv]
      exact lcw_correct_exact (by decide)
    have h2 : lcw_correct 465 256 syn_lcw2
        ((bitsToUintF (fun i => lcwBitsOfData
          (frameOfLcwBits (flipF 44 (flipF 45 (lcwBitsEnc 0 0 0 0)))) (7 + i)) 13)
            <<< 1) = some 0 := by
      have hv : (bitsToUintF (fun i => lcwBitsOfData
          (frameOfLcwBits (flipF 44 (flipF 45 (lcwBitsEnc 0 0 0 0)))) (7 + i)) 13)
            <<< 1 = 0 := by decide
      rw [hv]
      exact lcw_correct_exact (by decide)
    have h3 : lcw_correct 41 32 syn_lcw3
        (bitsToUintF (fun i => lcwBitsOfData
          (frameOfLcwBits (flipF 44 (flipF 45 (lcwBitsEnc 0 0 0 0)))) (20 + i)) 26) =
        some 16387 := by
      have hv : bitsToUintF (fun i => lcwBitsOfData
          (frameOfLcwBits (flipF 44 (flipF 45 (lcwBitsEnc 0 0 0 0)))) (20 + i)) 26 =
          3 := by decide
      rw [hv]
      have hent : synGet syn_lcw3 3 = ⟨1, 16384⟩ := by
        have h := syn_lcw3_single (show 14 < 26 by norm_num)
        have hr : rem1 41 14 = 3 := by decide
        rw [hr] at h
        rw [h]
        decide
      rw [lcw_correct_fix (by decide) (by norm_num) (by norm_num) hent (by norm_num)]
      decide
    have hc := decode_lcw_compute _ _ _ _ h1 h2 h3
    rw [hc]
    decide

/-! ## Payload descramble + Chase BCH decode
(`de_interleave_n`, `descramble_payload`, `ida_decode.c:255-377`) -/

/-- `de_interleave_n` first half: pairs taken from symbols
`n_sym-1, n_sym-3, …, 1`, preserving intra-pair order.  Polymorphic so
the same permutation serves bits and LLRs (`de_interleave_llr_n`). -/
def deInt1 {α : Type} (f : Nat → α) (nSym : Nat) : Nat → α :=
  fun p => f (2 * (nSym - 1 - 2 * (p / 2)) + p % 2)

/-- Second half: symbols `n_sym-2, n_sym-4, …, 0`. -/
def deInt2 {α : Type} (f : Nat → α) (nSym : Nat) : Nat → α :=
  fun p => f (2 * (nSym - 2 - 2 * (p / 2)) + p % 2)

/-- `combined = half1 ‖ half2` for a full 62-symbol block. -/
def blockCombined {α : Type} (block : Nat → α) : Nat → α :=
  fun i => if i < 62 then deInt1 block 62 i else deInt2 block 62 (i - 62)

/-- The chunk reorder `{3, 1, 2, 0}`. -/
def chunkOrder : List Nat := [3, 1, 2, 0]

/-- Running state of `descramble_payload`: decoded stream, count of
corrected blocks, and the `goto done` flag. -/
structure DescrState where
  stream : List Bool
  fixed : Nat
  aborted : Bool

/-- The inner `for (c = 0; c < 4; c++)` chunk loop of a full block. -/
def runChunks (maxBch : Nat) (combined : Nat → Bool) (lcombined : Option (Nat → ℚ)) :
    List Nat → DescrState → DescrState
  | [], st => st
  | c :: rest, st =>
      if st.stream.length + 20 > maxBch then st
      else
        match chase_bch_da (fun k => combined (c * 31 + k))
            (lcombined.map fun g => fun k => g (c * 31 + k)) with
        | none => { st with aborted := true }
        | some (_, d20, fx) =>
            runChunks maxBch combined lcombined rest
              { stream := st.stream ++ d20,
                fixed := st.fixed + (if fx then 1 else 0),
                aborted := st.aborted }

/-- One full 124-bit block. -/
def blockStep (maxBch : Nat) (data : Nat → Bool) (llr : Option (Nat → ℚ))
    (st : DescrState) (blk : Nat) : DescrState :=
  if st.aborted then st
  else
    let block := fun i => data (blk * 124 + i)
    let combined := blockCombined block
    let lcombined := llr.map fun lf => blockCombined (fun i => lf (blk * 124 + i))
    runChunks maxBch combined lcombined chunkOrder st

/-- The `while (pos + 31 <= clen …)` loop over the partial tail block. -/
def tailWindows (maxBch clen : Nat) (c2 : Nat → Bool) (l2 : Option (Nat → ℚ)) :
    Nat → Nat → DescrState → DescrState
  | 0, _, st => st
  | fuel + 1, pos, st =>
      if pos + 31 ≤ clen ∧ st.stream.length + 20 ≤ maxBch then
        match chase_bch_da (fun k => c2 (pos + k)) (l2.map fun g => fun k => g (pos + k)) with
        | none => st
        | some (_, d20, fx) =>
            tailWindows maxBch clen c2 l2 fuel (pos + 31)
              { stream := st.stream ++ d20,
                fixed := st.fixed + (if fx then 1 else 0),
                aborted := st.aborted }
      else st

/-- `descramble_payload(data, llr, data_len, bch_stream, max_bch,
fixederrs)`; returns the decoded bit stream and the correction count. -/
def descramble_payload (data : Nat → Bool) (llr : Option (Nat → ℚ))
    (dataLen maxBch : Nat) : List Bool × Nat :=
  let nFull := dataLen / 124
  let remain := dataLen % 124
  let st1 := (List.range nFull).foldl (blockStep maxBch data llr) ⟨[], 0, false⟩
  if st1.aborted then (st1.stream, st1.fixed)
  else
    let nSymLast := remain / 2
    if 4 ≤ remain ∧ st1.stream.length + 2 * (remain / 2 - 1) ≤ maxBch then
      if 1 < nSymLast ∧ st1.stream.length + 20 ≤ maxBch then
        let block := fun i => data (nFull * 124 + i)
        let clen := 2 * (nSymLast - 1)
        let c2 := fun m => if m < nSymLast - 1 then deInt2 block nSymLast (m + 1)
          else deInt1 block nSymLast (m - (nSymLast - 1) + 1)
        let l2 := llr.map fun lf =>
          let lblock := fun i => lf (nFull * 124 + i)
          fun m => if m < nSymLast - 1 then deInt2 lblock nSymLast (m + 1)
            else deInt1 lblock nSymLast (m - (nSymLast - 1) + 1)
        let st2 := tailWindows maxBch clen c2 l2 clen 0 st1
        (st2.stream, st2.fixed)
      else (st1.stream, st1.fixed)
    else (st1.stream, st1.fixed)

/-! ## CRC-CCITT-FALSE (`crc_ccitt`, `ida_decode.c:381-394`) -/

/-- One shift of the CRC register (16-bit arithmetic). -/
def crcRound (crc : Nat) : Nat :=
  if crc &&& 0x8000 ≠ 0 then ((crc <<< 1) ^^^ 0x1021) % 65536
  else (crc <<< 1) % 65536

/-- `crc_ccitt(data, len)` over a byte list, init `0xFFFF`. -/
def crc_ccitt (bytes : List Nat) : Nat :=
  bytes.foldl (fun crc b =>
    (List.range 8).foldl (fun c _ => crcRound c) (crc ^^^ ((b % 256) <<< 8))) 0xFFFF

/-! ## IDA burst decode (`ida_decode`, `ida_decode.c:543-665`) -/

inductive Direction where
  | downlink
  | uplink
  | unknown
deriving DecidableEq

/-- `demod_frame_t` (declared in `qpsk_demod.h`, fields per spec §3). -/
structure DemodFrame where
  timestamp : Nat
  center_frequency : ℚ
  direction : Direction
  magnitude : ℚ
  noise : ℚ
  level : ℚ
  confidence : Nat
  n_payload_symbols : Nat
  bits : List Bool
  llr : Option (List ℚ)

/-- `ida_burst_t`.  The pretty-printed `lcw_header` string is not
modelled (pure formatting, exercised by no claim); `payload` holds the
`payload_len` meaningful bytes. -/
structure IdaBurst where
  timestamp : Nat
  frequency : ℚ
  direction : Direction
  magnitude : ℚ
  noise : ℚ
  level : ℚ
  confidence : Nat
  n_symbols : Nat
  da_ctr : Nat
  da_len : Nat
  cont : Bool
  payload : List Nat
  payload_len : Nat
  crc_ok : Bool
  stored_crc : Nat
  computed_crc : Nat
  fixederrs : Nat
  bch_stream : List Bool
  bch_len : Nat
  lcw : Lcw
deriving DecidableEq

/-- The payload bit view `data + 46` (frame bits after the 24-bit sync
region and the 46 LCW bits). -/
def idaPayloadBits (frame : DemodFrame) : Nat → Bool :=
  fun i => frame.bits.getD (24 + 46 + i) false

def idaPayloadLlr (frame : DemodFrame) : Option (Nat → ℚ) :=
  frame.llr.map fun l => fun i => l.getD (24 + 46 + i) 0

/-- The BCH-decoded stream of a frame (the `bch_stream` buffer). -/
def idaStream (frame : DemodFrame) : List Bool :=
  (descramble_payload (idaPayloadBits frame) (idaPayloadLlr frame)
    (frame.bits.length - 24 - 46) 512).1

def idaFixederrs (frame : DemodFrame) : Nat :=
  (descramble_payload (idaPayloadBits frame) (idaPayloadLlr frame)
    (frame.bits.length - 24 - 46) 512).2

/-- The packed CRC input buffer: bits 0–19, 12 zero bits, bits
20–`bch_len-5`, packed MSB-first into zero-initialised bytes. -/
def crcBuf (bs : Nat → Bool) (bchLen : Nat) : List Nat :=
  let bitSeq : Nat → Bool := fun p =>
    if p < 20 then bs p
    else if p < 32 then false
    else bs (p - 12)
  (List.range ((bchLen + 8 + 7) / 8)).map fun j =>
    bitsToUintF (fun k => if 8 * j + k < bchLen + 8 then bitSeq (8 * j + k) else false) 8

/-- The CRC verification block of `ida_decode` (lines 603-634):
`(crc_ok, stored_crc, computed_crc)`. -/
def idaCrc (bs : Nat → Bool) (bchLen da_len : Nat) : Bool × Nat × Nat :=
  if 0 < da_len ∧ 196 ≤ bchLen then
    let stored := bitsToUintF (fun i => bs (9 * 20 + i)) 16
    if (20 + 12 + (bchLen - 20 - 4) + 7) / 8 ≤ 64 then
      let computed := crc_ccitt (crcBuf bs bchLen)
      (computed == 0, stored, computed)
    else (false, stored, 0)
  else (false, 0, 0)

/-- `ida_decode(frame, burst)`. -/
def ida_decode (frame : DemodFrame) : Option IdaBurst :=
  if frame.bits.length < 24 + 46 + 124 then none
  else if frame.direction ≠ Direction.downlink ∧ frame.direction ≠ Direction.uplink
    then none
  else
    match decode_lcw (fun i => frame.bits.getD (24 + i) false) (frame.bits.length - 24) with
    | none => none
    | some lcw =>
      if lcw.ft ≠ 2 then none
      else if frame.bits.length - 24 - 46 < 124 then none
      else
        let bchStream := idaStream frame
        let bchLen := bchStream.length
        if bchLen < 196 then none
        else
          let bs : Nat → Bool := fun i => bchStream.getD i false
          let cont := bs 3
          let da_ctr := (bs 5).toNat * 4 + (bs 6).toNat * 2 + (bs 7).toNat
          let da_len := (bs 11).toNat * 16 + (bs 12).toNat * 8 + (bs 13).toNat * 4 +
            (bs 14).toNat * 2 + (bs 15).toNat
          let zero1 := (bs 17).toNat * 4 + (bs 18).toNat * 2 + (bs 19).toNat
          if zero1 ≠ 0 then none
          else if 20 < da_len then none
          else
            let payload := (List.range 20).map fun i =>
              bitsToUintF (fun b => bs (20 + i * 8 + b)) 8
            let crc := idaCrc bs bchLen da_len
            some { timestamp := frame.timestamp,
                   frequency := frame.center_frequency,
                   direction := frame.direction,
                   magnitude := frame.magnitude,
                   noise := frame.noise,
                   level := frame.level,
                   confidence := frame.confidence,
                   n_symbols := frame.n_payload_symbols,
                   da_ctr := da_ctr,
                   da_len := da_len,
                   cont := cont,
                   payload := payload.take (if 0 < da_len then da_len else 20),
                   payload_len := if 0 < da_len then da_len else 20,
                   crc_ok := crc.1,
                   stored_crc := crc.2.1,
                   computed_crc := crc.2.2,
                   fixederrs := idaFixederrs frame,
                   bch_stream := bchStream.take 256,
                   bch_len := bchLen,
                   lcw := lcw }

/-! ### Stream length facts -/

theorem chase_data_length {bl : Nat → Bool} {llr : Option (Nat → ℚ)}
    {e : Int} {d : List Bool} {f : Bool}
    (h : chase_bch_da bl llr = some (e, d, f)) : d.length = 20 := by
  have htry : ∀ (v : Nat), chaseTry v = some (e, d, f) → d.length = 20 := by
    intro v hc
    simp only [chaseTry] at hc
    split at hc
    · injection hc with hc
      rw [show d = natToBits (v >>> 11) 20 from congrArg (fun t => t.2.1) hc.symm]
      simp [natToBits]
    · split at hc
      · injection hc with hc
        rw [show d = natToBits ((v ^^^ (synGet syn_da (gf2_remainder 3545 v)).locator)
            >>> 11) 20 from congrArg (fun t => t.2.1) hc.symm]
        simp [natToBits]
      · simp at hc
  have hloop : ∀ (fuel mask : Nat) (cand : List Nat) (base : Nat),
      chaseLoop cand base fuel mask = some (e, d, f) → d.length = 20 := by
    intro fuel
    induction fuel with
    | zero => intro mask cand base h; simp [chaseLoop] at h
    | succ fuel ih =>
        intro mask cand base h
        rw [chaseLoop] at h
        rcases hc : chaseTry (flipVal cand base mask) with _ | r
        · rw [hc] at h
          exact ih _ _ _ h
        · rw [hc] at h
          injection h with h
          exact htry _ (by rw [hc, h])
  simp only [chase_bch_da] at h
  split at h
  · injection h with h
    rw [show d = natToBits (bitsToUintF bl 31 >>> 11) 20
      from congrArg (fun t => t.2.1) h.symm]
    simp [natToBits]
  · split at h
    · injection h with h
      rw [show d = natToBits ((bitsToUintF bl 31 ^^^
          (synGet syn_da (gf2_remainder 3545 (bitsToUintF bl 31))).locator) >>> 11) 20
        from congrArg (fun t => t.2.1) h.symm]
      simp [natToBits]
    · split at h
      · simp at h
      · exact hloop _ _ _ _ h

/-- The state after the chunk loop keeps `length % 20 = 0` and
`length ≤ maxBch`. -/
theorem runChunks_length {maxBch : Nat} {combined : Nat → Bool}
    {lcombined : Option (Nat → ℚ)} :
    ∀ (cs : List Nat) (st : DescrState),
      st.stream.length % 20 = 0 → st.stream.length ≤ maxBch →
      (runChunks maxBch combined lcombined cs st).stream.length % 20 = 0 ∧
      (runChunks maxBch combined lcombined cs st).stream.length ≤ maxBch := by
  intro cs
  induction cs with
  | nil => intro st h1 h2; exact ⟨h1, h2⟩
  | cons c rest ih =>
      intro st h1 h2
      rw [runChunks]
      split
      · exact ⟨h1, h2⟩
      · rename_i hle
        rcases hc : chase_bch_da (fun k => combined (c * 31 + k))
            (lcombined.map fun g => fun k => g (c * 31 + k)) with _ | r
        · rw [hc]
          exact ⟨h1, h2⟩
        · obtain ⟨e, d, f⟩ := r
          have hd := chase_data_length hc
          rw [hc]
          apply ih
          · simp [hd]
            omega
          · simp [hd]
            omega

theorem blockStep_length (maxBch : Nat) (data : Nat → Bool) (llr : Option (Nat → ℚ))
    (st : DescrState) (blk : Nat)
    (h1 : st.stream.length % 20 = 0) (h2 : st.stream.length ≤ maxBch) :
    (blockStep maxBch data llr st blk).stream.length % 20 = 0 ∧
    (blockStep maxBch data llr st blk).stream.length ≤ maxBch := by
  unfold blockStep
  split
  · exact ⟨h1, h2⟩
  · exact runChunks_length _ _ h1 h2

theorem tailWindows_length {maxBch clen : Nat} {c2 : Nat → Bool}
    {l2 : Option (Nat → ℚ)} :
    ∀ (fuel pos : Nat) (st : DescrState),
      st.stream.length % 20 = 0 → st.stream.length ≤ maxBch →
      (tailWindows maxBch clen c2 l2 fuel pos st).stream.length % 20 = 0 ∧
      (tailWindows maxBch clen c2 l2 fuel pos st).stream.length ≤ maxBch := by
  intro fuel
  induction fuel with
  | zero => intro pos st h1 h2; exact ⟨h1, h2⟩
  | succ fuel ih =>
      intro pos st h1 h2
      rw [tailWindows]
      split
      · rcases hc : chase_bch_da (fun k => c2 (pos + k))
            (l2.map fun g => fun k => g (pos + k)) with _ | r
        · rw [hc]
          exact ⟨h1, h2⟩
        · obtain ⟨e, d, f⟩ := r
          have hd := chase_data_length hc
          rw [hc]
          apply ih
          · simp [hd]
            omega
          · simp [hd]
            omega
      · exact ⟨h1, h2⟩

theorem descramble_length (data : Nat → Bool) (llr : Option (Nat → ℚ))
    (dataLen maxBch : Nat) :
    (descramble_payload data llr dataLen maxBch).1.length % 20 = 0 ∧
    (descramble_payload data llr dataLen maxBch).1.length ≤ maxBch := by
  have hfold : ∀ (bs : List Nat) (st : DescrState),
      st.stream.length % 20 = 0 → st.stream.length ≤ maxBch →
      (bs.foldl (blockStep maxBch data llr) st).stream.length % 20 = 0 ∧
      (bs.foldl (blockStep maxBch data llr) st).stream.length ≤ maxBch := by
    intro bs
    induction bs with
    | nil => intro st h1 h2; exact ⟨h1, h2⟩
    | cons b rest ih =>
        intro st h1 h2
        have hstep := blockStep_length maxBch data llr st b h1 h2
        exact ih _ hstep.1 hstep.2
  simp only [descramble_payload]
  have h1 := hfold (List.range (dataLen / 124)) ⟨[], 0, false⟩ (by simp) (by simp)
  split
  · exact h1
  · split
    · split
      · exact tailWindows_length _ _ _ h1.1 h1.2
      · exact h1
    · exact h1

theorem idaStream_length (frame : DemodFrame) :
    (idaStream frame).length % 20 = 0 ∧ (idaStream frame).length ≤ 512 :=
  descramble_length _ _ _ _

/-! ### The CRC input buffer, spec side -/

/-- MSB-first byte packing of a bit sequence, zero-padded in the last
byte (spec §4.3 step 5). -/
def packBytesMsb (l : List Bool) : List Nat :=
  (List.range ((l.length + 7) / 8)).map fun j =>
    bitsToUintF (fun k => l.getD (8 * j + k) false) 8

/-- The imperative bit-packing of `ida_decode` builds exactly the
byte sequence the spec describes. -/
theorem crcBuf_eq_pack (stream : List Bool) (h : 196 ≤ stream.length) :
    crcBuf (fun i => stream.getD i false) stream.length =
      packBytesMsb (stream.take 20 ++ List.replicate 12 false ++
        (stream.drop 20).take (stream.length - 24)) := by
  set L := stream.take 20 ++ List.replicate 12 false ++
    (stream.drop 20).take (stream.length - 24) with hL
  have hlen : L.length = stream.length + 8 := by
    rw [hL]
    simp only [List.length_append, List.length_take, List.length_replicate,
      List.length_drop]
    omega
  have hget : ∀ p, p < stream.length + 8 →
      L.getD p false = (if p < 20 then stream.getD p false
        else if p < 32 then false else stream.getD (p - 12) false) := by
    intro p hp
    rw [hL]
    by_cases h20 : p < 20
    · rw [if_pos h20]
      rw [List.getD_eq_getElem?_getD, List.getD_eq_getElem?_getD]
      rw [List.getElem?_append_left (by simp; omega),
        List.getElem?_append_left (by simp; omega),
        List.getElem?_take_of_lt h20]
    · rw [if_neg h20]
      by_cases h32 : p < 32
      · rw [if_pos h32]
        rw [List.getD_eq_getElem?_getD,
          List.getElem?_append_left (by simp; omega),
          List.getElem?_append_right (by simp; omega)]
        have : (List.replicate 12 false)[p - (stream.take 20).length]? = some false := by
          apply List.getElem?_replicate_of_lt
          simp
          omega
        rw [this]
        rfl
      · rw [if_neg h32]
        rw [List.getD_eq_getElem?_getD, List.getD_eq_getElem?_getD]
        rw [List.getElem?_append_right (by simp; omega)]
        have hidx : p - (stream.take 20 ++ List.replicate 12 false).length = p - 32 := by
          simp
          omega
        rw [hidx, List.getElem?_take_of_lt (by omega)]
        have hplt : p - 32 < (stream.drop 20).length := by simp; omega
        rw [List.getElem?_eq_getElem hplt, List.getElem_drop,
          ← List.getElem?_eq_getElem (by omega : 20 + (p - 32) < stream.length)]
        have : 20 + (p - 32) = p - 12 := by omega
        rw [this]
  unfold crcBuf packBytesMsb
  rw [hlen]
  apply List.map_congr_left
  intro j hj
  rw [List.mem_range] at hj
  apply bitsToUintF_congr
  intro k hk
  by_cases hp : 8 * j + k < stream.length + 8
  · rw [if_pos hp, hget _ hp]
  · rw [if_neg hp, List.getD_eq_getElem?_getD,
      List.getElem?_eq_none (by omega : L.length ≤ 8 * j + k)]
    rfl

/-- C2: for every `DemodFrame` that `ida_decode` accepts as an IDA
burst with `da_len > 0`, the burst's `stored_crc` is the 16 bits
`bs[180..196]` of the BCH-decoded stream read MSB-first, its
`computed_crc` is CRC-16-CCITT-FALSE over the MSB-first byte packing of
`bs[0..20] ‖ 12 zero bits ‖ bs[20..bch_len-4]`, and `crc_ok` holds iff
the computed CRC is 0. -/
theorem c2_ida_crc_fields (frame : DemodFrame) (b : IdaBurst)
    (h : ida_decode frame = some b) (hpos : 0 < b.da_len) :
    b.stored_crc = bitsToUintF (fun i => (idaStream frame).getD (180 + i) false) 16 ∧
    b.computed_crc = crc_ccitt (packBytesMsb ((idaStream frame).take 20 ++
      List.replicate 12 false ++
      ((idaStream frame).drop 20).take ((idaStream frame).length - 24))) ∧
    (b.crc_ok = true ↔ b.computed_crc = 0) := by
  simp only [ida_decode] at h
  split at h
  · simp at h
  · split at h
    · simp at h
    · split at h
      · simp at h
      · rename_i lcw hlcw
        split at h
        · simp at h
        · split at h
          · simp at h
          · split at h
            · simp at h
            · split at h
              · simp at h
              · split at h
                · simp at h
                · rename_i h196 hzero hdal
                  rw [Option.some_inj] at h
                  have hlen196 : 196 ≤ (idaStream frame).length := by omega
                  have hmod := idaStream_length frame
                  have hble : (idaStream frame).length ≤ 500 := by omega
                  have hcrc : idaCrc (fun i => (idaStream frame).getD i false)
                      (idaStream frame).length b.da_len =
                      (crc_ccitt (crcBuf (fun i => (idaStream frame).getD i false)
                          (idaStream frame).length) == 0,
                        bitsToUintF (fun i => (idaStream frame).getD (9 * 20 + i) false) 16,
                        crc_ccitt (crcBuf (fun i => (idaStream frame).getD i false)
                          (idaStream frame).length)) := by
                    unfold idaCrc
                    rw [if_pos ⟨hpos, hlen196⟩, if_pos (by omega)]
                  have hb2 : b.da_len = (((idaStream frame).getD 11 false).toNat * 16 +
                      ((idaStream frame).getD 12 false).toNat * 8 +
                      ((idaStream frame).getD 13 false).toNat * 4 +
                      ((idaStream frame).getD 14 false).toNat * 2 +
                      ((idaStream frame).getD 15 false).toNat) := by
                    rw [← h]
                  have hstored : b.stored_crc = (idaCrc (fun i => (idaStream frame).getD i false)
                      (idaStream frame).length b.da_len).2.1 := by
                    rw [← h, ← hb2]
                  have hcomputed : b.computed_crc =
                      (idaCrc (fun i => (idaStream frame).getD i false)
                        (idaStream frame).length b.da_len).2.2 := by
                    rw [← h, ← hb2]
                  have hok : b.crc_ok = (idaCrc (fun i => (idaStream frame).getD i false)
                      (idaStream frame).length b.da_len).1 := by
                    rw [← h, ← hb2]
                  refine ⟨?_, ?_, ?_⟩
                  · rw [hstored, hcrc]
                  · rw [hcomputed, hcrc]
                    show crc_ccitt (crcBuf _ _) = _
                    rw [crcBuf_eq_pack _ hlen196]
                  · rw [hok, hcomputed, hcrc]
                    show (crc_ccitt (crcBuf _ _) == 0) = true ↔ _
                    simp

/-! ### A concrete accepted IDA frame (C2 witness data) -/

/-- Combined-order bits of the first 124-bit block: chunk 3 carries the
BCH codeword of data word 16 (so `da_len = 1`), chunks 0–2 are zero. -/
def wCombined : Nat → Bool := fun i =>
  if 93 ≤ i ∧ i < 124 then (bchEncode 3545 16).testBit (123 - i) else false

/-- Inverse of the de-interleave index map for a full 62-symbol block. -/
def wBlockIdx (m : Nat) : Nat :=
  let s := m / 2
  let r := m % 2
  if s % 2 = 1 then 2 * ((61 - s) / 2) + r else 62 + 2 * ((60 - s) / 2) + r

def wBlock1Bits : List Bool := (List.range 124).map fun m => wCombined (wBlockIdx m)

/-- LCW bits (frame order) encoding `(ft, lcw_ft, lcw_code, lcw3) = (2,0,0,0)`. -/
def wLcwBits : List Bool := (List.range 46).map (frameOfLcwBits (lcwBitsEnc 2 0 0 0))

/-- A demodulated frame that `ida_decode` accepts: downlink, LCW ft 2,
three full payload blocks (the last two all-zero). -/
def wFrame : DemodFrame :=
  { timestamp := 0, center_frequency := 0, direction := Direction.downlink,
    magnitude := 0, noise := 0, level := 0, confidence := 0,
    n_payload_symbols := 0,
    bits := List.replicate 24 false ++ wLcwBits ++ wBlock1Bits ++ List.replicate 248 false,
    llr := none }

/-- The burst `ida_decode` produces from `wFrame`. -/
def wB : IdaBurst :=
  { timestamp := 0, frequency := 0, direction := Direction.downlink,
    magnitude := 0, noise := 0, level := 0, confidence := 0, n_symbols := 0,
    da_ctr := 0, da_len := 1, cont := false, payload := [0], payload_len := 1,
    crc_ok := false, stored_crc := 0, computed_crc := 51511, fixederrs := 0,
    bch_stream := List.replicate 15 false ++ true :: List.replicate 224 false,
    bch_len := 240,
    lcw := ⟨2, 1, 0, 0, 0, 0⟩ }

/-- C2 witness: the CRC field relations instantiated at the concrete
accepted frame `wFrame` (whose burst has `da_len = 1`). -/
theorem c2_ida_crc_fields_witness :
    wB.stored_crc = bitsToUintF (fun i => (idaStream wFrame).getD (180 + i) false) 16 ∧
    wB.computed_crc = crc_ccitt (packBytesMsb ((idaStream wFrame).take 20 ++
      List.replicate 12 false ++
      ((idaStream wFrame).drop 20).take ((idaStream wFrame).length - 24))) ∧
    (wB.crc_ok = true ↔ wB.computed_crc = 0) :=
  c2_ida_crc_fields wFrame wB (by decide) (by decide)

/-! ## Multi-burst reassembly (`ida_reassemble`, `ida_decode.c:669-748`) -/

/-- `ida_reassembly_t`: one reassembly slot; `data` holds the
`data_len` accumulated bytes of the 256-byte buffer. -/
structure ReSlot where
  active : Bool
  direction : Direction
  frequency : ℚ
  last_timestamp : Nat
  last_ctr : Nat
  data : List Nat
deriving DecidableEq

/-- A completed message as passed to the callback. -/
structure IdaMessage where
  data : List Nat
  len : Nat
  timestamp : Nat
  frequency : ℚ
  direction : Direction
  magnitude : ℚ
deriving DecidableEq

def inactiveSlot : ReSlot := ⟨false, Direction.unknown, 0, 0, 0, []⟩

/-- A zero-initialised `ida_context_t`. -/
def freshCtx : List ReSlot := List.replicate 16 inactiveSlot

/-- `fabs`, executably on ℚ. -/
def ratAbs (q : ℚ) : ℚ := if q < 0 then -q else q

/-- The six `continue` checks of the matching loop. -/
def slotMatches (s : ReSlot) (b : IdaBurst) : Bool :=
  s.active && (s.direction == b.direction) &&
  decide (ratAbs (s.frequency - b.frequency) ≤ 260) &&
  decide (s.last_timestamp ≤ b.timestamp) &&
  decide (b.timestamp - s.last_timestamp ≤ 280000000) &&
  ((s.last_ctr + 1) % 8 == b.da_ctr)

/-- The free-slot / evict-oldest scan of the start-new branch: first
inactive index, else the first index of strictly minimal
`last_timestamp` (`oldest` starts at `UINT64_MAX`). -/
def findOldest : List ReSlot → Nat → Int × Nat → Int
  | [], _, acc => acc.1
  | s :: rest, i, acc =>
      if s.active = false then (i : Int)
      else if s.last_timestamp < acc.2 then findOldest rest (i + 1) ((i : Int), s.last_timestamp)
      else findOldest rest (i + 1) acc

def evictIdx (ctx : List ReSlot) : Nat :=
  let r := findOldest ctx 0 (-1, 2 ^ 64 - 1)
  if r < 0 then 0 else r.toNat

/-- `ida_reassemble(ctx, burst, cb, user)`: new context and the message
passed to `cb`, if any (the `int` return value is 1 iff a message is
emitted). -/
def ida_reassemble (ctx : List ReSlot) (b : IdaBurst) :
    List ReSlot × Option IdaMessage :=
  if b.crc_ok = false ∨ b.da_len = 0 then (ctx, none)
  else
    match ctx.findIdx? (fun s => slotMatches s b) with
    | some i =>
        let s := ctx.getD i inactiveSlot
        let s1 : ReSlot :=
          { s with
            data := if s.data.length + b.da_len ≤ 256 then
                s.data ++ b.payload.take b.da_len else s.data,
            last_timestamp := b.timestamp,
            last_ctr := b.da_ctr }
        if b.cont = false then
          (ctx.set i { s1 with active := false },
           some ⟨s1.data, s1.data.length, b.timestamp, s.frequency, s.direction, b.magnitude⟩)
        else (ctx.set i s1, none)
    | none =>
        if b.da_ctr = 0 ∧ b.cont = false then
          (ctx, some ⟨b.payload.take b.da_len, b.da_len, b.timestamp, b.frequency,
            b.direction, b.magnitude⟩)
        else if b.da_ctr = 0 ∧ b.cont = true then
          (ctx.set (evictIdx ctx)
            ⟨true, b.direction, b.frequency, b.timestamp, b.da_ctr, b.payload.take b.da_len⟩,
           none)
        else (ctx, none)

/-- `ida_reassemble_flush(ctx, now_ns)` (uint64 addition wraps). -/
def ida_reassemble_flush (ctx : List ReSlot) (now : Nat) : List ReSlot :=
  ctx.map fun s =>
    if s.active = true ∧ (s.last_timestamp + 280000000) % 2 ^ 64 < now then
      { s with active := false } else s

/-- Feed bursts in order, collecting emitted messages. -/
def ida_run (ctx : List ReSlot) : List IdaBurst → List IdaMessage
  | [] => []
  | b :: rest =>
      let r := ida_reassemble ctx b
      r.2.toList ++ ida_run r.1 rest

/-- Same, with `ida_reassemble_flush` invoked at each burst's timestamp
before the burst is fed; also returns the final context. -/
def ida_run_flush : List ReSlot → List IdaBurst → List ReSlot × List IdaMessage
  | ctx, [] => (ctx, [])
  | ctx, b :: rest =>
      let ctx1 := ida_reassemble_flush ctx b.timestamp
      let r := ida_reassemble ctx1 b
      let k := ida_run_flush r.1 rest
      (k.1, r.2.toList ++ k.2)

def burst0 : IdaBurst :=
  ⟨0, 0, Direction.unknown, 0, 0, 0, 0, 0, 0, 0, false, [], 0, false, 0, 0, 0, [], 0,
   ⟨0, 0, 0, 0, 0, 0⟩⟩



theorem freshCtx_set0 (s : ReSlot) :
    freshCtx.set 0 s = s :: List.replicate 15 inactiveSlot := rfl

theorem slotMatches_inactive {s : ReSlot} (b : IdaBurst) (h : s.active = false) :
    slotMatches s b = false := by
  simp [slotMatches, h]

theorem findIdx?_replicate_inactive (n i : Nat) (b : IdaBurst) :
    (List.replicate n inactiveSlot).findIdx? (fun s => slotMatches s b) i = none := by
  induction n generalizing i with
  | zero => rfl
  | succ n ih =>
      rw [List.replicate_succ, List.findIdx?_cons,
        if_neg (by rw [slotMatches_inactive _ rfl]; simp)]
      exact ih (i + 1)



theorem ida_chain (d0 : Direction) (f0 : ℚ) :
    ∀ (bs : List IdaBurst) (acc : List Nat) (t0 c0 : Nat), bs ≠ [] →
    (∀ b ∈ bs, b.crc_ok = true ∧ 0 < b.da_len ∧ b.da_len ≤ b.payload.length ∧
      b.direction = d0 ∧ b.frequency = f0) →
    (∀ i, i < bs.length → (bs.getD i burst0).da_ctr = (c0 + 1 + i) % 8) →
    t0 ≤ (bs.getD 0 burst0).timestamp →
    (bs.getD 0 burst0).timestamp - t0 ≤ 280000000 →
    (∀ i, i + 1 < bs.length →
      (bs.getD i burst0).timestamp ≤ (bs.getD (i + 1) burst0).timestamp ∧
      (bs.getD (i + 1) burst0).timestamp - (bs.getD i burst0).timestamp ≤ 280000000) →
    (∀ i, i + 1 < bs.length → (bs.getD i burst0).cont = true) →
    (bs.getD (bs.length - 1) burst0).cont = false →
    acc.length + (bs.map (fun b => b.da_len)).sum ≤ 256 →
    ida_run (freshCtx.set 0 ⟨true, d0, f0, t0, c0, acc⟩) bs =
      [⟨acc ++ (bs.map fun b => b.payload.take b.da_len).flatten,
        (acc ++ (bs.map fun b => b.payload.take b.da_len).flatten).length,
        (bs.getD (bs.length - 1) burst0).timestamp, f0, d0,
        (bs.getD (bs.length - 1) burst0).magnitude⟩] := by
  intro bs
  induction bs with
  | nil => intro acc t0 c0 hne; exact absurd rfl hne
  | cons b rest ih =>
    intro acc t0 c0 _ hall hctr hts0a hts0b hts hcont hlast hsum
    obtain ⟨hcrc, hpos, hwfl, hdir, hfreq⟩ := hall b (List.mem_cons_self _ _)
    have hc0 : (b :: rest).getD 0 burst0 = b := rfl
    rw [hc0] at hts0a hts0b
    have hctr0 : b.da_ctr = (c0 + 1) % 8 := by
      have := hctr 0 (by simp)
      simpa using this
    have hmatch : slotMatches ⟨true, d0, f0, t0, c0, acc⟩ b = true := by
      simp only [slotMatches, Bool.and_eq_true, beq_iff_eq, decide_eq_true_eq]
      refine ⟨⟨⟨⟨⟨trivial, hdir.symm⟩, ?_⟩, hts0a⟩, hts0b⟩, by rw [hctr0]⟩
      rw [hfreq]
      simp [ratAbs]
    have hsumb : acc.length + b.da_len ≤ 256 := by
      simp only [List.map_cons, List.sum_cons] at hsum
      omega
    have hstep : ida_reassemble (freshCtx.set 0 ⟨true, d0, f0, t0, c0, acc⟩) b =
        (freshCtx.set 0 ⟨(b.cont == true), d0, f0, b.timestamp, b.da_ctr,
          acc ++ b.payload.take b.da_len⟩,
         if b.cont = false then
           some ⟨acc ++ b.payload.take b.da_len, (acc ++ b.payload.take b.da_len).length,
             b.timestamp, f0, d0, b.magnitude⟩
         else none) := by
      rw [freshCtx_set0]
      simp only [ida_reassemble, hcrc]
      rw [if_neg (by simp; omega)]
      rw [List.findIdx?_cons, if_pos hmatch]
      simp only [List.getD_cons_zero]
      rw [if_pos hsumb]
      cases hcb : b.cont with
      | false => simp [freshCtx_set0]
      | true => simp [freshCtx_set0]
    rcases rest with _ | ⟨r, rest'⟩
    · -- last burst
      have hcb : b.cont = false := by simpa using hlast
      have hstep2 : ida_reassemble (freshCtx.set 0 ⟨true, d0, f0, t0, c0, acc⟩) b =
          (freshCtx.set 0 ⟨false, d0, f0, b.timestamp, b.da_ctr,
            acc ++ b.payload.take b.da_len⟩,
           some ⟨acc ++ b.payload.take b.da_len, (acc ++ b.payload.take b.da_len).length,
             b.timestamp, f0, d0, b.magnitude⟩) := by
        rw [hstep, hcb]
        rfl
      show (ida_reassemble (freshCtx.set 0 ⟨true, d0, f0, t0, c0, acc⟩) b).2.toList ++
          ida_run (ida_reassemble (freshCtx.set 0 ⟨true, d0, f0, t0, c0, acc⟩) b).1 [] = _
      rw [hstep2]
      simp [ida_run]
    · have hcb : b.cont = true := by
        have := hcont 0 (by simp)
        simpa using this
      have hstep2 : ida_reassemble (freshCtx.set 0 ⟨true, d0, f0, t0, c0, acc⟩) b =
          (freshCtx.set 0 ⟨true, d0, f0, b.timestamp, b.da_ctr,
            acc ++ b.payload.take b.da_len⟩, none) := by
        rw [hstep, hcb]
        rfl
      show (ida_reassemble (freshCtx.set 0 ⟨true, d0, f0, t0, c0, acc⟩) b).2.toList ++
          ida_run (ida_reassemble (freshCtx.set 0 ⟨true, d0, f0, t0, c0, acc⟩) b).1
            (r :: rest') = _
      rw [hstep2]
      simp only [Option.toList_none, List.nil_append]
      have hrec := ih (acc ++ b.payload.take b.da_len) b.timestamp b.da_ctr
        (by simp)
        (fun x hx => hall x (List.mem_cons_of_mem _ hx))
        (by
          intro i hi
          have h1 := hctr (i + 1) (by simpa using Nat.succ_lt_succ hi)
          have h2 : ((b :: r :: rest').getD (i + 1) burst0) = ((r :: rest').getD i burst0) := rfl
          rw [h2] at h1
          rw [h1, hctr0]
          omega)
        (by have := (hts 0 (by simp)).1; simpa using this)
        (by have := (hts 0 (by simp)).2; simpa using this)
        (by
          intro i hi
          have := hts (i + 1) (by simpa using Nat.succ_lt_succ hi)
          simpa using this)
        (by
          intro i hi
          have := hcont (i + 1) (by simpa using Nat.succ_lt_succ hi)
          simpa using this)
        (by
          have h2 : ((b :: r :: rest').getD ((b :: r :: rest').length - 1) burst0) =
              ((r :: rest').getD ((r :: rest').length - 1) burst0) := rfl
          rw [h2] at hlast
          exact hlast)
        (by
          have htk : (b.payload.take b.da_len).length = b.da_len := by
            rw [List.length_take]
            omega
          simp only [List.map_cons, List.sum_cons] at hsum ⊢
          simp only [List.length_append, htk]
          omega)
      rw [hrec]
      have h3 : ((b :: r :: rest').getD ((b :: r :: rest').length - 1) burst0) =
          ((r :: rest').getD ((r :: rest').length - 1) burst0) := rfl
      rw [h3]
      simp [List.append_assoc]



theorem flush_inactiveSlot (now : Nat) :
    (if inactiveSlot.active = true ∧ (inactiveSlot.last_timestamp + 280000000) % 2 ^ 64 < now
      then { inactiveSlot with active := false } else inactiveSlot) = inactiveSlot := by
  rw [if_neg]
  simp [inactiveSlot]

theorem flush_set0 (s : ReSlot) (now : Nat) :
    ida_reassemble_flush (freshCtx.set 0 s) now =
      freshCtx.set 0 (if s.active = true ∧ (s.last_timestamp + 280000000) % 2 ^ 64 < now
        then { s with active := false } else s) := by
  rw [freshCtx_set0, freshCtx_set0]
  simp only [ida_reassemble_flush, List.map_cons, List.map_replicate, flush_inactiveSlot]

theorem flush_all_inactive {ctx : List ReSlot} (now : Nat)
    (h : ∀ s ∈ ctx, s.active = false) :
    ida_reassemble_flush ctx now = ctx := by
  unfold ida_reassemble_flush
  conv_rhs => rw [← List.map_id ctx]
  apply List.map_congr_left
  intro s hs
  rw [if_neg]
  · rfl
  · rw [h s hs]
    simp



theorem findIdx?_all_inactive {ctx : List ReSlot} (b : IdaBurst)
    (h : ∀ s ∈ ctx, s.active = false) :
    ctx.findIdx? (fun s => slotMatches s b) = none := by
  induction ctx with
  | nil => rfl
  | cons s rest ih =>
      rw [List.findIdx?_cons,
        if_neg (by rw [slotMatches_inactive b (h s (List.mem_cons_self _ _))]; simp)]
      rw [List.findIdx?_succ, ih (fun x hx => h x (List.mem_cons_of_mem _ hx))]
      rfl

/-- With every slot inactive and a nonzero counter, a burst is an
orphan: nothing changes and nothing is emitted. -/
theorem ida_orphan_step {ctx : List ReSlot} {b : IdaBurst}
    (h : ∀ s ∈ ctx, s.active = false) (hctr : b.da_ctr ≠ 0) :
    ida_reassemble ctx b = (ctx, none) := by
  by_cases hcrc : b.crc_ok = false ∨ b.da_len = 0
  · simp only [ida_reassemble, if_pos hcrc]
  · simp only [ida_reassemble, if_neg hcrc]
    rw [findIdx?_all_inactive b h]
    rw [if_neg (by intro hx; exact hctr hx.1), if_neg (by intro hx; exact hctr hx.1)]

theorem ida_orphan_run {bs : List IdaBurst} {ctx : List ReSlot}
    (h : ∀ s ∈ ctx, s.active = false) (hctr : ∀ b ∈ bs, b.da_ctr ≠ 0) :
    ida_run_flush ctx bs = (ctx, []) := by
  induction bs with
  | nil => rfl
  | cons b rest ih =>
      show ((ida_run_flush (ida_reassemble (ida_reassemble_flush ctx b.timestamp) b).1 rest).1,
            (ida_reassemble (ida_reassemble_flush ctx b.timestamp) b).2.toList ++
              (ida_run_flush (ida_reassemble (ida_reassemble_flush ctx b.timestamp) b).1 rest).2) =
          (ctx, [])
      rw [show ida_reassemble_flush ctx b.timestamp = ctx from flush_all_inactive _ h]
      rw [show ida_reassemble ctx b = (ctx, none) from
        ida_orphan_step h (hctr b (List.mem_cons_self _ _))]
      rw [show ida_run_flush ((ctx, (none : Option IdaMessage)).1) rest = (ctx, []) from
        ih (fun x hx => hctr x (List.mem_cons_of_mem _ hx))]
      rfl

theorem ida_run_flush_append (l1 l2 : List IdaBurst) : ∀ (ctx : List ReSlot),
    ida_run_flush ctx (l1 ++ l2) =
      ((ida_run_flush (ida_run_flush ctx l1).1 l2).1,
       (ida_run_flush ctx l1).2 ++ (ida_run_flush (ida_run_flush ctx l1).1 l2).2) := by
  induction l1 with
  | nil => intro ctx; rfl
  | cons b rest ih =>
      intro ctx
      simp only [List.cons_append, ida_run_flush, List.append_eq]
      rw [ih]
      simp [List.append_assoc]



/-- Feeding a chain of in-window continuation bursts (all `cont=1`) with
interleaved flushes keeps the message list empty and leaves slot 0
active at the last burst's timestamp. -/
theorem ida_chain_flush (d0 : Direction) (f0 : ℚ) :
    ∀ (bs : List IdaBurst) (acc : List Nat) (t0 c0 : Nat),
    t0 + 280000000 < 2 ^ 64 →
    (∀ b ∈ bs, b.crc_ok = true ∧ 0 < b.da_len ∧ b.direction = d0 ∧ b.frequency = f0 ∧
      b.cont = true ∧ b.timestamp + 280000000 < 2 ^ 64) →
    (∀ i, i < bs.length → (bs.getD i burst0).da_ctr = (c0 + 1 + i) % 8) →
    (bs ≠ [] → t0 ≤ (bs.getD 0 burst0).timestamp ∧
      (bs.getD 0 burst0).timestamp - t0 ≤ 280000000) →
    (∀ i, i < bs.length - 1 →
      (bs.getD i burst0).timestamp ≤ (bs.getD (i + 1) burst0).timestamp ∧
      (bs.getD (i + 1) burst0).timestamp - (bs.getD i burst0).timestamp ≤ 280000000) →
    ∃ dat c1,
      ida_run_flush (freshCtx.set 0 ⟨true, d0, f0, t0, c0, acc⟩) bs =
        (freshCtx.set 0 ⟨true, d0, f0,
          (if bs = [] then t0 else (bs.getD (bs.length - 1) burst0).timestamp), c1, dat⟩, []) := by
  intro bs
  induction bs with
  | nil =>
      intro acc t0 c0 _ _ _ _ _
      exact ⟨acc, c0, rfl⟩
  | cons b rest ih =>
    intro acc t0 c0 hwrap hall hctr hts0 hts
    obtain ⟨hcrc, hpos, hdir, hfreq, hcont, hbwrap⟩ := hall b (List.mem_cons_self _ _)
    obtain ⟨hts0a, hts0b⟩ := hts0 (by simp)
    have hc0 : (b :: rest).getD 0 burst0 = b := rfl
    rw [hc0] at hts0a hts0b
    have hctr0 : b.da_ctr = (c0 + 1) % 8 := by
      have := hctr 0 (by simp)
      simpa using this
    -- the flush before b does not kill slot 0
    have hflush : ida_reassemble_flush
        (freshCtx.set 0 ⟨true, d0, f0, t0, c0, acc⟩) b.timestamp =
        freshCtx.set 0 ⟨true, d0, f0, t0, c0, acc⟩ := by
      rw [flush_set0]
      rw [if_neg]
      intro hx
      rw [Nat.mod_eq_of_lt hwrap] at hx
      omega
    have hmatch : slotMatches ⟨true, d0, f0, t0, c0, acc⟩ b = true := by
      simp only [slotMatches, Bool.and_eq_true, beq_iff_eq, decide_eq_true_eq]
      refine ⟨⟨⟨⟨⟨trivial, hdir.symm⟩, ?_⟩, hts0a⟩, hts0b⟩, by rw [hctr0]⟩
      rw [hfreq]
      simp [ratAbs]
    have hstep : ida_reassemble (freshCtx.set 0 ⟨true, d0, f0, t0, c0, acc⟩) b =
        (freshCtx.set 0 ⟨true, d0, f0, b.timestamp, b.da_ctr,
          if acc.length + b.da_len ≤ 256 then acc ++ b.payload.take b.da_len else acc⟩,
         none) := by
      rw [freshCtx_set0]
      simp only [ida_reassemble, hcrc]
      rw [if_neg (by simp; omega)]
      rw [List.findIdx?_cons, if_pos hmatch]
      simp only [List.getD_cons_zero]
      rw [hcont]
      rw [if_neg (by simp)]
      rw [freshCtx_set0]
      by_cases hd : acc.length + b.da_len ≤ 256
      · simp [hd]
      · simp [hd]
    have hconseq : ida_run_flush (freshCtx.set 0 ⟨true, d0, f0, t0, c0, acc⟩) (b :: rest) =
        ((ida_run_flush (ida_reassemble (ida_reassemble_flush
            (freshCtx.set 0 ⟨true, d0, f0, t0, c0, acc⟩) b.timestamp) b).1 rest).1,
         (ida_reassemble (ida_reassemble_flush
            (freshCtx.set 0 ⟨true, d0, f0, t0, c0, acc⟩) b.timestamp) b).2.toList ++
           (ida_run_flush (ida_reassemble (ida_reassemble_flush
            (freshCtx.set 0 ⟨true, d0, f0, t0, c0, acc⟩) b.timestamp) b).1 rest).2) := rfl
    rw [hconseq, hflush, hstep]
    obtain ⟨dat, c1, hrec⟩ := ih
      (if acc.length + b.da_len ≤ 256 then acc ++ b.payload.take b.da_len else acc)
      b.timestamp b.da_ctr hbwrap
      (fun x hx => hall x (List.mem_cons_of_mem _ hx))
      (by
        intro i hi
        have h1 := hctr (i + 1) (by simpa using Nat.succ_lt_succ hi)
        have h2 : ((b :: rest).getD (i + 1) burst0) = (rest.getD i burst0) := rfl
        rw [h2] at h1
        rw [h1, hctr0]
        omega)
      (by
        intro hne
        rcases rest with _ | ⟨r, rest'⟩
        · exact absurd rfl hne
        · exact hts 0 (by simp))
      (by
        intro i hi
        have := hts (i + 1) (by simp at hi ⊢; omega)
        simpa using this)
    refine ⟨dat, c1, ?_⟩
    show ((ida_run_flush _ rest).1, (none : Option IdaMessage).toList ++ (ida_run_flush _ rest).2) = _
    rw [hrec]
    simp only [Option.toList_none, List.nil_append]
    rcases rest with _ | ⟨r, rest'⟩
    · simp
    · simp



/-- C1 (amended): a fully in-window chain of CRC-good bursts whose
payload bytes total at most the 256-byte slot buffer reassembles to a
single callback with the concatenated payload. -/
theorem c1_reassembly_amended (bs : List IdaBurst) (d0 : Direction) (f0 : ℚ)
    (hne : bs ≠ [])
    (hall : ∀ b ∈ bs, b.crc_ok = true ∧ 0 < b.da_len ∧ b.da_len ≤ b.payload.length ∧
      b.direction = d0 ∧ b.frequency = f0)
    (hctr : ∀ i, i < bs.length → (bs.getD i burst0).da_ctr = i % 8)
    (hts : ∀ i, i < bs.length - 1 →
      (bs.getD i burst0).timestamp ≤ (bs.getD (i + 1) burst0).timestamp ∧
      (bs.getD (i + 1) burst0).timestamp - (bs.getD i burst0).timestamp ≤ 280000000)
    (hcont : ∀ i, i < bs.length - 1 → (bs.getD i burst0).cont = true)
    (hlast : (bs.getD (bs.length - 1) burst0).cont = false)
    (hsum : (bs.map (fun b => b.da_len)).sum ≤ 256) :
    ida_run freshCtx bs =
      [⟨(bs.map fun b => b.payload.take b.da_len).flatten,
        ((bs.map fun b => b.payload.take b.da_len).flatten).length,
        (bs.getD (bs.length - 1) burst0).timestamp, f0, d0,
        (bs.getD (bs.length - 1) burst0).magnitude⟩] := by
  rcases bs with _ | ⟨b, rest⟩
  · exact absurd rfl hne
  obtain ⟨hcrc, hpos, hwfl, hdir, hfreq⟩ := hall b (List.mem_cons_self _ _)
  have hctr0 : b.da_ctr = 0 := by
    have := hctr 0 (by simp)
    simpa using this
  have hnomatch : freshCtx.findIdx? (fun s => slotMatches s b) = none :=
    findIdx?_replicate_inactive 16 0 b
  rcases rest with _ | ⟨r, rest'⟩
  · -- single burst fires immediately
    have hcb : b.cont = false := by simpa using hlast
    have hstep : ida_reassemble freshCtx b =
        (freshCtx, some ⟨b.payload.take b.da_len, b.da_len, b.timestamp, b.frequency,
          b.direction, b.magnitude⟩) := by
      simp only [ida_reassemble, hcrc]
      rw [if_neg (by simp; omega)]
      rw [hnomatch]
      rw [if_pos ⟨hctr0, hcb⟩]
    show (ida_reassemble freshCtx b).2.toList ++
        ida_run (ida_reassemble freshCtx b).1 [] = _
    rw [hstep]
    have htk : (b.payload.take b.da_len).length = b.da_len := by
      rw [List.length_take]
      omega
    simp [ida_run, hdir, hfreq, htk]
  · -- multi-burst: first burst opens slot 0, chain lemma finishes
    have hcb : b.cont = true := by
      have := hcont 0 (by simp)
      simpa using this
    have hevict : evictIdx freshCtx = 0 := rfl
    have hstep : ida_reassemble freshCtx b =
        (freshCtx.set 0 ⟨true, d0, f0, b.timestamp, 0, b.payload.take b.da_len⟩, none) := by
      simp only [ida_reassemble, hcrc]
      rw [if_neg (by simp; omega)]
      rw [hnomatch]
      rw [if_neg (by simp [hcb])]
      rw [if_pos ⟨hctr0, hcb⟩]
      rw [hevict, hdir, hfreq, hctr0]
    show (ida_reassemble freshCtx b).2.toList ++
        ida_run (ida_reassemble freshCtx b).1 (r :: rest') = _
    rw [hstep]
    simp only [Option.toList_none, List.nil_append]
    have hrec := ida_chain d0 f0 (r :: rest') (b.payload.take b.da_len) b.timestamp 0
      (by simp)
      (fun x hx => hall x (List.mem_cons_of_mem _ hx))
      (by
        intro i hi
        have h1 := hctr (i + 1) (by simpa using Nat.succ_lt_succ hi)
        have h2 : ((b :: r :: rest').getD (i + 1) burst0) = ((r :: rest').getD i burst0) := rfl
        rw [h2] at h1
        rw [h1]
        omega)
      (by have := (hts 0 (by simp)).1; simpa using this)
      (by have := (hts 0 (by simp)).2; simpa using this)
      (by
        intro i hi
        have := hts (i + 1) (by simp at hi ⊢; omega)
        simpa using this)
      (by
        intro i hi
        have := hcont (i + 1) (by simp at hi ⊢; omega)
        simpa using this)
      (by
        have h2 : ((b :: r :: rest').getD ((b :: r :: rest').length - 1) burst0) =
            ((r :: rest').getD ((r :: rest').length - 1) burst0) := rfl
        rw [h2] at hlast
        exact hlast)
      (by
        have htk : (b.payload.take b.da_len).length = b.da_len := by
          rw [List.length_take]
          omega
        simp only [List.map_cons, List.sum_cons] at hsum ⊢
        simp only [htk]
        omega)
    rw [hrec]
    have h3 : ((b :: r :: rest').getD ((b :: r :: rest').length - 1) burst0) =
        ((r :: rest').getD ((r :: rest').length - 1) burst0) := rfl
    rw [h3]
    simp [List.append_assoc]



theorem getD_take {α : Type} {l : List α} {n i : Nat} (d : α) (h : i < n) :
    (l.take n).getD i d = l.getD i d := by
  simp [List.getD_eq_getElem?_getD, List.getElem?_take_of_lt h]

theorem getD_drop {α : Type} (l : List α) (n i : Nat) (d : α) :
    (l.drop n).getD i d = l.getD (n + i) d := by
  simp [List.getD_eq_getElem?_getD, List.getElem?_drop]

theorem freshCtx_inactive : ∀ s ∈ freshCtx, s.active = false := by
  intro s hs
  rw [List.eq_of_mem_replicate hs]
  rfl

/-- C7 (amended): a chain broken by an over-280 ms gap at position `j`
never fires, provided no burst from `j` on has counter 0 (mod 8). -/
theorem c7_gap_no_fire_amended (bs : List IdaBurst) (d0 : Direction) (f0 : ℚ) (j : Nat)
    (hj0 : 0 < j) (hj : j < bs.length)
    (hall : ∀ b ∈ bs, b.crc_ok = true ∧ 0 < b.da_len ∧ b.direction = d0 ∧ b.frequency = f0 ∧
      b.timestamp + 280000000 < 2 ^ 64)
    (hctr : ∀ i, i < bs.length → (bs.getD i burst0).da_ctr = i % 8)
    (hmono : ∀ i, i < bs.length - 1 →
      (bs.getD i burst0).timestamp ≤ (bs.getD (i + 1) burst0).timestamp)
    (hpre : ∀ i, i < j - 1 →
      (bs.getD (i + 1) burst0).timestamp - (bs.getD i burst0).timestamp ≤ 280000000)
    (hgap : 280000000 < (bs.getD j burst0).timestamp - (bs.getD (j - 1) burst0).timestamp)
    (hcont : ∀ i, i < bs.length - 1 → (bs.getD i burst0).cont = true)
    (hno0 : ∀ m, m < bs.length → j ≤ m → m % 8 ≠ 0) :
    (ida_run_flush freshCtx bs).2 = [] := by
  rcases bs with _ | ⟨b, bs'⟩
  · rfl
  obtain ⟨hcrc, hpos, hdir, hfreq, hwrapb⟩ := hall b (List.mem_cons_self _ _)
  have hlen : bs'.length = (b :: bs').length - 1 := rfl
  have hjlen : j - 1 ≤ bs'.length := by simp at hj ⊢; omega
  have hctr0 : b.da_ctr = 0 := by
    have := hctr 0 (by simp)
    simpa using this
  have hcb : b.cont = true := by
    have := hcont 0 (by simp at hj ⊢; omega)
    simpa using this
  -- step burst 0: opens slot 0
  have hflush0 : ida_reassemble_flush freshCtx b.timestamp = freshCtx :=
    flush_all_inactive _ freshCtx_inactive
  have hnomatch : freshCtx.findIdx? (fun s => slotMatches s b) = none :=
    findIdx?_replicate_inactive 16 0 b
  have hstep0 : ida_reassemble freshCtx b =
      (freshCtx.set 0 ⟨true, d0, f0, b.timestamp, 0, b.payload.take b.da_len⟩, none) := by
    simp only [ida_reassemble, hcrc]
    rw [if_neg (by simp; omega)]
    rw [hnomatch]
    rw [if_neg (by simp [hcb])]
    rw [if_pos ⟨hctr0, hcb⟩]
    rw [show evictIdx freshCtx = 0 from rfl, hdir, hfreq, hctr0]
  have hsplit : bs' = bs'.take (j - 1) ++ bs'.drop (j - 1) := (List.take_append_drop _ _).symm
  -- the prefix chain up to the gap
  obtain ⟨dat, c1, hchain⟩ := ida_chain_flush d0 f0 (bs'.take (j - 1))
    (b.payload.take b.da_len) b.timestamp 0 hwrapb
    (by
      intro x hx
      have hxm : x ∈ b :: bs' := List.mem_cons_of_mem _ (List.mem_of_mem_take hx)
      obtain ⟨h1, h2, h3, h4, h5⟩ := hall x hxm
      refine ⟨h1, h2, h3, h4, ?_, h5⟩
      obtain ⟨i, hi, hxi⟩ := List.getElem_of_mem hx
      have hilt : i < j - 1 := by
        have := hi
        rw [List.length_take] at this
        omega
      have : x = (b :: bs').getD (i + 1) burst0 := by
        rw [← hxi]
        have : (bs'.take (j - 1))[i] = (bs'.take (j - 1)).getD i burst0 := by
          rw [List.getD_eq_getElem?_getD, List.getElem?_eq_getElem hi]
          rfl
        rw [this, getD_take _ hilt]
        rfl
      rw [this]
      exact hcont (i + 1) (by simp at hj ⊢; omega))
    (by
      intro i hi
      rw [List.length_take] at hi
      have hilt : i < j - 1 := by omega
      rw [getD_take _ hilt]
      have := hctr (i + 1) (by simp; omega)
      rw [show ((b :: bs').getD (i + 1) burst0) = (bs'.getD i burst0) from rfl] at this
      rw [this]
      omega)
    (by
      intro hne
      have hj2 : 2 ≤ j := by
        rcases Nat.lt_or_ge j 2 with h | h
        · exfalso
          have hj1 : j = 1 := by omega
          subst hj1
          simp at hne
        · exact h
      have h0 : (0 : Nat) < j - 1 := by omega
      rw [getD_take _ h0]
      constructor
      · have := hmono 0 (by simp at hj ⊢; omega)
        simpa using this
      · have := hpre 0 h0
        simpa using this)
    (by
      intro i hi
      rw [List.length_take] at hi
      have hi1 : i < j - 1 := by omega
      have hi2 : i + 1 < j - 1 := by omega
      rw [getD_take _ hi1, getD_take _ hi2]
      constructor
      · have := hmono (i + 1) (by simp at hj ⊢; omega)
        simpa using this
      · have := hpre (i + 1) hi2
        simpa using this)
  -- the timestamp held in slot 0 right before the gap
  have htl : (if bs'.take (j - 1) = [] then b.timestamp
      else ((bs'.take (j - 1)).getD ((bs'.take (j - 1)).length - 1) burst0).timestamp) =
      ((b :: bs').getD (j - 1) burst0).timestamp := by
    rcases Nat.lt_or_ge j 2 with h2 | h2
    · have : j = 1 := by omega
      subst this
      simp
    · have hlt : (bs'.take (j - 1)) ≠ [] := by
        have : (bs'.take (j - 1)).length = j - 1 := by
          rw [List.length_take]
          omega
        intro hx
        rw [hx] at this
        simp at this
        omega
      rw [if_neg hlt]
      have hltk : (bs'.take (j - 1)).length = j - 1 := by
        rw [List.length_take]
        omega
      rw [hltk, getD_take _ (by omega : j - 1 - 1 < j - 1)]
      have : (b :: bs').getD (j - 1) burst0 = bs'.getD (j - 2) burst0 := by
        have hj1 : j - 1 = (j - 2) + 1 := by omega
        rw [hj1]
        rfl
      rw [this]
      congr 1
  -- the burst at the gap
  have hpost : bs'.drop (j - 1) = ((b :: bs').getD j burst0) :: bs'.drop j := by
    have hd : j - 1 < bs'.length := by simp at hj; omega
    rw [List.drop_eq_getElem_cons hd]
    congr 1
    · rw [show ((b :: bs').getD j burst0) = bs'.getD (j - 1) burst0 from by
        have : j = (j - 1) + 1 := by omega
        rw [this]
        rfl]
      rw [List.getD_eq_getElem?_getD, List.getElem?_eq_getElem hd]
      rfl
    · congr 1
      omega
  set bj := (b :: bs').getD j burst0 with hbj
  have hbjmem : bj ∈ b :: bs' := by
    rw [hbj, List.getD_eq_getElem?_getD, List.getElem?_eq_getElem hj]
    exact List.getElem_mem _
  obtain ⟨hcrcj, hposj, hdirj, hfreqj, hwrapj⟩ := hall bj hbjmem
  have hwrapj1 : ((b :: bs').getD (j - 1) burst0).timestamp + 280000000 < 2 ^ 64 := by
    have hmem : (b :: bs').getD (j - 1) burst0 ∈ b :: bs' := by
      rw [List.getD_eq_getElem?_getD, List.getElem?_eq_getElem (by omega : j - 1 < (b :: bs').length)]
      exact List.getElem_mem _
    exact (hall _ hmem).2.2.2.2
  -- flush at the gap kills slot 0
  have hkill : ida_reassemble_flush
      (freshCtx.set 0 ⟨true, d0, f0, ((b :: bs').getD (j - 1) burst0).timestamp, c1, dat⟩)
      bj.timestamp =
      freshCtx.set 0 ⟨false, d0, f0, ((b :: bs').getD (j - 1) burst0).timestamp, c1, dat⟩ := by
    rw [flush_set0]
    rw [if_pos]
    constructor
    · rfl
    · rw [Nat.mod_eq_of_lt hwrapj1]
      omega
  have hkillinact : ∀ s ∈ freshCtx.set 0
      ⟨false, d0, f0, ((b :: bs').getD (j - 1) burst0).timestamp, c1, dat⟩,
      s.active = false := by
    intro s hs
    rcases List.mem_or_eq_of_mem_set hs with h | h
    · exact freshCtx_inactive s h
    · rw [h]
  have hctrj : bj.da_ctr ≠ 0 := by
    rw [hbj, hctr j (by omega)]
    exact hno0 j (by omega) (by omega)
  have horphj : ida_reassemble (freshCtx.set 0
      ⟨false, d0, f0, ((b :: bs').getD (j - 1) burst0).timestamp, c1, dat⟩) bj =
      (freshCtx.set 0 ⟨false, d0, f0, ((b :: bs').getD (j - 1) burst0).timestamp, c1, dat⟩,
       none) :=
    ida_orphan_step hkillinact hctrj
  have htail : ida_run_flush (freshCtx.set 0
      ⟨false, d0, f0, ((b :: bs').getD (j - 1) burst0).timestamp, c1, dat⟩) (bs'.drop j) =
      (freshCtx.set 0 ⟨false, d0, f0, ((b :: bs').getD (j - 1) burst0).timestamp, c1, dat⟩,
       []) := by
    apply ida_orphan_run hkillinact
    intro x hx
    obtain ⟨i, hi, hxi⟩ := List.getElem_of_mem hx
    have : x = (b :: bs').getD (j + 1 + i) burst0 := by
      rw [← hxi]
      have h1 : (bs'.drop j)[i] = (bs'.drop j).getD i burst0 := by
        rw [List.getD_eq_getElem?_getD, List.getElem?_eq_getElem hi]
        rfl
      rw [h1, getD_drop]
      have : j + 1 + i = (j + i) + 1 := by omega
      rw [this]
      rfl
    rw [this]
    have hilen : j + 1 + i < (b :: bs').length := by
      rw [List.length_drop] at hi
      simp at hj ⊢
      omega
    rw [hctr _ hilen]
    exact hno0 _ hilen (by omega)
  -- assemble the run
  have hrun : ida_run_flush freshCtx (b :: bs') =
      ((ida_run_flush (ida_reassemble (ida_reassemble_flush freshCtx b.timestamp) b).1 bs').1,
       (ida_reassemble (ida_reassemble_flush freshCtx b.timestamp) b).2.toList ++
         (ida_run_flush (ida_reassemble (ida_reassemble_flush freshCtx b.timestamp) b).1 bs').2) :=
    rfl
  rw [hrun, hflush0, hstep0]
  simp only [Option.toList_none, List.nil_append]
  conv_lhs => rw [hsplit]
  rw [ida_run_flush_append]
  rw [hchain]
  simp only []
  rw [htl] at hchain ⊢
  rw [hpost]
  have hconsj : ida_run_flush (freshCtx.set 0
      ⟨true, d0, f0, ((b :: bs').getD (j - 1) burst0).timestamp, c1, dat⟩) (bj :: bs'.drop j) =
      ((ida_run_flush (ida_reassemble (ida_reassemble_flush (freshCtx.set 0
          ⟨true, d0, f0, ((b :: bs').getD (j - 1) burst0).timestamp, c1, dat⟩) bj.timestamp) bj).1
          (bs'.drop j)).1,
       (ida_reassemble (ida_reassemble_flush (freshCtx.set 0
          ⟨true, d0, f0, ((b :: bs').getD (j - 1) burst0).timestamp, c1, dat⟩) bj.timestamp) bj).2.toList ++
         (ida_run_flush (ida_reassemble (ida_reassemble_flush (freshCtx.set 0
          ⟨true, d0, f0, ((b :: bs').getD (j - 1) burst0).timestamp, c1, dat⟩) bj.timestamp) bj).1
          (bs'.drop j)).2) := rfl
  rw [hconsj, hkill, horphj]
  simp only [Option.toList_none, List.nil_append]
  rw [htail]



/-- C10: both reassembly entry points keep every slot's accumulated
length at most 256; an over-full append drops the bytes but still
advances `last_ctr`/`last_timestamp`, and a terminating burst still
emits the truncated accumulation. -/
theorem c10_slot_invariant (ctx : List ReSlot) (b : IdaBurst) (now : Nat)
    (hwf : b.da_len ≤ 32)
    (hinv : ∀ s ∈ ctx, s.data.length ≤ 256) :
    (∀ s ∈ (ida_reassemble ctx b).1, s.data.length ≤ 256) ∧
    (∀ s ∈ ida_reassemble_flush ctx now, s.data.length ≤ 256) ∧
    (∀ i, ctx.findIdx? (fun s => slotMatches s b) = some i →
      b.crc_ok = true → b.da_len ≠ 0 →
      256 < (ctx.getD i inactiveSlot).data.length + b.da_len →
      ((ida_reassemble ctx b).1.getD i inactiveSlot).data = (ctx.getD i inactiveSlot).data ∧
      ((ida_reassemble ctx b).1.getD i inactiveSlot).last_ctr = b.da_ctr ∧
      ((ida_reassemble ctx b).1.getD i inactiveSlot).last_timestamp = b.timestamp ∧
      (b.cont = false →
        (ida_reassemble ctx b).2 = some ⟨(ctx.getD i inactiveSlot).data,
          (ctx.getD i inactiveSlot).data.length, b.timestamp,
          (ctx.getD i inactiveSlot).frequency, (ctx.getD i inactiveSlot).direction,
          b.magnitude⟩)) := by
  refine ⟨?_, ?_, ?_⟩
  · intro s hs
    by_cases hcd : b.crc_ok = false ∨ b.da_len = 0
    · simp only [ida_reassemble, if_pos hcd] at hs
      exact hinv s hs
    · rcases hfi : ctx.findIdx? (fun x => slotMatches x b) with _ | i
      · simp only [ida_reassemble, if_neg hcd, hfi] at hs
        split at hs
        · exact hinv s hs
        · split at hs
          · rcases List.mem_or_eq_of_mem_set hs with h | h
            · exact hinv s h
            · rw [h]
              have := List.length_take_le b.da_len b.payload
              simp only
              omega
          · exact hinv s hs
      · simp only [ida_reassemble, if_neg hcd, hfi] at hs
        have hold : (ctx.getD i inactiveSlot).data.length ≤ 256 := by
          by_cases hilen : i < ctx.length
          · apply hinv
            rw [List.getD_eq_getElem?_getD, List.getElem?_eq_getElem hilen]
            exact List.getElem_mem _
          · rw [List.getD_eq_getElem?_getD, List.getElem?_eq_none (by omega)]
            simp [inactiveSlot]
        split at hs
        · rcases List.mem_or_eq_of_mem_set hs with h | h
          · exact hinv s h
          · rw [h]
            simp only
            split
            · have := List.length_take_le b.da_len b.payload
              simp only [List.length_append]
              omega
            · exact hold
        · rcases List.mem_or_eq_of_mem_set hs with h | h
          · exact hinv s h
          · rw [h]
            simp only
            split
            · have := List.length_take_le b.da_len b.payload
              simp only [List.length_append]
              omega
            · exact hold
  · intro s hs
    simp only [ida_reassemble_flush, List.mem_map] at hs
    obtain ⟨x, hx, hxs⟩ := hs
    rw [← hxs]
    split
    · exact hinv x hx
    · exact hinv x hx
  · intro i hfi hcrc hdl hover
    have hilt : i < ctx.length := by
      rw [List.findIdx?_eq_some_iff_getElem] at hfi
      exact hfi.1
    have hset : ∀ X : ReSlot, (ctx.set i X).getD i inactiveSlot = X := by
      intro X
      rw [List.getD_eq_getElem?_getD,
        List.getElem?_eq_getElem (by rw [List.length_set]; exact hilt)]
      simp
    have hnof : ¬(b.crc_ok = false ∨ b.da_len = 0) := by
      rw [hcrc]
      simp [hdl]
    have hdata : (if (ctx.getD i inactiveSlot).data.length + b.da_len ≤ 256 then
        (ctx.getD i inactiveSlot).data ++ b.payload.take b.da_len
        else (ctx.getD i inactiveSlot).data) = (ctx.getD i inactiveSlot).data := by
      rw [if_neg (by omega)]
    by_cases hcb : b.cont = false
    · simp only [ida_reassemble, if_neg hnof, hfi, if_pos hcb]
      rw [hset]
      refine ⟨hdata, rfl, rfl, fun _ => ?_⟩
      rw [hdata]
    · simp only [ida_reassemble, if_neg hnof, hfi, if_neg hcb]
      rw [hset]
      exact ⟨hdata, rfl, rfl, fun hx => absurd hx hcb⟩



/-- 13 bursts of 20 payload bytes each: 260 bytes total, exceeding the
256-byte slot buffer. -/
def c1Bursts : List IdaBurst := (List.range 13).map fun i =>
  ⟨i, 0, Direction.downlink, 0, 0, 0, 0, 0, i % 8, 20, decide (i < 12),
   List.replicate 20 i, 20, true, 0, 0, 0, [], 0, ⟨0, 0, 0, 0, 0, 0⟩⟩

theorem c1_counterexample :
    (∀ b ∈ c1Bursts, b.crc_ok = true ∧ 0 < b.da_len ∧ b.da_len ≤ b.payload.length ∧
      b.direction = Direction.downlink ∧ b.frequency = 0) ∧
    (∀ i, i < c1Bursts.length → (c1Bursts.getD i burst0).da_ctr = i % 8) ∧
    (∀ i, i < c1Bursts.length - 1 →
      (c1Bursts.getD i burst0).timestamp ≤ (c1Bursts.getD (i + 1) burst0).timestamp ∧
      (c1Bursts.getD (i + 1) burst0).timestamp - (c1Bursts.getD i burst0).timestamp
        ≤ 280000000) ∧
    (∀ i, i < c1Bursts.length - 1 → (c1Bursts.getD i burst0).cont = true) ∧
    (c1Bursts.getD (c1Bursts.length - 1) burst0).cont = false ∧
    (ida_run freshCtx c1Bursts).length = 1 ∧
    ((ida_run freshCtx c1Bursts).getD 0 ⟨[], 0, 0, 0, Direction.unknown, 0⟩).data ≠
      (c1Bursts.map fun b => b.payload.take b.da_len).flatten := by
  with_unfolding_all decide



def c1wBursts : List IdaBurst :=
  [⟨0, 0, Direction.downlink, 0, 0, 0, 0, 0, 0, 2, true, [1, 2, 3], 2, true, 0, 0, 0,
    [], 0, ⟨0, 0, 0, 0, 0, 0⟩⟩,
   ⟨5, 0, Direction.downlink, 0, 0, 0, 0, 0, 1, 2, false, [4, 5, 6], 2, true, 0, 0, 0,
    [], 0, ⟨0, 0, 0, 0, 0, 0⟩⟩]

theorem c1_reassembly_amended_witness :
    ida_run freshCtx c1wBursts =
      [⟨(c1wBursts.map fun b => b.payload.take b.da_len).flatten,
        ((c1wBursts.map fun b => b.payload.take b.da_len).flatten).length,
        (c1wBursts.getD (c1wBursts.length - 1) burst0).timestamp, 0, Direction.downlink,
        (c1wBursts.getD (c1wBursts.length - 1) burst0).magnitude⟩] :=
  c1_reassembly_amended c1wBursts Direction.downlink 0 (by decide) (by decide) (by decide)
    (by decide) (by decide) (by decide) (by decide)

def c7Bursts : List IdaBurst := (List.range 9).map fun i =>
  ⟨if i = 8 then 300000000 else i * 1000, 0, Direction.downlink, 0, 0, 0, 0, 0, i % 8, 2,
   decide (i < 8), [1, 2], 2, true, 0, 0, 0, [], 0, ⟨0, 0, 0, 0, 0, 0⟩⟩

theorem c7_counterexample :
    (∀ b ∈ c7Bursts, b.crc_ok = true ∧ 0 < b.da_len ∧
      b.direction = Direction.downlink ∧ b.frequency = 0) ∧
    (∀ i, i < c7Bursts.length → (c7Bursts.getD i burst0).da_ctr = i % 8) ∧
    (∀ i, i < c7Bursts.length - 1 →
      (c7Bursts.getD i burst0).timestamp ≤ (c7Bursts.getD (i + 1) burst0).timestamp) ∧
    (∀ i, i < c7Bursts.length - 1 → (c7Bursts.getD i burst0).cont = true) ∧
    (c7Bursts.getD (c7Bursts.length - 1) burst0).cont = false ∧
    280000000 < (c7Bursts.getD 8 burst0).timestamp - (c7Bursts.getD 7 burst0).timestamp ∧
    (ida_run_flush freshCtx c7Bursts).2.length = 1 := by
  with_unfolding_all decide

def c7wBursts : List IdaBurst :=
  [⟨0, 0, Direction.downlink, 0, 0, 0, 0, 0, 0, 2, true, [1, 2], 2, true, 0, 0, 0,
    [], 0, ⟨0, 0, 0, 0, 0, 0⟩⟩,
   ⟨300000000, 0, Direction.downlink, 0, 0, 0, 0, 0, 1, 2, false, [3, 4], 2, true, 0, 0, 0,
    [], 0, ⟨0, 0, 0, 0, 0, 0⟩⟩]

theorem c7_gap_no_fire_amended_witness :
    (ida_run_flush freshCtx c7wBursts).2 = [] :=
  c7_gap_no_fire_amended c7wBursts Direction.downlink 0 1 (by decide) (by decide)
    (by decide) (by decide) (by decide) (by decide) (by decide) (by decide) (by decide)

def c10Ctx : List ReSlot :=
  freshCtx.set 0 ⟨true, Direction.downlink, 0, 0, 0, List.replicate 250 7⟩

def c10B : IdaBurst :=
  ⟨5, 0, Direction.downlink, 0, 0, 0, 0, 0, 1, 20, false, List.replicate 20 9, 20, true,
   0, 0, 0, [], 0, ⟨0, 0, 0, 0, 0, 0⟩⟩

theorem c10_slot_invariant_witness :
    ((∀ s ∈ (ida_reassemble c10Ctx c10B).1, s.data.length ≤ 256) ∧
    (∀ s ∈ ida_reassemble_flush c10Ctx 0, s.data.length ≤ 256) ∧
    (∀ i, c10Ctx.findIdx? (fun s => slotMatches s c10B) = some i →
      c10B.crc_ok = true → c10B.da_len ≠ 0 →
      256 < (c10Ctx.getD i inactiveSlot).data.length + c10B.da_len →
      ((ida_reassemble c10Ctx c10B).1.getD i inactiveSlot).data =
        (c10Ctx.getD i inactiveSlot).data ∧
      ((ida_reassemble c10Ctx c10B).1.getD i inactiveSlot).last_ctr = c10B.da_ctr ∧
      ((ida_reassemble c10Ctx c10B).1.getD i inactiveSlot).last_timestamp = c10B.timestamp ∧
      (c10B.cont = false →
        (ida_reassemble c10Ctx c10B).2 = some ⟨(c10Ctx.getD i inactiveSlot).data,
          (c10Ctx.getD i inactiveSlot).data.length, c10B.timestamp,
          (c10Ctx.getD i inactiveSlot).frequency, (c10Ctx.getD i inactiveSlot).direction,
          c10B.magnitude⟩))) ∧
    c10Ctx.findIdx? (fun s => slotMatches s c10B) = some 0 ∧
    256 < (c10Ctx.getD 0 inactiveSlot).data.length + c10B.da_len :=
  ⟨c10_slot_invariant c10Ctx c10B 0 (by decide) (by decide),
   by with_unfolding_all decide, by decide⟩

/-! ## SBD multi-packet reassembly (`sbd_extract` dispatch, `sbd_acars.c:567-633`) -/

/-- `sbd_multi_t` (`sbd_acars.c:80-90`); `data` holds the `data_len`
accumulated bytes of the 1024-byte buffer.  `msgcnt` is a C `int` and
is `-1` for packets without a prehdr. -/
structure SbdSlot where
  active : Bool
  msgno : Nat
  msgcnt : Int
  ul : Bool
  timestamp : Nat
  frequency : ℚ
  magnitude : ℚ
  data : List Nat
deriving DecidableEq

/-- A parsed SBD packet as it reaches the dispatch block of
`sbd_extract` (after header/prehdr parsing). -/
structure SbdPacket where
  msgno : Nat
  msgcnt : Int
  ul : Bool
  data : List Nat
  timestamp : Nat
  frequency : ℚ
  magnitude : ℚ
deriving DecidableEq

/-- One `sbd_process` call (the bytes handed to the ACARS parser). -/
structure SbdDelivery where
  data : List Nat
  ul : Bool
  timestamp : Nat
  frequency : ℚ
  magnitude : ℚ
deriving DecidableEq

def sbdInactive : SbdSlot := ⟨false, 0, 0, false, 0, 0, 0, []⟩

def sbdFresh : List SbdSlot := List.replicate 8 sbdInactive

/-- `sbd_expire(now_ns)`: kill slots older than 5 s (uint64 addition
wraps). -/
def sbd_expire (ctx : List SbdSlot) (now : Nat) : List SbdSlot :=
  ctx.map fun s =>
    if s.active = true ∧ (s.timestamp + 5000000000) % 2 ^ 64 < now then
      { s with active := false } else s

/-- The store-new-slot index scan: first inactive slot, else the first
index of minimal timestamp (`oldest` starts at `UINT64_MAX`). -/
def sbdOldest : List SbdSlot → Nat → Int × Nat → Int
  | [], _, acc => acc.1
  | s :: rest, i, acc =>
      if s.timestamp < acc.2 then sbdOldest rest (i + 1) ((i : Int), s.timestamp)
      else sbdOldest rest (i + 1) acc

def sbdFreeIdx (ctx : List SbdSlot) : Nat :=
  match ctx.findIdx? (fun s => !s.active) with
  | some i => i
  | none =>
      let r := sbdOldest ctx 0 (-1, 2 ^ 64 - 1)
      if r < 0 then 0 else r.toNat

/-- The continuation scan `for (i = SBD_MAX_MULTI-1; i >= 0; i--)`:
highest index whose slot is active, same direction, and expects this
`msgno`. -/
def sbdContIdx (ctx : List SbdSlot) (p : SbdPacket) : Option Nat :=
  (List.range ctx.length).reverse.find? fun i =>
    let s := ctx.getD i sbdInactive
    s.active && (s.ul == p.ul) && (p.msgno == s.msgno + 1)

/-- The dispatch block of `sbd_extract` (from the `sbd_expire` call on):
new slot table and the `sbd_process` delivery, if any. -/
def sbd_extract_dispatch (ctx : List SbdSlot) (p : SbdPacket) :
    List SbdSlot × Option SbdDelivery :=
  let ectx := sbd_expire ctx p.timestamp
  if p.msgno = 0 then
    (ectx, if 0 < p.data.length then
      some ⟨p.data, p.ul, p.timestamp, p.frequency, p.magnitude⟩ else none)
  else if p.msgcnt = 1 ∧ p.msgno = 1 then
    (ectx, some ⟨p.data, p.ul, p.timestamp, p.frequency, p.magnitude⟩)
  else if 1 < p.msgcnt then
    (ectx.set (sbdFreeIdx ectx)
      ⟨true, p.msgno, p.msgcnt, p.ul, p.timestamp, p.frequency, p.magnitude,
       p.data.take 1024⟩, none)
  else if 1 < p.msgno then
    match sbdContIdx ectx p with
    | some i =>
        let s := ectx.getD i sbdInactive
        let copy := min p.data.length (1024 - s.data.length)
        if (p.msgno : Int) = s.msgcnt then
          (ectx.set i ⟨false, p.msgno, s.msgcnt, s.ul, p.timestamp, s.frequency,
            s.magnitude, s.data ++ p.data.take copy⟩,
           some ⟨s.data ++ p.data.take copy, p.ul, p.timestamp, s.frequency, s.magnitude⟩)
        else
          (ectx.set i ⟨s.active, p.msgno, s.msgcnt, s.ul, p.timestamp, s.frequency,
            s.magnitude, s.data ++ p.data.take copy⟩, none)
    | none => (ectx, none)
  else (ectx, none)

/-- C6 (amended): a continuation packet (`msgno > 1`) *without* a
multi-packet header count (`msgcnt ≤ 1`) is appended — clamped to the
1024-byte buffer — to the highest-index active slot of the same
direction expecting it; the slot's `msgno` and `timestamp` advance, and
exactly when `msgno` equals the slot's `msgcnt` the accumulated bytes
are delivered and the slot freed. -/
theorem c6_sbd_continuation_amended (ctx : List SbdSlot) (p : SbdPacket) (i : Nat)
    (hm : 1 < p.msgno) (hc : p.msgcnt ≤ 1)
    (hfind : sbdContIdx (sbd_expire ctx p.timestamp) p = some i) :
    (sbd_extract_dispatch ctx p).1 =
      (sbd_expire ctx p.timestamp).set i
        ⟨!decide ((p.msgno : Int) =
            ((sbd_expire ctx p.timestamp).getD i sbdInactive).msgcnt) &&
           ((sbd_expire ctx p.timestamp).getD i sbdInactive).active,
         p.msgno,
         ((sbd_expire ctx p.timestamp).getD i sbdInactive).msgcnt,
         ((sbd_expire ctx p.timestamp).getD i sbdInactive).ul,
         p.timestamp,
         ((sbd_expire ctx p.timestamp).getD i sbdInactive).frequency,
         ((sbd_expire ctx p.timestamp).getD i sbdInactive).magnitude,
         ((sbd_expire ctx p.timestamp).getD i sbdInactive).data ++
           p.data.take (min p.data.length
             (1024 - ((sbd_expire ctx p.timestamp).getD i sbdInactive).data.length))⟩ ∧
    (sbd_extract_dispatch ctx p).2 =
      (if (p.msgno : Int) = ((sbd_expire ctx p.timestamp).getD i sbdInactive).msgcnt then
        some ⟨((sbd_expire ctx p.timestamp).getD i sbdInactive).data ++
            p.data.take (min p.data.length
              (1024 - ((sbd_expire ctx p.timestamp).getD i sbdInactive).data.length)),
          p.ul, p.timestamp,
          ((sbd_expire ctx p.timestamp).getD i sbdInactive).frequency,
          ((sbd_expire ctx p.timestamp).getD i sbdInactive).magnitude⟩
      else none) := by
  simp only [sbd_extract_dispatch]
  rw [if_neg (by omega : ¬p.msgno = 0)]
  rw [if_neg (by
    intro hx
    omega)]
  rw [if_neg (by omega : ¬1 < p.msgcnt)]
  rw [if_pos hm]
  rw [hfind]
  dsimp only
  by_cases hcomp : (p.msgno : Int) =
      ((sbd_expire ctx p.timestamp).getD i sbdInactive).msgcnt
  · rw [if_pos hcomp, if_pos hcomp]
    constructor
    · rw [show (decide ((p.msgno : Int) =
          ((sbd_expire ctx p.timestamp).getD i sbdInactive).msgcnt)) = true
        from decide_eq_true hcomp]
      rfl
    · rfl
  · rw [if_neg hcomp, if_neg hcomp]
    constructor
    · rw [show (decide ((p.msgno : Int) =
          ((sbd_expire ctx p.timestamp).getD i sbdInactive).msgcnt)) = false
        from decide_eq_false hcomp]
      rfl
    · rfl



/-- One active multi-packet slot awaiting packet 2 of 2. -/
def c6Ctx : List SbdSlot := sbdFresh.set 0 ⟨true, 1, 2, true, 0, 0, 0, [10]⟩

/-- The matching continuation packet — but it carries `msgcnt = 2` from
its own prehdr. -/
def c6P : SbdPacket := ⟨2, 2, true, [20], 1000, 0, 0⟩

theorem c6_counterexample :
    1 < c6P.msgno ∧
    sbdContIdx (sbd_expire c6Ctx c6P.timestamp) c6P = some 0 ∧
    (c6P.msgno : Int) = ((sbd_expire c6Ctx c6P.timestamp).getD 0 sbdInactive).msgcnt ∧
    (sbd_extract_dispatch c6Ctx c6P).2 = none ∧
    (sbd_extract_dispatch c6Ctx c6P).1.getD 0 sbdInactive =
      (sbd_expire c6Ctx c6P.timestamp).getD 0 sbdInactive := by
  decide

def c6wCtx : List SbdSlot := sbdFresh.set 0 ⟨true, 1, 2, true, 0, 0, 0, [10]⟩

def c6wP : SbdPacket := ⟨2, -1, true, [20], 1000, 0, 0⟩

theorem c6_sbd_continuation_amended_witness :
    (sbd_extract_dispatch c6wCtx c6wP).1 =
      (sbd_expire c6wCtx c6wP.timestamp).set 0
        ⟨!decide ((c6wP.msgno : Int) =
            ((sbd_expire c6wCtx c6wP.timestamp).getD 0 sbdInactive).msgcnt) &&
           ((sbd_expire c6wCtx c6wP.timestamp).getD 0 sbdInactive).active,
         c6wP.msgno,
         ((sbd_expire c6wCtx c6wP.timestamp).getD 0 sbdInactive).msgcnt,
         ((sbd_expire c6wCtx c6wP.timestamp).getD 0 sbdInactive).ul,
         c6wP.timestamp,
         ((sbd_expire c6wCtx c6wP.timestamp).getD 0 sbdInactive).frequency,
         ((sbd_expire c6wCtx c6wP.timestamp).getD 0 sbdInactive).magnitude,
         ((sbd_expire c6wCtx c6wP.timestamp).getD 0 sbdInactive).data ++
           c6wP.data.take (min c6wP.data.length
             (1024 - ((sbd_expire c6wCtx c6wP.timestamp).getD 0 sbdInactive).data.length))⟩ ∧
    (sbd_extract_dispatch c6wCtx c6wP).2 =
      (if (c6wP.msgno : Int) =
          ((sbd_expire c6wCtx c6wP.timestamp).getD 0 sbdInactive).msgcnt then
        some ⟨((sbd_expire c6wCtx c6wP.timestamp).getD 0 sbdInactive).data ++
            c6wP.data.take (min c6wP.data.length
              (1024 - ((sbd_expire c6wCtx c6wP.timestamp).getD 0 sbdInactive).data.length)),
          c6wP.ul, c6wP.timestamp,
          ((sbd_expire c6wCtx c6wP.timestamp).getD 0 sbdInactive).frequency,
          ((sbd_expire c6wCtx c6wP.timestamp).getD 0 sbdInactive).magnitude⟩
      else none) :=
  c6_sbd_continuation_amended c6wCtx c6wP 0 (by decide) (by decide) (by decide)

/-! ## Voice call clustering (`voice_decode.c`) -/

/-- `active_call_t` (`voice_decode.c:38-45`).  `frames` holds the
`n_frames` stored `(timestamp, frequency)` pairs (the AMBE payload
bytes are never read by the clustering logic modelled here). -/
structure ActiveCall where
  active : Bool
  frames : List (Nat × ℚ)
  first_time : Nat
  last_time : Nat
  freq_sum : ℚ
deriving DecidableEq

def emptyCall : ActiveCall := ⟨false, [], 0, 0, 0⟩

def voiceFresh : List ActiveCall := List.replicate 8 emptyCall

/-- The `reset:` epilogue of `finalize_call`: deactivate and clear. -/
def resetCall (c : ActiveCall) : ActiveCall :=
  { c with active := false, frames := [], freq_sum := 0 }

/-- `find_call(frequency)`: first active slot whose running mean
frequency is within 20 kHz. -/
def find_call (calls : List ActiveCall) (frequency : ℚ) : Option Nat :=
  (List.range calls.length).find? fun i =>
    let c := calls.getD i emptyCall
    c.active && decide (ratAbs (frequency - c.freq_sum / (c.frames.length : ℚ)) ≤ 20000)

/-- The eviction scan of `alloc_call`: first index of strictly minimal
`first_time`, starting from slot 0. -/
def vocOldest : List ActiveCall → Nat → Nat × Nat → Nat
  | [], _, acc => acc.1
  | c :: rest, i, acc =>
      if c.first_time < acc.2 then vocOldest rest (i + 1) (i, c.first_time)
      else vocOldest rest (i + 1) acc

/-- `alloc_call()` followed by the fresh-slot initialisation and the
first `Add frame` block of `voice_decode_add_frame`. -/
def allocAdd (calls : List ActiveCall) (timestamp : Nat) (frequency : ℚ) :
    List ActiveCall :=
  let idx := match calls.findIdx? (fun c => !c.active) with
    | some i => i
    | none => vocOldest (calls.drop 1) 1 (0, (calls.getD 0 emptyCall).first_time)
  calls.set idx ⟨true, [(timestamp, frequency)], timestamp, timestamp, frequency⟩

/-- `voice_decode_add_frame(voc, timestamp, frequency)`, restricted to
the active-call array (the archive side of `finalize_call` does not
feed back into `active_calls`, so it is dropped from this projection;
frames beyond the 2000-frame cap update only `last_time`/`freq_sum`). -/
def voice_decode_add_frame (calls : List ActiveCall) (timestamp : Nat)
    (frequency : ℚ) : List ActiveCall :=
  match find_call calls frequency with
  | some i =>
      let c := calls.getD i emptyCall
      if 20000000000 < (timestamp + 2 ^ 64 - c.last_time) % 2 ^ 64 then
        allocAdd (calls.set i (resetCall c)) timestamp frequency
      else
        calls.set i
          { c with
            frames := if c.frames.length < 2000 then c.frames ++ [(timestamp, frequency)]
              else c.frames,
            last_time := timestamp,
            freq_sum := c.freq_sum + frequency }
  | none => allocAdd calls timestamp frequency

/-- Feed a `(timestamp, frequency)` sequence from a cold start. -/
def voice_run (inputs : List (Nat × ℚ)) : List ActiveCall :=
  inputs.foldl (fun st p => voice_decode_add_frame st p.1 p.2) voiceFresh

/-- Consecutive stored frames are at most 20 s apart (uint64 gap, as
computed by the C `dt` check). -/
def dtOk (a b : Nat × ℚ) : Prop := (b.1 + 2 ^ 64 - a.1) % 2 ^ 64 ≤ 20000000000

/-- Every stored frame after the first sits within 20 kHz of the mean
frequency of the frames stored before it. -/
def freqOk (l : List (Nat × ℚ)) : Prop :=
  ∀ k, 0 < k → k < l.length →
    ratAbs ((l.getD k (0, 0)).2 - ((l.take k).map Prod.snd).sum / (k : ℚ)) ≤ 20000



/-- The per-slot invariant the clustering loop maintains. -/
def callInv (c : ActiveCall) : Prop :=
  c.active = true →
    c.frames ≠ [] ∧
    (c.frames.length < 2000 →
      c.freq_sum = (c.frames.map Prod.snd).sum ∧
      c.last_time = (c.frames.getLast?.getD (0, 0)).1) ∧
    List.Chain' dtOk c.frames ∧ freqOk c.frames

theorem freqOk_nil : freqOk [] := by
  intro k _ hk
  simp at hk

theorem freqOk_singleton (x : Nat × ℚ) : freqOk [x] := by
  intro k hk hklen
  simp at hklen
  omega

theorem freqOk_append {l : List (Nat × ℚ)} {x : Nat × ℚ}
    (h : freqOk l)
    (hx : ratAbs (x.2 - (l.map Prod.snd).sum / (l.length : ℚ)) ≤ 20000) :
    freqOk (l ++ [x]) := by
  intro k hk hklen
  rw [List.length_append] at hklen
  rcases Nat.lt_or_ge k l.length with hlt | hge
  · have e1 : (l ++ [x]).getD k (0, 0) = l.getD k (0, 0) := by
      rw [List.getD_eq_getElem?_getD, List.getD_eq_getElem?_getD,
        List.getElem?_append_left hlt]
    have e2 : (l ++ [x]).take k = l.take k :=
      List.take_append_of_le_length (by omega)
    rw [e1, e2]
    exact h k hk hlt
  · have hkeq : k = l.length := by simp at hklen; omega
    subst hkeq
    have e1 : (l ++ [x]).getD l.length (0, 0) = x := by
      rw [List.getD_eq_getElem?_getD, List.getElem?_append_right (le_refl _)]
      simp
    have e2 : (l ++ [x]).take l.length = l := List.take_left _ _
    rw [e1, e2]
    exact hx

theorem chain'_concat {l : List (Nat × ℚ)} {x : Nat × ℚ}
    (h : List.Chain' dtOk l)
    (hx : ∀ a, l.getLast? = some a → dtOk a x) :
    List.Chain' dtOk (l ++ [x]) := by
  rw [List.chain'_append]
  refine ⟨h, List.chain'_singleton _, ?_⟩
  intro a ha y hy
  simp at hy
  rw [← hy]
  exact hx a ha

theorem find_call_spec {calls : List ActiveCall} {f : ℚ} {i : Nat}
    (h : find_call calls f = some i) :
    i < calls.length ∧ (calls.getD i emptyCall).active = true ∧
    ratAbs (f - (calls.getD i emptyCall).freq_sum /
      ((calls.getD i emptyCall).frames.length : ℚ)) ≤ 20000 := by
  unfold find_call at h
  have h2 := List.find?_some h
  have h3 := List.mem_range.mp (List.mem_of_find?_eq_some h)
  simp only [Bool.and_eq_true, decide_eq_true_eq] at h2
  exact ⟨h3, h2.1, h2.2⟩

/-- A freshly (re)allocated slot satisfies the invariant. -/
theorem callInv_new (t : Nat) (f : ℚ) :
    callInv ⟨true, [(t, f)], t, t, f⟩ := by
  intro _
  refine ⟨by simp, by intro _; simp, List.chain'_singleton _, freqOk_singleton _⟩

theorem callInv_reset (c : ActiveCall) : callInv (resetCall c) := by
  intro hx
  simp [resetCall] at hx

theorem allocAdd_inv {calls : List ActiveCall} (t : Nat) (f : ℚ)
    (hinv : ∀ c ∈ calls, callInv c) :
    ∀ c ∈ allocAdd calls t f, callInv c := by
  intro c hc
  unfold allocAdd at hc
  rcases List.mem_or_eq_of_mem_set hc with h | h
  · exact hinv c h
  · rw [h]
    exact callInv_new t f

/-- One `voice_decode_add_frame` call preserves the invariant. -/
theorem add_frame_inv {calls : List ActiveCall} (t : Nat) (f : ℚ)
    (hinv : ∀ c ∈ calls, callInv c) :
    ∀ c ∈ voice_decode_add_frame calls t f, callInv c := by
  intro c hc
  rcases hfc : find_call calls f with _ | i
  · unfold voice_decode_add_frame at hc
    simp only [hfc] at hc
    exact allocAdd_inv t f hinv c hc
  · unfold voice_decode_add_frame at hc
    simp only [hfc] at hc
    obtain ⟨hilt, hact, hfreq⟩ := find_call_spec hfc
    have hsinv := hinv (calls.getD i emptyCall) (by
      rw [List.getD_eq_getElem?_getD, List.getElem?_eq_getElem hilt]
      exact List.getElem_mem _)
    obtain ⟨hne, haux, hchain, hfok⟩ := hsinv hact
    split at hc
    · -- gap too large: reset + fresh slot
      refine allocAdd_inv t f ?_ c hc
      intro x hx
      rcases List.mem_or_eq_of_mem_set hx with h | h
      · exact hinv x h
      · rw [h]
        exact callInv_reset _
    · -- append to the matched slot
      rename_i hdt
      rcases List.mem_or_eq_of_mem_set hc with h | h
      · exact hinv c h
      · rw [h]
        intro _
        by_cases hlen : (calls.getD i emptyCall).frames.length < 2000
        · obtain ⟨hsum, hlast⟩ := haux hlen
          rw [if_pos hlen]
          refine ⟨by simp, ?_, ?_, ?_⟩
          · intro _
            constructor
            · rw [hsum]
              simp
            · rw [List.getLast?_concat]
              rfl
          · refine chain'_concat hchain (fun a ha => ?_)
            have ha1 : a.1 = (calls.getD i emptyCall).last_time := by
              rw [hlast, ha]
              rfl
            unfold dtOk
            rw [ha1]
            omega
          · refine freqOk_append hfok ?_
            have hp2 : ((t, f) : Nat × ℚ).2 = f := rfl
            rw [hp2, ← hsum]
            exact hfreq
        · rw [if_neg hlen]
          refine ⟨hne, fun hx => absurd ?_ hlen, hchain, hfok⟩
          simpa using hx



/-- C8 (amended): what the clustering loop actually guarantees within
one call — consecutive stored frames at most 20 s apart, and each
stored frame within 20 kHz of the running mean of its predecessors.
(Pairwise bounds over the whole call do not hold; see the
counterexample.) -/
theorem c8_clustering_amended (inputs : List (Nat × ℚ)) :
    ∀ c ∈ voice_run inputs, c.active = true →
      List.Chain' dtOk c.frames ∧ freqOk c.frames := by
  have hbase : ∀ c ∈ voiceFresh, callInv c := by
    intro c hc
    rw [List.eq_of_mem_replicate hc]
    intro hx
    simp [emptyCall] at hx
  suffices h : ∀ st, (∀ c ∈ st, callInv c) →
      ∀ c ∈ inputs.foldl (fun st p => voice_decode_add_frame st p.1 p.2) st, callInv c by
    intro c hc hact
    have := h voiceFresh hbase c hc hact
    exact ⟨this.2.2.1, this.2.2.2⟩
  induction inputs with
  | nil =>
      intro st hst
      simpa using hst
  | cons p rest ih =>
      intro st hst
      rw [List.foldl_cons]
      exact ih _ (add_frame_inv p.1 p.2 hst)

/-- Three VOC frames that chain into one call while the first and last
stored frames differ by 30 kHz and 30 s. -/
def c8Inputs : List (Nat × ℚ) :=
  [(0, 1626000000), (15000000000, 1626020000), (30000000000, 1626030000)]

theorem c8_counterexample :
    ((voice_run c8Inputs).getD 0 emptyCall).active = true ∧
    ((voice_run c8Inputs).getD 0 emptyCall).frames.length = 3 ∧
    20000 < ratAbs ((((voice_run c8Inputs).getD 0 emptyCall).frames.getD 2 (0, 0)).2 -
      (((voice_run c8Inputs).getD 0 emptyCall).frames.getD 0 (0, 0)).2) ∧
    20000000000 < (((voice_run c8Inputs).getD 0 emptyCall).frames.getD 2 (0, 0)).1 -
      (((voice_run c8Inputs).getD 0 emptyCall).frames.getD 0 (0, 0)).1 := by
  with_unfolding_all decide

def c8wInputs : List (Nat × ℚ) := [(0, 100), (5000000000, 200)]

def c8wCall : ActiveCall := (voice_run c8wInputs).getD 0 emptyCall

theorem c8_clustering_amended_witness :
    List.Chain' dtOk c8wCall.frames ∧ freqOk c8wCall.frames :=
  c8_clustering_amended c8wInputs c8wCall
    (by
      have h8 : (voice_run c8wInputs).length = 8 := by with_unfolding_all decide
      show (voice_run c8wInputs).getD 0 emptyCall ∈ voice_run c8wInputs
      rw [List.getD_eq_getElem?_getD, List.getElem?_eq_getElem (by omega)]
      exact List.getElem_mem _)
    (by with_unfolding_all decide)



/-! ## Completed-call archive (`finalize_call` store + circular buffer) -/

inductive VoiceQuality where
  | poor
  | fair
  | good
deriving DecidableEq

/-- `classify_quality(n_frames, duration_ms)` (ratio thresholds 0.8 and
0.5 against ~11 frames/sec). -/
def classify_quality (n_frames duration_ms : Nat) : VoiceQuality :=
  if duration_ms = 0 then VoiceQuality.poor
  else
    let expected : ℚ := (duration_ms : ℚ) / 90
    let ratio : ℚ := (n_frames : ℚ) / expected
    if 4 / 5 < ratio then VoiceQuality.good
    else if 1 / 2 < ratio then VoiceQuality.fair
    else VoiceQuality.poor

/-- `voice_call_t`: one archived call.  `audio` is the allocation token
of the PCM buffer (`some id` abstracts the `malloc`ed pointer of call
`id`; sample values and normalisation are not modelled). -/
structure VoiceCallRec where
  valid : Bool
  start_time : Nat
  end_time : Nat
  frequency : ℚ
  n_frames : Nat
  quality : VoiceQuality
  audio : Option Nat
  n_samples : Nat
  call_id : Nat
deriving DecidableEq

def voiceCallEmpty : VoiceCallRec := ⟨false, 0, 0, 0, 0, VoiceQuality.poor, none, 0, 0⟩

/-- The circular-buffer globals (`calls`, `call_head`, `call_count`,
`total_calls`) plus the multiset of freed audio tokens. -/
structure VoiceArchive where
  calls : List VoiceCallRec
  call_head : Nat
  call_count : Nat
  total_calls : Nat
  freed : List Nat
deriving DecidableEq

def freshArchive : VoiceArchive := ⟨List.replicate 100 voiceCallEmpty, 0, 0, 0, []⟩

/-- The AMBE decode loop of `finalize_call`: given each superframe's
`ir77_ambe_decode_superframe` return value (an oracle for the external
codec), accumulate `(total_samples, decoded_ok)`. -/
def ambeLoop (rvs : List Int) : Nat × Nat :=
  rvs.foldl (fun acc rv => if 0 < rv then (acc.1 + 720, acc.2 + rv.toNat) else acc) (0, 0)

/-- The store block of `finalize_call` (lines 136-161): free the
overwritten slot's audio, write the new record, advance the ring. -/
def archive_store (a : VoiceArchive) (first_time last_time : Nat) (freq_sum : ℚ)
    (n_frames total_samples : Nat) : VoiceArchive :=
  let slot := a.calls.getD a.call_head voiceCallEmpty
  let freed' := match slot.audio with
    | some tok => a.freed ++ [tok]
    | none => a.freed
  { calls := a.calls.set a.call_head
      ⟨true, first_time, last_time, freq_sum / (n_frames : ℚ), n_frames,
       classify_quality n_frames ((last_time - first_time) / 1000000),
       some a.total_calls, total_samples, a.total_calls⟩,
    call_head := (a.call_head + 1) % 100,
    call_count := if a.call_count < 100 then a.call_count + 1 else a.call_count,
    total_calls := a.total_calls + 1,
    freed := freed' }

/-- `finalize_call(call)`: archive side.  Returns the new archive; the
call slot itself is reset (`resetCall`).  `rvs` is the oracle list of
per-superframe AMBE decode results. -/
def finalize_call (a : VoiceArchive) (c : ActiveCall) (rvs : List Int) :
    VoiceArchive × ActiveCall :=
  if c.active = true ∧ 3 ≤ c.frames.length then
    if 4 ≤ (ambeLoop rvs).2 then
      (archive_store a c.first_time c.last_time c.freq_sum c.frames.length
        (ambeLoop rvs).1, resetCall c)
    else (a, resetCall c)
  else (a, resetCall c)

/-- `voice_decode_get_call(index)`. -/
def voice_decode_get_call (a : VoiceArchive) (index : Nat) : Option VoiceCallRec :=
  if index < a.call_count then
    let pos := (a.call_head + 100 - a.call_count + index) % 100
    if (a.calls.getD pos voiceCallEmpty).valid = true then
      some (a.calls.getD pos voiceCallEmpty)
    else none
  else none

/-- The metadata-free projection of the archive that the C9 claim
talks about: ring position, counters, freed tokens, and each slot's
`(valid, call_id, audio)`. -/
structure ArchProj where
  call_head : Nat
  call_count : Nat
  total_calls : Nat
  freed : List Nat
  slots : List (Bool × Nat × Option Nat)
deriving DecidableEq

def archProj (a : VoiceArchive) : ArchProj :=
  ⟨a.call_head, a.call_count, a.total_calls, a.freed,
   a.calls.map fun r => (r.valid, r.call_id, r.audio)⟩

def archStep (p : ArchProj) : ArchProj :=
  let slot := p.slots.getD p.call_head (false, 0, none)
  ⟨(p.call_head + 1) % 100,
   if p.call_count < 100 then p.call_count + 1 else p.call_count,
   p.total_calls + 1,
   (match slot.2.2 with
    | some tok => p.freed ++ [tok]
    | none => p.freed),
   p.slots.set p.call_head (true, p.total_calls, some p.total_calls)⟩

theorem getD_map_voice (l : List VoiceCallRec) (h : Nat) :
    (l.map fun r => (r.valid, r.call_id, r.audio)).getD h (false, 0, none) =
      ((l.getD h voiceCallEmpty).valid, (l.getD h voiceCallEmpty).call_id,
       (l.getD h voiceCallEmpty).audio) := by
  rcases hx : l[h]? with _ | r
  · rw [List.getD_eq_getElem?_getD, List.getD_eq_getElem?_getD, hx,
      List.getElem?_map, hx]
    rfl
  · rw [List.getD_eq_getElem?_getD, List.getD_eq_getElem?_getD, hx,
      List.getElem?_map, hx]
    rfl

theorem archProj_store (a : VoiceArchive) (ft lt : Nat) (fs : ℚ) (nf ts : Nat) :
    archProj (archive_store a ft lt fs nf ts) = archStep (archProj a) := by
  unfold archive_store archStep archProj
  simp only [List.map_set, getD_map_voice]

theorem archProj_finalize (a : VoiceArchive) (c : ActiveCall) (rvs : List Int)
    (hact : c.active = true) (h3 : 3 ≤ c.frames.length) (h4 : 4 ≤ (ambeLoop rvs).2) :
    archProj (finalize_call a c rvs).1 = archStep (archProj a) := by
  unfold finalize_call
  rw [if_pos ⟨hact, h3⟩, if_pos h4]
  exact archProj_store a _ _ _ _ _



/-- 101 successful finalizations in sequence. -/
def archRun (steps : List (ActiveCall × List Int)) : VoiceArchive :=
  steps.foldl (fun a s => (finalize_call a s.1 s.2).1) freshArchive

theorem archRun_proj (steps : List (ActiveCall × List Int))
    (hok : ∀ s ∈ steps, s.1.active = true ∧ 3 ≤ s.1.frames.length ∧
      4 ≤ (ambeLoop s.2).2) :
    archProj (archRun steps) = archStep^[steps.length] (archProj freshArchive) := by
  unfold archRun
  suffices h : ∀ a, (∀ s ∈ steps, s.1.active = true ∧ 3 ≤ s.1.frames.length ∧
      4 ≤ (ambeLoop s.2).2) →
      archProj (steps.foldl (fun a s => (finalize_call a s.1 s.2).1) a) =
        archStep^[steps.length] (archProj a) from h freshArchive hok
  clear hok
  induction steps with
  | nil => intro a _; rfl
  | cons s rest ih =>
      intro a hok
      obtain ⟨h1, h2, h3⟩ := hok s (List.mem_cons_self _ _)
      rw [List.foldl_cons, List.length_cons, Function.iterate_succ_apply]
      rw [← archProj_finalize a s.1 s.2 h1 h2 h3]
      exact ih _ (fun x hx => hok x (List.mem_cons_of_mem _ hx))

theorem arch101_facts :
    (archStep^[101] (archProj freshArchive)).call_count = 100 ∧
    (archStep^[101] (archProj freshArchive)).call_head = 1 ∧
    (archStep^[101] (archProj freshArchive)).freed = [0] ∧
    (archStep^[101] (archProj freshArchive)).slots.getD 1 (false, 0, none) =
      (true, 1, some 1) ∧
    ((archStep^[101] (archProj freshArchive)).slots.all
      (fun q => q.2.2 != some 0)) = true := by
  decide

/-- C9: after 101 successful finalizations (each with an active call of
at least 3 frames and at least 4 decoded sub-frames), the archive holds
exactly 100 entries, `voice_decode_get_call(0)` returns call-id 1, and
the PCM buffer token of overwritten call 0 has been freed exactly once
and survives in no slot. -/
theorem c9_archive_rotation (steps : List (ActiveCall × List Int))
    (hlen : steps.length = 101)
    (hok : ∀ s ∈ steps, s.1.active = true ∧ 3 ≤ s.1.frames.length ∧
      4 ≤ (ambeLoop s.2).2) :
    (archRun steps).call_count = 100 ∧
    (voice_decode_get_call (archRun steps) 0).map (fun r => r.call_id) = some 1 ∧
    (archRun steps).freed = [0] ∧
    (∀ r ∈ (archRun steps).calls, r.audio ≠ some 0) := by
  have hproj := archRun_proj steps hok
  rw [hlen] at hproj
  obtain ⟨f1, f2, f3, f4, f5⟩ := arch101_facts
  have hcount : (archRun steps).call_count = 100 := by
    have := congrArg ArchProj.call_count hproj
    rw [f1] at this
    exact this
  have hhead : (archRun steps).call_head = 1 := by
    have := congrArg ArchProj.call_head hproj
    rw [f2] at this
    exact this
  have hfreed : (archRun steps).freed = [0] := by
    have := congrArg ArchProj.freed hproj
    rw [f3] at this
    exact this
  have hslots := congrArg ArchProj.slots hproj
  have hslot1 : ((archRun steps).calls.getD 1 voiceCallEmpty).valid = true ∧
      ((archRun steps).calls.getD 1 voiceCallEmpty).call_id = 1 := by
    have h := getD_map_voice (archRun steps).calls 1
    have h2 : ((archRun steps).calls.map fun r => (r.valid, r.call_id, r.audio)).getD 1
        (false, 0, none) = (true, 1, some 1) := by
      show (archProj (archRun steps)).slots.getD 1 (false, 0, none) = (true, 1, some 1)
      rw [hproj]
      exact f4
    rw [h] at h2
    exact ⟨congrArg (fun t => t.1) h2, congrArg (fun t => t.2.1) h2⟩
  refine ⟨hcount, ?_, hfreed, ?_⟩
  · unfold voice_decode_get_call
    rw [hcount, hhead]
    rw [if_pos (by omega)]
    have hpos : (1 + 100 - 100 + 0) % 100 = 1 := by decide
    rw [hpos, if_pos hslot1.1]
    show some (((archRun steps).calls.getD 1 voiceCallEmpty).call_id) = some 1
    rw [hslot1.2]
  · intro r hr
    have hmem : (r.valid, r.call_id, r.audio) ∈ (archProj (archRun steps)).slots :=
      List.mem_map_of_mem _ hr
    rw [hproj] at hmem
    have := List.all_eq_true.mp f5 _ hmem
    simp only [bne_iff_ne, ne_eq] at this
    exact this



def c9Call : ActiveCall := ⟨true, [(0, 100), (1, 100), (2, 100)], 0, 2, 300⟩

def c9Steps : List (ActiveCall × List Int) := List.replicate 101 (c9Call, [2, 2])

theorem c9_archive_rotation_witness :
    (archRun c9Steps).call_count = 100 ∧
    (voice_decode_get_call (archRun c9Steps) 0).map (fun r => r.call_id) = some 1 ∧
    (archRun c9Steps).freed = [0] ∧
    (∀ r ∈ (archRun c9Steps).calls, r.audio ≠ some 0) :=
  c9_archive_rotation c9Steps (by decide) (by decide)

/-! ### The Chase retry loop is a first-hit scan over masks 1..31 -/

theorem chaseLoop_eq_findSome (cand : List Nat) (base : Nat) :
    ∀ fuel start, chaseLoop cand base fuel start =
      (List.range' start fuel).findSome? (fun m => chaseTry (flipVal cand base m)) := by
  intro fuel
  induction fuel with
  | zero => intro start; rfl
  | succ n ih =>
      intro start
      rw [List.range'_succ, List.findSome?_cons]
      show (match chaseTry (flipVal cand base start) with
        | some r => some r
        | none => chaseLoop cand base n (start + 1)) = _
      cases chaseTry (flipVal cand base start) with
      | none => exact ih (start + 1)
      | some r => rfl

/-! ### getD/set and swap helpers -/

theorem getD_set_self (l : List Nat) {i : Nat} (h : i < l.length) (a : Nat) :
    (l.set i a).getD i 0 = a := by
  rw [List.getD_eq_getElem?_getD, List.getElem?_set_self h]
  rfl

theorem getD_set_other (l : List Nat) {i k : Nat} (h : i ≠ k) (a : Nat) :
    (l.set i a).getD k 0 = l.getD k 0 := by
  rw [List.getD_eq_getElem?_getD, List.getElem?_set_ne h, ← List.getD_eq_getElem?_getD]

theorem listSwap_getD_fst (l : List Nat) {i j : Nat} (hi : i < l.length)
    (hj : j < l.length) : (listSwap l i j).getD i 0 = l.getD j 0 := by
  unfold listSwap
  by_cases hij : j = i
  · subst hij
    rw [getD_set_self _ (by rw [List.length_set]; exact hi)]
  · rw [getD_set_other _ hij, getD_set_self _ hi]

theorem listSwap_getD_snd (l : List Nat) {i j : Nat} (hi : i < l.length)
    (hj : j < l.length) : (listSwap l i j).getD j 0 = l.getD i 0 := by
  unfold listSwap
  rw [getD_set_self _ (by rw [List.length_set]; exact hj)]

theorem listSwap_getD_other (l : List Nat) {i j k : Nat} (hik : i ≠ k) (hjk : j ≠ k) :
    (listSwap l i j).getD k 0 = l.getD k 0 := by
  unfold listSwap
  rw [getD_set_other _ hjk, getD_set_other _ hik]

theorem count_set (b x : Nat) : ∀ (l : List Nat) (n : Nat), n < l.length →
    (l.set n b).count x + (if l.getD n 0 = x then 1 else 0) =
      l.count x + (if b = x then 1 else 0)
  | [], n, h => by simp at h
  | a :: t, 0, _ => by
      simp only [List.set, List.count_cons, List.getD_cons_zero]
      have : ∀ u v : Nat, (if u == v then 1 else 0) = (if u = v then 1 else 0) := by
        intro u v
        by_cases h : u = v
        · rw [if_pos h, if_pos (by exact beq_iff_eq.mpr h)]
        · rw [if_neg h, if_neg (by simpa using h)]
      rw [this, this]
      omega
  | a :: t, n + 1, h => by
      simp only [List.set, List.count_cons, List.getD_cons_succ]
      have ht := count_set b x t n (by simpa using h)
      omega

theorem listSwap_perm (l : List Nat) {i j : Nat} (hi : i < l.length)
    (hj : j < l.length) : List.Perm (listSwap l i j) l := by
  rw [List.perm_iff_count]
  intro x
  have h1 := count_set (l.getD j 0) x l i hi
  have h2 := count_set (l.getD i 0) x (l.set i (l.getD j 0)) j
    (by rw [List.length_set]; exact hj)
  have h3 : (l.set i (l.getD j 0)).getD j 0 =
      (if j = i then l.getD j 0 else l.getD j 0) := by
    by_cases hij : i = j
    · subst hij
      rw [getD_set_self _ hi, if_pos rfl]
    · rw [getD_set_other _ hij, if_neg (fun hx => hij hx.symm)]
  simp only [ite_self] at h3
  unfold listSwap
  rw [h3] at h2
  omega



/-- The inner scan of the selection loop, generalized. -/
def fmin (llr : Nat → ℚ) (pos : List Nat) (L : List Nat) (m0 : Nat) : Nat :=
  L.foldl (fun m j => if llr (pos.getD j 0) < llr (pos.getD m 0) then j else m) m0

theorem fmin_spec (llr : Nat → ℚ) (pos : List Nat) :
    ∀ (L : List Nat) (m0 : Nat),
      (fmin llr pos L m0 = m0 ∨ fmin llr pos L m0 ∈ L) ∧
      llr (pos.getD (fmin llr pos L m0) 0) ≤ llr (pos.getD m0 0) ∧
      ∀ j ∈ L, llr (pos.getD (fmin llr pos L m0) 0) ≤ llr (pos.getD j 0) := by
  intro L
  induction L with
  | nil =>
      intro m0
      exact ⟨Or.inl rfl, le_refl _, by intro j hj; simp at hj⟩
  | cons a L2 ih =>
      intro m0
      have hunf : fmin llr pos (a :: L2) m0 =
          fmin llr pos L2 (if llr (pos.getD a 0) < llr (pos.getD m0 0) then a else m0) := by
        unfold fmin
        rw [List.foldl_cons]
      by_cases hca : llr (pos.getD a 0) < llr (pos.getD m0 0)
      · rw [hunf, if_pos hca] at *
        obtain ⟨hmem, hle, hall⟩ := ih a
        refine ⟨?_, le_trans hle (le_of_lt hca), ?_⟩
        · rcases hmem with h | h
          · exact Or.inr (by rw [h]; exact List.mem_cons_self _ _)
          · exact Or.inr (List.mem_cons_of_mem _ h)
        · intro j hj
          rcases List.mem_cons.mp hj with h | h
          · rw [h]
            exact hle
          · exact hall j h
      · rw [hunf, if_neg hca] at *
        obtain ⟨hmem, hle, hall⟩ := ih m0
        refine ⟨?_, hle, ?_⟩
        · rcases hmem with h | h
          · exact Or.inl h
          · exact Or.inr (List.mem_cons_of_mem _ h)
        · intro j hj
          rcases List.mem_cons.mp hj with h | h
          · rw [h]
            exact le_trans hle (not_lt.mp hca)
          · exact hall j h

theorem selMinIdx_spec (llr : Nat → ℚ) (pos : List Nat) {i : Nat} (hi : i < 31) :
    i ≤ selMinIdx llr pos i ∧ selMinIdx llr pos i < 31 ∧
    ∀ j, i ≤ j → j < 31 →
      llr (pos.getD (selMinIdx llr pos i) 0) ≤ llr (pos.getD j 0) := by
  have heq : selMinIdx llr pos i = fmin llr pos (List.range' (i + 1) (31 - (i + 1))) i := rfl
  obtain ⟨hmem, hle, hall⟩ := fmin_spec llr pos (List.range' (i + 1) (31 - (i + 1))) i
  rw [← heq] at hmem hle hall
  have hb : i ≤ selMinIdx llr pos i ∧ selMinIdx llr pos i < 31 := by
    rcases hmem with h | h
    · omega
    · rw [List.mem_range'_1] at h
      omega
  refine ⟨hb.1, hb.2, ?_⟩
  intro j hj1 hj2
  rcases Nat.eq_or_lt_of_le hj1 with h | h
  · rw [← h]
    exact hle
  · exact hall j (by rw [List.mem_range'_1]; omega)

/-- The selection-sort invariant after `i` outer iterations. -/
def SelInv (llr : Nat → ℚ) (i : Nat) (pos : List Nat) : Prop :=
  List.Perm pos (List.range 31) ∧
  (∀ a b, a ≤ b → b < i → llr (pos.getD a 0) ≤ llr (pos.getD b 0)) ∧
  (∀ a j, a < i → i ≤ j → j < 31 → llr (pos.getD a 0) ≤ llr (pos.getD j 0))

theorem selStep_inv (llr : Nat → ℚ) {i : Nat} {pos : List Nat} (hi : i < 31)
    (h : SelInv llr i pos) : SelInv llr (i + 1) (selStep llr pos i) := by
  obtain ⟨hperm, hsort, hdom⟩ := h
  have hlen : pos.length = 31 := by rw [hperm.length_eq, List.length_range]
  obtain ⟨hm1, hm2, hmin⟩ := selMinIdx_spec llr pos hi
  have hil : i < pos.length := by omega
  have hml : selMinIdx llr pos i < pos.length := by omega
  have g1 : (selStep llr pos i).getD i 0 = pos.getD (selMinIdx llr pos i) 0 :=
    listSwap_getD_fst pos hil hml
  have g2 : (selStep llr pos i).getD (selMinIdx llr pos i) 0 = pos.getD i 0 :=
    listSwap_getD_snd pos hil hml
  have g3 : ∀ k, k ≠ i → k ≠ selMinIdx llr pos i →
      (selStep llr pos i).getD k 0 = pos.getD k 0 := by
    intro k hk1 hk2
    exact listSwap_getD_other pos (fun hx => hk1 hx.symm) (fun hx => hk2 hx.symm)
  refine ⟨(listSwap_perm pos hil hml).trans hperm, ?_, ?_⟩
  · intro a b hab hb
    rcases Nat.lt_or_ge b i with hbi | hbi
    · rw [g3 a (by omega) (by omega), g3 b (by omega) (by omega)]
      exact hsort a b hab hbi
    · have hbeq : b = i := by omega
      subst hbeq
      rcases Nat.lt_or_ge a b with hab2 | hab2
      · rw [g3 a (by omega) (by omega), g1]
        exact hdom a (selMinIdx llr pos b) hab2 hm1 hm2
      · have haeq : a = b := by omega
        subst haeq
        exact le_refl _
  · intro a j ha hj1 hj2
    rcases Nat.lt_or_ge a i with hai | hai
    · rw [g3 a (by omega) (by omega)]
      by_cases hjm : j = selMinIdx llr pos i
      · subst hjm
        rw [g2]
        exact hdom a i hai (le_refl _) hi
      · rw [g3 j (by omega) hjm]
        exact hdom a j hai (by omega) hj2
    · have haeq : a = i := by omega
      subst haeq
      rw [g1]
      by_cases hjm : j = selMinIdx llr pos a
      · subst hjm
        rw [g2]
        exact hmin a (le_refl _) hi
      · rw [g3 j (by omega) hjm]
        exact hmin j (by omega) hj2

theorem selInv_five (llr : Nat → ℚ) :
    SelInv llr 5 ((List.range 5).foldl (selStep llr) (List.range 31)) := by
  have h0 : SelInv llr 0 (List.range 31) := by
    refine ⟨List.Perm.refl _, ?_, ?_⟩
    · intro a b _ hb
      omega
    · intro a j ha
      omega
  have hshow : (List.range 5).foldl (selStep llr) (List.range 31) =
      selStep llr (selStep llr (selStep llr (selStep llr
        (selStep llr (List.range 31) 0) 1) 2) 3) 4 := rfl
  rw [hshow]
  exact selStep_inv llr (by omega) (selStep_inv llr (by omega) (selStep_inv llr (by omega)
    (selStep_inv llr (by omega) (selStep_inv llr (by omega) h0))))



theorem getD_eq_get (l : List Nat) {n : Nat} (h : n < l.length) :
    l.getD n 0 = l.get ⟨n, h⟩ := by
  rw [List.getD_eq_getElem?_getD, List.getElem?_eq_getElem h]
  rfl

theorem chasePositions_facts (llr : Nat → ℚ) :
    (chasePositions llr).length = 5 ∧
    (∀ p ∈ chasePositions llr, p < 31) ∧
    (chasePositions llr).Nodup ∧
    List.Chain' (fun a b => llr a ≤ llr b) (chasePositions llr) ∧
    (∀ j, j < 31 → j ∉ chasePositions llr →
      ∀ p ∈ chasePositions llr, llr p ≤ llr j) := by
  obtain ⟨hperm, hsort, hdom⟩ := selInv_five llr
  have hlen : ((List.range 5).foldl (selStep llr) (List.range 31)).length = 31 := by
    rw [hperm.length_eq, List.length_range]
  have hclen : (chasePositions llr).length = 5 := by
    unfold chasePositions
    rw [List.length_take, hlen]
    omega
  have hcget : ∀ (a : Nat) (h : a < 5), (chasePositions llr).getD a 0 =
      ((List.range 5).foldl (selStep llr) (List.range 31)).getD a 0 := by
    intro a h
    unfold chasePositions
    rw [List.getD_eq_getElem?_getD, List.getElem?_take_of_lt h,
      ← List.getD_eq_getElem?_getD]
  have hidx : ∀ p ∈ chasePositions llr, ∃ a, a < 5 ∧
      ((List.range 5).foldl (selStep llr) (List.range 31)).getD a 0 = p := by
    intro p hp
    obtain ⟨a, ha, hpa⟩ := List.getElem_of_mem hp
    rw [hclen] at ha
    refine ⟨a, ha, ?_⟩
    rw [← hcget a ha, List.getD_eq_getElem?_getD,
      List.getElem?_eq_getElem (by rw [hclen]; exact ha), hpa]
    rfl
  have hmemc : ∀ (a : Nat), a < 5 →
      ((List.range 5).foldl (selStep llr) (List.range 31)).getD a 0 ∈
        chasePositions llr := by
    intro a ha
    rw [← hcget a ha, List.getD_eq_getElem?_getD,
      List.getElem?_eq_getElem (by rw [hclen]; exact ha)]
    exact List.getElem_mem _
  refine ⟨hclen, ?_, ?_, ?_, ?_⟩
  · intro p hp
    have hmem : p ∈ (List.range 5).foldl (selStep llr) (List.range 31) :=
      List.mem_of_mem_take hp
    have := hperm.mem_iff.mp hmem
    exact List.mem_range.mp this
  · exact List.Nodup.sublist (List.take_sublist _ _)
      (hperm.nodup_iff.mpr (List.nodup_range _))
  · rw [List.chain'_iff_get]
    intro a ha
    rw [hclen] at ha
    have hlt1 : a < (chasePositions llr).length := by rw [hclen]; omega
    have hlt2 : a + 1 < (chasePositions llr).length := by rw [hclen]; omega
    have e1 : (chasePositions llr).get ⟨a, by omega⟩ =
        ((List.range 5).foldl (selStep llr) (List.range 31)).getD a 0 := by
      have h2 := getD_eq_get (chasePositions llr) hlt1
      rw [hcget a (by omega)] at h2
      exact h2.symm
    have e2 : (chasePositions llr).get ⟨a + 1, by omega⟩ =
        ((List.range 5).foldl (selStep llr) (List.range 31)).getD (a + 1) 0 := by
      have h2 := getD_eq_get (chasePositions llr) hlt2
      rw [hcget (a + 1) (by omega)] at h2
      exact h2.symm
    rw [e1, e2]
    exact hsort a (a + 1) (by omega) (by omega)
  · intro j hj hnj p hp
    have hjP : j ∈ (List.range 5).foldl (selStep llr) (List.range 31) :=
      hperm.mem_iff.mpr (List.mem_range.mpr hj)
    obtain ⟨k, hk, hkj⟩ := List.getElem_of_mem hjP
    rw [hlen] at hk
    have hk5 : 5 ≤ k := by
      by_contra hlt
      push_neg at hlt
      apply hnj
      have := hmemc k hlt
      rw [List.getD_eq_getElem?_getD, List.getElem?_eq_getElem (by omega), hkj] at this
      exact this
    obtain ⟨a, ha, hap⟩ := hidx p hp
    rw [← hap]
    have hkD : ((List.range 5).foldl (selStep llr) (List.range 31)).getD k 0 = j := by
      rw [List.getD_eq_getElem?_getD, List.getElem?_eq_getElem (by omega), hkj]
      rfl
    rw [← hkD]
    exact hdom a k ha hk5 (by omega)

/-- C5 (amended): when the syndrome is nonzero and unlisted and LLRs
are present, the Chase decoder's flip candidates are the 5 positions of
smallest *signed* LLR value, in ascending signed order (the C comparison
is `llr31[pos[j]] < llr31[pos[min_idx]]` on raw values, not
magnitudes), and the retry loop is a first-hit scan over the 31
non-empty flip masks in mask order. -/
theorem c5_chase_selection_amended (bl : Nat → Bool) (llr : Nat → ℚ)
    (hs1 : gf2_remainder 3545 (bitsToUintF bl 31) ≠ 0)
    (hs2 : ¬(gf2_remainder 3545 (bitsToUintF bl 31) < 2048 ∧
      0 ≤ (synGet syn_da (gf2_remainder 3545 (bitsToUintF bl 31))).errs)) :
    chase_bch_da bl (some llr) =
      (List.range' 1 31).findSome?
        (fun m => chaseTry (flipVal (chasePositions llr) (bitsToUintF bl 31) m)) ∧
    (chasePositions llr).length = 5 ∧
    (∀ p ∈ chasePositions llr, p < 31) ∧
    (chasePositions llr).Nodup ∧
    List.Chain' (fun a b => llr a ≤ llr b) (chasePositions llr) ∧
    (∀ j, j < 31 → j ∉ chasePositions llr →
      ∀ p ∈ chasePositions llr, llr p ≤ llr j) := by
  obtain ⟨f1, f2, f3, f4, f5⟩ := chasePositions_facts llr
  refine ⟨?_, f1, f2, f3, f4, f5⟩
  simp only [chase_bch_da]
  rw [if_neg hs1, if_neg hs2]
  exact chaseLoop_eq_findSome (chasePositions llr) (bitsToUintF bl 31) 31 1

/-- A 31-bit chunk with syndrome 7 (three flipped bits, not in the
table). -/
def c5Bl : Nat → Bool := fun i => decide (28 ≤ i ∧ i < 31)

/-- LLRs where position 0 has the most negative value but the largest
magnitude. -/
def c5Llr : Nat → ℚ := fun j => if j = 0 then -100 else (j : ℚ)

theorem c5_counterexample :
    gf2_remainder 3545 (bitsToUintF c5Bl 31) ≠ 0 ∧
    ¬(gf2_remainder 3545 (bitsToUintF c5Bl 31) < 2048 ∧
      0 ≤ (synGet syn_da (gf2_remainder 3545 (bitsToUintF c5Bl 31))).errs) ∧
    chasePositions c5Llr = [0, 1, 2, 3, 4] ∧
    0 ∈ chasePositions c5Llr ∧ 5 ∉ chasePositions c5Llr ∧
    ratAbs (c5Llr 5) < ratAbs (c5Llr 0) := by
  have h7 : gf2_remainder 3545 (bitsToUintF c5Bl 31) = 7 := by decide
  have hm : daMask.testBit 7 = false := by decide
  refine ⟨by rw [h7]; decide, ?_, ?_, ?_, ?_, ?_⟩
  · rw [h7]
    intro hx
    have := syn_da_unfilled hm
    omega
  · with_unfolding_all decide
  · with_unfolding_all decide
  · with_unfolding_all decide
  · with_unfolding_all decide

theorem c5_chase_selection_amended_witness :
    chase_bch_da c5Bl (some c5Llr) =
      (List.range' 1 31).findSome?
        (fun m => chaseTry (flipVal (chasePositions c5Llr) (bitsToUintF c5Bl 31) m)) ∧
    (chasePositions c5Llr).length = 5 ∧
    (∀ p ∈ chasePositions c5Llr, p < 31) ∧
    (chasePositions c5Llr).Nodup ∧
    List.Chain' (fun a b => c5Llr a ≤ c5Llr b) (chasePositions c5Llr) ∧
    (∀ j, j < 31 → j ∉ chasePositions c5Llr →
      ∀ p ∈ chasePositions c5Llr, c5Llr p ≤ c5Llr j) :=
  c5_chase_selection_amended c5Bl c5Llr
    (by
      rw [show gf2_remainder 3545 (bitsToUintF c5Bl 31) = 7 from by decide]
      decide)
    (by
      rw [show gf2_remainder 3545 (bitsToUintF c5Bl 31) = 7 from by decide]
      intro hx
      have := syn_da_unfilled (by decide : daMask.testBit 7 = false)
      omega)

end IridiumSniffer
